import Mathlib

/-!
# Dense forward-mode AD: the run-time sized `Evaluation`

A shallow embedding of `opm/material/densead/DynamicEvaluation.hpp`
(`Opm::DenseAd::Evaluation<ValueT, DynamicSize, staticSize>`), followed by the
properties of its arithmetic.

Conventions of the embedding.

* The scalar type `ValueT` is a type parameter `α`; every definition asks only for
  the operations the corresponding C++ body uses (`+`, `-`, `*`, `/`, `0`, `1`).
  The template parameter `RhsValueType` of the scalar overloads is taken to be `α`.
* The member `data_` is a list of scalars. Compound assignments are functions from
  the object before the call to the object after it.
* Whatever C++ leaves without a result (a failed `assert`, an index outside the
  stored scalars, a storage request of negative length) is `none`.
* `int` quantities are mathematical integers; indices into `data_` are naturals.
  Overflow of `int` is not part of the model.
* `checkDefined_()` only talks to Valgrind and changes nothing; it is left out.
-/

namespace Opm
namespace DenseAd

/-- Modelled from the spec: the storage `FastSmallVector<ValueT, staticSize>` behind
`data_` (its header `FastSmallVector.hpp` is not among the sources) is an ordered
sequence of scalars, "exactly n+1 scalars stored contiguously", slot 0 the value and
slots `1..n` the derivatives. Whether the scalars live in the inline buffer or on the
heap is invisible to the arithmetic, so the sequence is a list. -/
structure Evaluation (α : Type) where
  data_ : List α
deriving DecidableEq, Repr

/-- The counted loop `for (int i = lo; i < hi; ++i) body`, run as
`forLoop body lo (hi - lo)`: the second argument is the next index, the third the
number of iterations left. Every loop of the class is bounded by `length_()`, which
no loop body changes, so the trip count is known on entry. An iteration without a
result leaves the whole loop without one. -/
def forLoop {σ : Type} (body : Nat → σ → Option σ) : Nat → Nat → σ → Option σ
  | _, 0, s => some s
  | i, k + 1, s => (body i s).bind (forLoop body (i + 1) k)

/-- The counted loop `for (int idx = lo; idx < hi; ++idx) body` whose body only reads
and may `return` a result: `some r` from an iteration is the `return r` that ends the
loop, `none` lets it go on to the next index. The loop answers `some r` when an
iteration returned `r` and `none` when it ran to its end. -/
def forLoopReturn {ρ : Type} (body : Nat → Option (Option ρ)) :
    Nat → Nat → Option (Option ρ)
  | _, 0 => some none
  | i, k + 1 =>
    (body i).bind fun o =>
      match o with
      | some r => some (some r)
      | none => forLoopReturn body (i + 1) k

namespace Evaluation

variable {α : Type}

/-- Modelled from the spec: the `FastSmallVector(numElem, value)` constructor used as
`data_(1 + numDerivatives, 0.0)`: `numElem` copies of `value`. The count arrives as an
`int`; a negative one is no length the storage can have. -/
def fill (numElem : Int) (value : α) : Option (Evaluation α) :=
  if 0 ≤ numElem then some ⟨List.replicate numElem.toNat value⟩ else none

/-- The read `data_[i]`. -/
def readAt (this : Evaluation α) (i : Nat) : Option α :=
  this.data_[i]?

/-- The write `data_[i] = x`. -/
def writeAt (this : Evaluation α) (i : Nat) (x : α) : Option (Evaluation α) :=
  if i < this.data_.length then some ⟨this.data_.set i x⟩ else none

/-- The member `int size() const`: `data_.size() - 1`. -/
def size (this : Evaluation α) : Int :=
  (this.data_.length : Int) - 1

/-- The member `length_()`: `data_.size()`. -/
def length_ (this : Evaluation α) : Nat :=
  this.data_.length

/-- The member `valuepos_()`. -/
def valuepos_ (_this : Evaluation α) : Nat := 0

/-- The member `dstart_()`. -/
def dstart_ (_this : Evaluation α) : Nat := 1

/-- The member `dend_()`. -/
def dend_ (this : Evaluation α) : Nat :=
  this.length_

/-- The member `value()`: `data_[valuepos_()]`. -/
def value (this : Evaluation α) : Option α :=
  this.readAt this.valuepos_

/-- The member `setValue(val)`: `data_[valuepos_()] = val`. -/
def setValue (this : Evaluation α) (val : α) : Option (Evaluation α) :=
  this.writeAt this.valuepos_ val

/-- The member `derivative(varIdx)`: asserts `0 <= varIdx && varIdx < size()` and
reads `data_[dstart_() + varIdx]`. -/
def derivative (this : Evaluation α) (varIdx : Int) : Option α :=
  if 0 ≤ varIdx ∧ varIdx < this.size then
    this.readAt (this.dstart_ + varIdx.toNat)
  else none

/-- The member `setDerivative(varIdx, derVal)`. -/
def setDerivative (this : Evaluation α) (varIdx : Int) (derVal : α) :
    Option (Evaluation α) :=
  if 0 ≤ varIdx ∧ varIdx < this.size then
    this.writeAt (this.dstart_ + varIdx.toNat) derVal
  else none

/-- The member `clearDerivatives()`: `data_[i] = 0.0` for `i` from `dstart_()` up to
`dend_()`. -/
def clearDerivatives [Zero α] (this : Evaluation α) : Option (Evaluation α) :=
  forLoop (fun i e => e.writeAt i 0) this.dstart_ (this.dend_ - this.dstart_) this

/-- The constructor `Evaluation(int numDerivatives, const RhsValueType& c)`:
`data_(1 + numDerivatives, 0.0)`, then `setValue(c)`. -/
def mkConstant [Zero α] (numDerivatives : Int) (c : α) : Option (Evaluation α) :=
  (fill (1 + numDerivatives) (0 : α)).bind fun e => e.setValue c

/-- The constructor `Evaluation(int nVars, const RhsValueType& c, int varPos)`:
`data_(1 + nVars, 0.0)`, the assertion `0 <= varPos && varPos < size()`,
`setValue(c)`, then `data_[varPos + dstart_()] = 1.0`. -/
def mkVariable [Zero α] [One α] (nVars : Int) (c : α) (varPos : Int) :
    Option (Evaluation α) :=
  (fill (1 + nVars) (0 : α)).bind fun e =>
    if 0 ≤ varPos ∧ varPos < e.size then
      (e.setValue c).bind fun e1 => e1.writeAt (varPos.toNat + e1.dstart_) 1
    else none

/-- The static member `createVariable(nVars, value, varPos)`. -/
def createVariable [Zero α] [One α] (nVars : Int) (value : α) (varPos : Int) :
    Option (Evaluation α) :=
  mkVariable nVars value varPos

/-- The static member `createConstant(nVars, value)`. -/
def createConstant [Zero α] (nVars : Int) (value : α) : Option (Evaluation α) :=
  mkConstant nVars value

/-- The right operand `const Evaluation& other` of a compound assignment is a
reference: to an object apart from the left operand, or to the left operand itself
(as in `a *= a`), in which case every read through it sees the writes made so far. -/
inductive Rhs (α : Type) where
  | obj (e : Evaluation α)
  | self

/-- What the reference `other` denotes while the left operand is in state `this`. -/
def Rhs.deref (other : Rhs α) (this : Evaluation α) : Evaluation α :=
  match other with
  | Rhs.obj e => e
  | Rhs.self => this

/-- The member `operator+=(const Evaluation& other)`. -/
def addAssign [Add α] (this : Evaluation α) (other : Rhs α) : Option (Evaluation α) :=
  if this.size = (other.deref this).size then
    forLoop (fun i e =>
        (e.readAt i).bind fun x =>
        ((other.deref e).readAt i).bind fun y =>
        e.writeAt i (x + y))
      0 (this.length_ - 0) this
  else none

/-- The member `operator+=(const RhsValueType& other)`:
`data_[valuepos_()] += other`. -/
def addAssignScalar [Add α] (this : Evaluation α) (other : α) : Option (Evaluation α) :=
  (this.readAt this.valuepos_).bind fun x => this.writeAt this.valuepos_ (x + other)

/-- The member `operator-=(const Evaluation& other)`. -/
def subAssign [Sub α] (this : Evaluation α) (other : Rhs α) : Option (Evaluation α) :=
  if this.size = (other.deref this).size then
    forLoop (fun i e =>
        (e.readAt i).bind fun x =>
        ((other.deref e).readAt i).bind fun y =>
        e.writeAt i (x - y))
      0 (this.length_ - 0) this
  else none

/-- The member `operator-=(const RhsValueType& other)`:
`data_[valuepos_()] -= other`. -/
def subAssignScalar [Sub α] (this : Evaluation α) (other : α) : Option (Evaluation α) :=
  (this.readAt this.valuepos_).bind fun x => this.writeAt this.valuepos_ (x - other)

/-- The member `operator*=(const Evaluation& other)`: `u` and `v` are copies of the
two values taken on entry; `data_[valuepos_()] *= v`; then
`data_[i] = data_[i] * v + other.data_[i] * u` for the derivative slots. -/
def mulAssign [Add α] [Mul α] (this : Evaluation α) (other : Rhs α) :
    Option (Evaluation α) :=
  if this.size = (other.deref this).size then
    this.value.bind fun u =>
    (other.deref this).value.bind fun v =>
    (this.readAt this.valuepos_).bind fun x =>
    (this.writeAt this.valuepos_ (x * v)).bind fun this1 =>
    forLoop (fun i e =>
        (e.readAt i).bind fun di =>
        ((other.deref e).readAt i).bind fun oi =>
        e.writeAt i (di * v + oi * u))
      this1.dstart_ (this1.dend_ - this1.dstart_) this1
  else none

/-- The member `operator*=(const RhsValueType& other)`: `data_[i] *= other` for every
slot. -/
def mulAssignScalar [Mul α] (this : Evaluation α) (other : α) : Option (Evaluation α) :=
  forLoop (fun i e => (e.readAt i).bind fun x => e.writeAt i (x * other))
    0 (this.length_ - 0) this

/-- The member `operator/=(const Evaluation& other)`: `u` is a reference to
`data_[valuepos_()]` and `v` a reference to `other.value()`, both read where they are
used; `data_[idx] = (v*uPrime - u*vPrime)/(v*v)` for the derivative slots; then
`u /= v`. -/
def divAssign [Sub α] [Mul α] [Div α] (this : Evaluation α) (other : Rhs α) :
    Option (Evaluation α) :=
  if this.size = (other.deref this).size then
    (forLoop (fun idx e =>
        (e.readAt e.valuepos_).bind fun u =>
        (other.deref e).value.bind fun v =>
        (e.readAt idx).bind fun uPrime =>
        ((other.deref e).readAt idx).bind fun vPrime =>
        e.writeAt idx ((v * uPrime - u * vPrime) / (v * v)))
      this.dstart_ (this.dend_ - this.dstart_) this).bind fun this1 =>
    (this1.readAt this1.valuepos_).bind fun u =>
    (other.deref this1).value.bind fun v =>
    this1.writeAt this1.valuepos_ (u / v)
  else none

/-- The member `operator/=(const RhsValueType& other)`: `tmp = 1.0/other`, then
`data_[i] *= tmp` for every slot. -/
def divAssignScalar [One α] [Mul α] [Div α] (this : Evaluation α) (other : α) :
    Option (Evaluation α) :=
  let tmp : α := 1 / other
  forLoop (fun i e => (e.readAt i).bind fun x => e.writeAt i (x * tmp))
    0 (this.length_ - 0) this

/-- The member `operator+(const Evaluation& other) const`: the assertion, a copy
`result(*this)`, `result += other`. The copy is an object of its own, so `other`
never refers to it. -/
def add [Add α] (this other : Evaluation α) : Option (Evaluation α) :=
  if this.size = other.size then addAssign this (Rhs.obj other) else none

/-- The member `operator+(const RhsValueType& other) const`. -/
def addScalar [Add α] (this : Evaluation α) (other : α) : Option (Evaluation α) :=
  addAssignScalar this other

/-- The member `operator-(const Evaluation& other) const`. -/
def sub [Sub α] (this other : Evaluation α) : Option (Evaluation α) :=
  if this.size = other.size then subAssign this (Rhs.obj other) else none

/-- The member `operator-(const RhsValueType& other) const`. -/
def subScalar [Sub α] (this : Evaluation α) (other : α) : Option (Evaluation α) :=
  subAssignScalar this other

/-- The member `operator*(const Evaluation& other) const`. -/
def mul [Add α] [Mul α] (this other : Evaluation α) : Option (Evaluation α) :=
  if this.size = other.size then mulAssign this (Rhs.obj other) else none

/-- The member `operator*(const RhsValueType& other) const`. -/
def mulScalar [Mul α] (this : Evaluation α) (other : α) : Option (Evaluation α) :=
  mulAssignScalar this other

/-- The member `operator/(const Evaluation& other) const`. -/
def div [Sub α] [Mul α] [Div α] (this other : Evaluation α) : Option (Evaluation α) :=
  if this.size = other.size then divAssign this (Rhs.obj other) else none

/-- The member `operator/(const RhsValueType& other) const`. -/
def divScalar [One α] [Mul α] [Div α] (this : Evaluation α) (other : α) :
    Option (Evaluation α) :=
  divAssignScalar this other

/-- The member `operator=(const RhsValueType& other)`: `setValue(other)`, then
`clearDerivatives()`. -/
def assignScalar [Zero α] (this : Evaluation α) (other : α) : Option (Evaluation α) :=
  (this.setValue other).bind fun e => e.clearDerivatives

/-- Modelled from the spec: the `FastSmallVector(numElem)` constructor used as
`data_(1 + numDerivatives)` by the one-argument constructor (the header
`FastSmallVector.hpp` is not among the sources). The spec has the blank Evaluation
with "value and all derivatives zero-initialized", so the `numElem` scalars are
zeros. -/
def fillDefault [Zero α] (numElem : Int) : Option (Evaluation α) :=
  if 0 ≤ numElem then some ⟨List.replicate numElem.toNat (0 : α)⟩ else none

/-- The constructor `explicit Evaluation(int numDerivatives)`:
`data_(1 + numDerivatives)`. -/
def mkBlank [Zero α] (numDerivatives : Int) : Option (Evaluation α) :=
  fillDefault (1 + numDerivatives)

/-- The static member `createBlank(x)`: `Evaluation(x.size())`. -/
def createBlank [Zero α] (x : Evaluation α) : Option (Evaluation α) :=
  mkBlank x.size

/-- The member `copyDerivatives(other)`: the assertion `size() == other.size()`, then
`data_[i] = other.data_[i]` for the derivative slots. -/
def copyDerivatives (this : Evaluation α) (other : Rhs α) : Option (Evaluation α) :=
  if this.size = (other.deref this).size then
    forLoop (fun i e => ((other.deref e).readAt i).bind fun y => e.writeAt i y)
      this.dstart_ (this.dend_ - this.dstart_) this
  else none

/-- The member `operator-() const`: a copy `result(*this)`, then
`result.data_[i] = - data_[i]` for every slot; the loop state is `result`, the reads
are from the operand. -/
def neg [Neg α] (this : Evaluation α) : Option (Evaluation α) :=
  forLoop (fun i result => (this.readAt i).bind fun x => result.writeAt i (-x))
    0 (this.length_ - 0) this

/-- The defaulted copy assignment `operator=(const Evaluation& other)`:
`data_ = other.data_`. -/
def copyAssign (_this other : Evaluation α) : Evaluation α :=
  ⟨other.data_⟩

/-- The move assignment `operator=(Evaluation&& other)`:
`data_ = std::move(other.data_)`; the result is the left operand after the call. -/
def moveAssign (_this other : Evaluation α) : Evaluation α :=
  ⟨other.data_⟩

/-- The member `operator==(const RhsValueType& other) const`: `value() == other`. -/
def eqScalar [DecidableEq α] (this : Evaluation α) (other : α) : Option Bool :=
  this.value.bind fun u => some (decide (u = other))

/-- The member `operator==(const Evaluation& other) const`: the assertion, then for
every slot `if (data_[idx] != other.data_[idx]) return false`, and `return true` after
the loop. -/
def eqEval [DecidableEq α] (this other : Evaluation α) : Option Bool :=
  if this.size = other.size then
    (forLoopReturn (fun idx =>
        (this.readAt idx).bind fun x =>
        (other.readAt idx).bind fun y =>
        if x ≠ y then some (some false) else some none)
      0 (this.length_ - 0)).bind fun o =>
    match o with
    | some r => some r
    | none => some true
  else none

/-- The member `operator!=(const Evaluation& other) const`: `!operator==(other)`. -/
def neEval [DecidableEq α] (this other : Evaluation α) : Option Bool :=
  (eqEval this other).bind fun t => some (!t)

/-- The member `operator!=(const RhsValueType& other) const`: `!operator==(other)`. -/
def neScalar [DecidableEq α] (this : Evaluation α) (other : α) : Option Bool :=
  (eqScalar this other).bind fun t => some (!t)

/-- The member `operator>(RhsValueType other) const`: `value() > other`. -/
def gtScalar [LT α] [DecidableRel (fun x y : α => x < y)] (this : Evaluation α)
    (other : α) : Option Bool :=
  this.value.bind fun u => some (decide (u > other))

/-- The member `operator>(const Evaluation& other) const`: the assertion, then
`value() > other.value()`. -/
def gt [LT α] [DecidableRel (fun x y : α => x < y)] (this other : Evaluation α) :
    Option Bool :=
  if this.size = other.size then
    this.value.bind fun u => other.value.bind fun v => some (decide (u > v))
  else none

/-- The member `operator<(RhsValueType other) const`: `value() < other`. -/
def ltScalar [LT α] [DecidableRel (fun x y : α => x < y)] (this : Evaluation α)
    (other : α) : Option Bool :=
  this.value.bind fun u => some (decide (u < other))

/-- The member `operator<(const Evaluation& other) const`: the assertion, then
`value() < other.value()`. -/
def lt [LT α] [DecidableRel (fun x y : α => x < y)] (this other : Evaluation α) :
    Option Bool :=
  if this.size = other.size then
    this.value.bind fun u => other.value.bind fun v => some (decide (u < v))
  else none

/-- The member `operator>=(RhsValueType other) const`: `value() >= other`. -/
def geScalar [LE α] [DecidableRel (fun x y : α => x ≤ y)] (this : Evaluation α)
    (other : α) : Option Bool :=
  this.value.bind fun u => some (decide (u ≥ other))

/-- The member `operator>=(const Evaluation& other) const`: the assertion, then
`value() >= other.value()`. -/
def ge [LE α] [DecidableRel (fun x y : α => x ≤ y)] (this other : Evaluation α) :
    Option Bool :=
  if this.size = other.size then
    this.value.bind fun u => other.value.bind fun v => some (decide (u ≥ v))
  else none

/-- The member `operator<=(RhsValueType other) const`: `value() <= other`. -/
def leScalar [LE α] [DecidableRel (fun x y : α => x ≤ y)] (this : Evaluation α)
    (other : α) : Option Bool :=
  this.value.bind fun u => some (decide (u ≤ other))

/-- The member `operator<=(const Evaluation& other) const`: the assertion, then
`value() <= other.value()`. -/
def le [LE α] [DecidableRel (fun x y : α => x ≤ y)] (this other : Evaluation α) :
    Option Bool :=
  if this.size = other.size then
    this.value.bind fun u => other.value.bind fun v => some (decide (u ≤ v))
  else none

/-- The state of a slot-by-slot loop over `[lo, hi)` that has reached index `i`,
started from `a`: the length is that of `a`, the slots in `[lo, i)` hold `F j` of
what `a` held there, every other slot is as in `a`. -/
def SlotsUpdated (a : Evaluation α) (F : Nat → α → Option α) (lo i : Nat)
    (e : Evaluation α) : Prop :=
  e.data_.length = a.data_.length ∧
    ∀ j, e.data_[j]? = if lo ≤ j ∧ j < i then (a.data_[j]?).bind (F j) else a.data_[j]?

end Evaluation
end DenseAd

/-- The free function `Opm::constant(numDerivatives, value)`. -/
def constant {α : Type} [Zero α] (numDerivatives : Int) (value : α) :
    Option (DenseAd.Evaluation α) :=
  DenseAd.Evaluation.createConstant numDerivatives value

/-- The free function `Opm::variable(numDerivatives, value, idx)` (the bare name is
a keyword here, hence the underscore); `idx` is `unsigned` and is handed to the
`int varPos` of `createVariable`. -/
def variable_ {α : Type} [Zero α] [One α] (numDerivatives : Int) (value : α) (idx : Nat) :
    Option (DenseAd.Evaluation α) :=
  DenseAd.Evaluation.createVariable numDerivatives value (idx : Int)

end Opm

/-!
# Schedule sources and the spline material law

`opm/input/eclipse/Schedule/Source.cpp` and the unsupported operations of
`opm/material/fluidmatrixinteractions/SplineTwoPhaseMaterial.hpp`. A `throw` is an
`Except.error` that carries the exception class and the message text of the throw
site; `double` is the scalar parameter `α`, as for `Evaluation`.
-/

namespace Opm

/-- The exception classes thrown by the embedded code. -/
inductive ExceptionClass where
  | logic_error
  | invalid_argument
deriving DecidableEq, Repr

/-- What a `throw` hands upward: the exception class and the message text written at
the throw site. -/
structure Thrown where
  exception : ExceptionClass
  message : String
deriving DecidableEq, Repr

/-- Modelled from the spec: the macro `OPM_THROW(Exception, message)` (its header is
not among the sources), "a hard failure reported upward with a descriptive message":
control leaves the function with an exception of the named class that carries the
message. -/
def OPM_THROW {ρ : Type} (exception : ExceptionClass) (message : String) :
    Except Thrown ρ :=
  Except.error ⟨exception, message⟩

/-- The enumeration `SourceComponent` (declared in `Source.hpp`, which is not among
the sources): the enumerators that `fromstring::component` returns. -/
inductive SourceComponent where
  | OIL
  | GAS
  | WATER
  | SOLVENT
  | POLYMER
  | NONE
deriving DecidableEq, Repr

/-- The function `fromstring::component(s)`. -/
def fromstring.component (s : String) : Except Thrown SourceComponent :=
  if s = "OIL" then Except.ok SourceComponent.OIL
  else if s = "GAS" then Except.ok SourceComponent.GAS
  else if s = "WATER" then Except.ok SourceComponent.WATER
  else if s = "SOLVENT" then Except.ok SourceComponent.SOLVENT
  else if s = "POLYMER" then Except.ok SourceComponent.POLYMER
  else if s = "NONE" then Except.ok SourceComponent.NONE
  else Except.error
    ⟨ExceptionClass.invalid_argument, "Not recognized source component: " ++ s⟩

/-- A record of the `SOURCE` keyword as the constructor of `SourceCell` reads it (the
deck classes are not among the sources): the integers of the items `I`, `J`, `K`, the
string of the item `COMPONENT` and the SI values `getSIDouble(0)` of the items `RATE`
and `HRATE`. -/
structure DeckRecord (α : Type) where
  I : Int
  J : Int
  K : Int
  COMPONENT : String
  RATE : α
  HRATE : α

/-- The class `Source::SourceCell`: `ijk` is a `std::array<int, 3>`. -/
structure SourceCell (α : Type) where
  ijk : Int × Int × Int
  component : SourceComponent
  rate : α
  hrate : α
deriving DecidableEq, Repr

/-- The class `Source`: the member `m_cells`, a `std::vector<SourceCell>`. -/
structure Source (α : Type) where
  m_cells : List (SourceCell α)
deriving DecidableEq, Repr

namespace SourceCell

variable {α : Type}

/-- The constructor `SourceCell(const DeckRecord& record)`: the members are
initialised in the order `ijk`, `component`, `rate`, `hrate`. -/
def ofRecord (record : DeckRecord α) : Except Thrown (SourceCell α) :=
  (fromstring.component record.COMPONENT).bind fun component =>
    Except.ok ⟨(record.I - 1, record.J - 1, record.K - 1), component,
      record.RATE, record.HRATE⟩

/-- The member `isSame(const SourceCell& other)`. -/
def isSame (this other : SourceCell α) : Bool :=
  decide (this.ijk = other.ijk) && decide (this.component = other.component)

/-- The member `isSame(const std::pair<std::array<int, 3>, SourceComponent>& other)`. -/
def isSamePair (this : SourceCell α) (other : (Int × Int × Int) × SourceComponent) :
    Bool :=
  decide (this.ijk = other.1) && decide (this.component = other.2)

end SourceCell

namespace Source

variable {α : Type}

/-- The loop of `updateSource` over `m_cells`, by reference:
`if (source.isSame(sourcenew)) { source = sourcenew; return; }`. The answer `some`
is the vector after the assignment that precedes the `return`; `none` says the loop
ended without returning. -/
def updateSourceLoop (sourcenew : SourceCell α) :
    List (SourceCell α) → Option (List (SourceCell α))
  | [] => none
  | source :: rest =>
    if source.isSame sourcenew then some (sourcenew :: rest)
    else (updateSourceLoop sourcenew rest).map fun cells => source :: cells

/-- The member `updateSource(const DeckRecord& record)`: `sourcenew(record)`, the
loop, and `m_cells.emplace_back(sourcenew)` when the loop did not return. -/
def updateSource (this : Source α) (record : DeckRecord α) : Except Thrown (Source α) :=
  (SourceCell.ofRecord record).bind fun sourcenew =>
    match updateSourceLoop sourcenew this.m_cells with
    | some cells => Except.ok ⟨cells⟩
    | none => Except.ok ⟨this.m_cells ++ [sourcenew]⟩

/-- The member `size()`. -/
def size (this : Source α) : Nat :=
  this.m_cells.length

/-- The member `begin()`, dereferenced: the first cell in iteration order, if any. -/
def begin (this : Source α) : Option (SourceCell α) :=
  this.m_cells.head?

/-- The loop of `rate`: `if (source.isSame(input)) return source.rate;`. -/
def rateLoop (input : (Int × Int × Int) × SourceComponent) :
    List (SourceCell α) → Option α
  | [] => none
  | source :: rest =>
    if source.isSamePair input then some source.rate else rateLoop input rest

/-- The member `rate(input)`: the loop, and `return 0.0` when it did not return. -/
def rate [Zero α] (this : Source α) (input : (Int × Int × Int) × SourceComponent) : α :=
  match rateLoop input this.m_cells with
  | some r => r
  | none => 0

/-- The member `hrate(input)`: `hrate = 0.0`, then `hrate += source.hrate` for every
cell with `source.ijk == input`, in iteration order. -/
def hrate [Zero α] [Add α] (this : Source α) (input : Int × Int × Int) : α :=
  this.m_cells.foldl
    (fun hrate source => if source.ijk = input then hrate + source.hrate else hrate) 0

end Source

namespace SplineTwoPhaseMaterial

/-- The static member `saturations(values, params, fluidState)`; it returns nothing
and would answer through `values`. -/
def saturations {Container Params FluidState : Type} (_values : Container)
    (_params : Params) (_fluidState : FluidState) : Except Thrown Container :=
  OPM_THROW ExceptionClass.logic_error "Not implemented: saturations()"

/-- The static member `Sw(params, fluidState)`. -/
def Sw {Params FluidState Evaluation : Type} (_params : Params)
    (_fluidState : FluidState) : Except Thrown Evaluation :=
  OPM_THROW ExceptionClass.logic_error "Not implemented: Sw()"

/-- The static member `twoPhaseSatSw(params, pC)`. -/
def twoPhaseSatSw {Params Evaluation : Type} (_params : Params) (_pC : Evaluation) :
    Except Thrown Evaluation :=
  OPM_THROW ExceptionClass.logic_error "Not implemented: twoPhaseSatSw()"

/-- The static member `Sn(params, fluidState)`: `1 - Sw(params, fluidState)`. -/
def Sn {Params FluidState Evaluation : Type} [One Evaluation] [Sub Evaluation]
    (params : Params) (fluidState : FluidState) : Except Thrown Evaluation :=
  (Sw params fluidState).bind fun sw => Except.ok (1 - sw)

/-- The static member `twoPhaseSatSn(params, pC)`: `1 - twoPhaseSatSw(params, pC)`. -/
def twoPhaseSatSn {Params Evaluation : Type} [One Evaluation] [Sub Evaluation]
    (params : Params) (pC : Evaluation) : Except Thrown Evaluation :=
  (twoPhaseSatSw params pC).bind fun sw => Except.ok (1 - sw)

end SplineTwoPhaseMaterial

end Opm

/-!
# Default construction, sequences of source updates and deck sections

The default constructor of `Evaluation`, the loop of calls to `updateSource` as the
tests run it, and `find_section` of `opm/parser/eclipse/Deck/DeckSection.cpp`. An
iterator into the deck is the position it points at; `deck.end()` is the length of the
deck.
-/

namespace Opm

namespace DenseAd
namespace Evaluation

/-- Modelled from the spec: the default constructor `Evaluation() : data_()`. The
storage is default-constructed, and the default constructor of `FastSmallVector` (its
header is not among the sources) is taken to build a vector that holds no scalar: the
arity of the dynamic Evaluation is "chosen at construction time" by a constructor
argument, and this constructor has none. -/
def mkDefault {α : Type} : Evaluation α :=
  ⟨[]⟩

end Evaluation
end DenseAd

namespace SourceCell

/-- The pair `(ijk, component)` of a cell, the argument type of the second `isSame`
and of `Source::rate`. -/
def key {α : Type} (this : SourceCell α) : (Int × Int × Int) × SourceComponent :=
  (this.ijk, this.component)

end SourceCell

namespace Source

/-- The default constructor of `Source` (`Opm::Source prop;` in the tests): no cell. -/
def mkEmpty {α : Type} : Source α :=
  ⟨[]⟩

/-- The loop of the tests, `for (const auto& record : records)
prop.updateSource(record);`: the calls in order, the first throw ending the loop. -/
def updateSources {α : Type} : Source α → List (DeckRecord α) → Except Thrown (Source α)
  | prop, [] => Except.ok prop
  | prop, record :: records =>
    (prop.updateSource record).bind fun prop1 => updateSources prop1 records

end Source

/-- The class `DeckKeyword` as `DeckSection.cpp` uses it (its header is not among the
sources): a keyword has a `name()`. -/
structure DeckKeyword where
  name : String
deriving DecidableEq, Repr

/-- The function `isSectionDelimiter(keyword)`: the loop over the eight names with
`if (name == x) return true`, and `return false` after it. -/
def isSectionDelimiter (keyword : DeckKeyword) : Bool :=
  ["RUNSPEC", "GRID", "EDIT", "PROPS", "REGIONS", "SOLUTION", "SUMMARY",
    "SCHEDULE"].any fun x => decide (keyword.name = x)

/-- The algorithm `std::find_if(first, last, pred)` on the keywords of the range
`[first, last)`: the offset from `first` of the first keyword that satisfies `pred`,
and the length of the range, that is `last`, when there is none. -/
def find_if (pred : DeckKeyword → Bool) : List DeckKeyword → Nat
  | [] => 0
  | kw :: rest => if pred kw then 0 else find_if pred rest + 1

/-- The function `find_section(deck, keyword)`; the deck is the sequence of its
keywords and the pair of iterators is a pair of positions. -/
def find_section (deck : List DeckKeyword) (keyword : String) :
    Except Thrown (Nat × Nat) :=
  let fn := fun (kw : DeckKeyword) => decide (kw.name = keyword)
  let first := find_if fn deck
  if first = deck.length then Except.ok (first, first)
  else
    let last := (first + 1) + find_if isSectionDelimiter (deck.drop (first + 1))
    if last ≠ deck.length ∧ (deck[last]?).map (fun kw => kw.name) = some keyword then
      Except.error ⟨ExceptionClass.invalid_argument,
        "Deck contains the '" ++ keyword ++ "' section multiple times"⟩
    else Except.ok (first, last)

end Opm

/-! ## Loops -/

namespace Opm
namespace DenseAd

/-- Loop rule: an invariant that holds on entry and that every iteration in range
both survives and re-establishes holds for the state the loop returns. -/
theorem forLoop_invariant {σ : Type} (body : Nat → σ → Option σ) (P : Nat → σ → Prop) :
    ∀ (k lo : Nat) (s : σ), P lo s →
      (∀ i t, lo ≤ i → i < lo + k → P i t → ∃ t', body i t = some t' ∧ P (i + 1) t') →
      ∃ r, forLoop body lo k s = some r ∧ P (lo + k) r := by
  intro k
  induction k with
  | zero =>
    intro lo s h _
    exact ⟨s, rfl, by simpa using h⟩
  | succ k ih =>
    intro lo s h step
    obtain ⟨t, ht, hP⟩ := step lo s (le_refl _) (by omega) h
    obtain ⟨r, hr, hPr⟩ :=
      ih (lo + 1) t hP (fun i u h1 h2 hu => step i u (by omega) (by omega) hu)
    refine ⟨r, ?_, ?_⟩
    · simp [forLoop, ht, hr]
    · have hlo : lo + (k + 1) = lo + 1 + k := by omega
      rw [hlo]
      exact hPr

namespace Evaluation

variable {α : Type}

/-- A loop whose iteration `i` overwrites slot `i` with `F i` of the slot's original
content returns, and returns the slot-by-slot image of its input on `[lo, lo + k)`. -/
theorem forLoop_slots (a : Evaluation α) (F : Nat → α → Option α)
    (body : Nat → Evaluation α → Option (Evaluation α)) (lo k : Nat)
    (hk : lo + k ≤ a.data_.length)
    (hbody : ∀ i e x, lo ≤ i → i < lo + k → SlotsUpdated a F lo i e →
      a.data_[i]? = some x → ∃ y, F i x = some y ∧ body i e = some ⟨e.data_.set i y⟩) :
    ∃ r, forLoop body lo k a = some r ∧ SlotsUpdated a F lo (lo + k) r := by
  apply forLoop_invariant body (SlotsUpdated a F lo) k lo a
  · refine ⟨rfl, fun j => ?_⟩
    have hj : ¬ (lo ≤ j ∧ j < lo) := by omega
    simp [hj]
  · intro i t h1 h2 hinv
    have hi : i < a.data_.length := by omega
    obtain ⟨y, hy, hb⟩ := hbody i t (a.data_[i]) h1 h2 hinv (List.getElem?_eq_getElem hi)
    refine ⟨_, hb, ?_, fun j => ?_⟩
    · simpa using hinv.1
    · by_cases hji : i = j
      · subst hji
        have hc : lo ≤ i ∧ i < i + 1 := ⟨h1, by omega⟩
        have hit : i < t.data_.length := by rw [hinv.1]; exact hi
        simp [hc, hit, List.getElem?_eq_getElem hi, hy]
      · have hc : (lo ≤ j ∧ j < i + 1) ↔ (lo ≤ j ∧ j < i) := by omega
        rw [List.getElem?_set_ne hji, hinv.2 j]
        simp only [hc]

/-! ## Slots, values and derivatives -/

/-- An Evaluation of arity `n` stores `n + 1` scalars. -/
theorem length_of_size (e : Evaluation α) (n : Nat) (h : e.size = n) :
    e.data_.length = n + 1 := by
  unfold size at h
  omega

/-- Two Evaluations of one size store the same number of scalars. -/
theorem length_eq_of_size_eq (a b : Evaluation α) (h : a.size = b.size) :
    a.data_.length = b.data_.length := by
  unfold size at h
  omega

/-- Reading `value()` is reading slot 0. -/
theorem value_eq_slot (e : Evaluation α) : e.value = e.data_[0]? := rfl

/-- Reading `derivative(i)` with `i` in range is reading slot `1 + i`. -/
theorem derivative_eq_slot (e : Evaluation α) (i : Int) (h0 : 0 ≤ i) (h1 : i < e.size) :
    e.derivative i = e.data_[1 + i.toNat]? := by
  simp [derivative, h0, h1, dstart_, readAt]

/-- Every slot below the length holds a scalar. -/
theorem slot_some (e : Evaluation α) (j : Nat) (h : j < e.data_.length) :
    ∃ x, e.data_[j]? = some x :=
  ⟨e.data_[j], List.getElem?_eq_getElem h⟩

/-! ## What each operation stores -/

/-- Slots of `a + b`. -/
theorem add_slots [Add α] (a b : Evaluation α) (h : a.size = b.size) :
    ∃ r, add a b = some r ∧ r.data_.length = a.data_.length ∧
      ∀ (j : Nat) (x y : α), a.data_[j]? = some x → b.data_[j]? = some y →
        r.data_[j]? = some (x + y) := by
  have hlen := length_eq_of_size_eq a b h
  obtain ⟨r, hr, hinv⟩ := forLoop_slots a
    (fun j x => (b.data_[j]?).bind fun y => some (x + y))
    (fun i e => (e.readAt i).bind fun x =>
      (((Rhs.obj b).deref e).readAt i).bind fun y => e.writeAt i (x + y))
    0 a.data_.length (by omega) (by
      intro i e x _ h2 hinv hx
      have hi : ¬ (0 ≤ i ∧ i < i) := by omega
      have he : e.data_[i]? = some x := by rw [hinv.2 i]; simp [hi, hx]
      have hie : i < e.data_.length := by rw [hinv.1]; omega
      obtain ⟨y, hy⟩ := slot_some b i (by omega)
      exact ⟨x + y, by simp [hy], by simp [readAt, writeAt, Rhs.deref, he, hy, hie]⟩)
  refine ⟨r, ?_, hinv.1, fun j x y hx hy => ?_⟩
  · simpa [add, addAssign, h, Rhs.deref, length_] using hr
  · have hj : j < a.data_.length := (List.getElem?_eq_some.mp hx).1
    have hc : 0 ≤ j ∧ j < 0 + a.data_.length := by omega
    rw [hinv.2 j, if_pos hc]
    simp [hx, hy]

/-- Slots of `a - b`. -/
theorem sub_slots [Sub α] (a b : Evaluation α) (h : a.size = b.size) :
    ∃ r, sub a b = some r ∧ r.data_.length = a.data_.length ∧
      ∀ (j : Nat) (x y : α), a.data_[j]? = some x → b.data_[j]? = some y →
        r.data_[j]? = some (x - y) := by
  have hlen := length_eq_of_size_eq a b h
  obtain ⟨r, hr, hinv⟩ := forLoop_slots a
    (fun j x => (b.data_[j]?).bind fun y => some (x - y))
    (fun i e => (e.readAt i).bind fun x =>
      (((Rhs.obj b).deref e).readAt i).bind fun y => e.writeAt i (x - y))
    0 a.data_.length (by omega) (by
      intro i e x _ h2 hinv hx
      have hi : ¬ (0 ≤ i ∧ i < i) := by omega
      have he : e.data_[i]? = some x := by rw [hinv.2 i]; simp [hi, hx]
      have hie : i < e.data_.length := by rw [hinv.1]; omega
      obtain ⟨y, hy⟩ := slot_some b i (by omega)
      exact ⟨x - y, by simp [hy], by simp [readAt, writeAt, Rhs.deref, he, hy, hie]⟩)
  refine ⟨r, ?_, hinv.1, fun j x y hx hy => ?_⟩
  · simpa [sub, subAssign, h, Rhs.deref, length_] using hr
  · have hj : j < a.data_.length := (List.getElem?_eq_some.mp hx).1
    have hc : 0 ≤ j ∧ j < 0 + a.data_.length := by omega
    rw [hinv.2 j, if_pos hc]
    simp [hx, hy]

/-- Slots of `a * b`. -/
theorem mul_slots [Add α] [Mul α] (a b : Evaluation α) (h : a.size = b.size)
    (hpos : 0 < a.data_.length) :
    ∃ r u v, mul a b = some r ∧ a.data_[0]? = some u ∧ b.data_[0]? = some v ∧
      r.data_.length = a.data_.length ∧ r.data_[0]? = some (u * v) ∧
      ∀ (j : Nat) (x y : α), 1 ≤ j → a.data_[j]? = some x → b.data_[j]? = some y →
        r.data_[j]? = some (x * v + y * u) := by
  have hlen := length_eq_of_size_eq a b h
  obtain ⟨u, hu⟩ := slot_some a 0 hpos
  obtain ⟨v, hv⟩ := slot_some b 0 (by omega)
  obtain ⟨r, hr, hinv⟩ := forLoop_slots (⟨a.data_.set 0 (u * v)⟩ : Evaluation α)
    (fun j x => (b.data_[j]?).bind fun y => some (x * v + y * u))
    (fun i e => (e.readAt i).bind fun di =>
      (((Rhs.obj b).deref e).readAt i).bind fun oi => e.writeAt i (di * v + oi * u))
    1 (a.data_.length - 1) (by simp; omega) (by
      intro i e x h1 h2 hinv hx
      have hi : ¬ (1 ≤ i ∧ i < i) := by omega
      have he : e.data_[i]? = some x := by rw [hinv.2 i, if_neg hi]; exact hx
      have hie : i < e.data_.length := by rw [hinv.1]; simp; omega
      obtain ⟨y, hy⟩ := slot_some b i (by omega)
      exact ⟨x * v + y * u, by simp [hy],
        by simp [readAt, writeAt, Rhs.deref, he, hy, hie]⟩)
  refine ⟨r, u, v, ?_, hu, hv, by simpa using hinv.1, ?_, fun j x y hj hx hy => ?_⟩
  · simpa [mul, mulAssign, h, Rhs.deref, length_, dstart_, dend_, valuepos_, value,
      readAt, writeAt, hu, hv, hpos] using hr
  · have hc : ¬ (1 ≤ 0 ∧ 0 < 1 + (a.data_.length - 1)) := by omega
    rw [hinv.2 0, if_neg hc]
    simp [hpos]
  · have hjl : j < a.data_.length := (List.getElem?_eq_some.mp hx).1
    have hc : 1 ≤ j ∧ j < 1 + (a.data_.length - 1) := by omega
    have hne : 0 ≠ j := by omega
    rw [hinv.2 j, if_pos hc]
    simp [List.getElem?_set_ne hne, hx, hy]

/-- Slots of `a / b`. -/
theorem div_slots [Sub α] [Mul α] [Div α] (a b : Evaluation α) (h : a.size = b.size)
    (hpos : 0 < a.data_.length) :
    ∃ r u v, div a b = some r ∧ a.data_[0]? = some u ∧ b.data_[0]? = some v ∧
      r.data_.length = a.data_.length ∧ r.data_[0]? = some (u / v) ∧
      ∀ (j : Nat) (x y : α), 1 ≤ j → a.data_[j]? = some x → b.data_[j]? = some y →
        r.data_[j]? = some ((v * x - u * y) / (v * v)) := by
  have hlen := length_eq_of_size_eq a b h
  obtain ⟨u, hu⟩ := slot_some a 0 hpos
  obtain ⟨v, hv⟩ := slot_some b 0 (by omega)
  obtain ⟨r, hr, hinv⟩ := forLoop_slots a
    (fun j x => (b.data_[j]?).bind fun y => some ((v * x - u * y) / (v * v)))
    (fun idx e => (e.readAt e.valuepos_).bind fun u =>
      ((Rhs.obj b).deref e).value.bind fun v =>
      (e.readAt idx).bind fun uPrime =>
      (((Rhs.obj b).deref e).readAt idx).bind fun vPrime =>
      e.writeAt idx ((v * uPrime - u * vPrime) / (v * v)))
    1 (a.data_.length - 1) (by omega) (by
      intro i e x h1 h2 hinv hx
      have hi : ¬ (1 ≤ i ∧ i < i) := by omega
      have h0 : ¬ (1 ≤ 0 ∧ 0 < i) := by omega
      have he : e.data_[i]? = some x := by rw [hinv.2 i, if_neg hi]; exact hx
      have he0 : e.data_[0]? = some u := by rw [hinv.2 0, if_neg h0]; exact hu
      have hie : i < e.data_.length := by rw [hinv.1]; omega
      obtain ⟨y, hy⟩ := slot_some b i (by omega)
      exact ⟨(v * x - u * y) / (v * v), by simp [hy],
        by simp [readAt, writeAt, value, valuepos_, Rhs.deref, he, he0, hv, hy, hie]⟩)
  have hc0 : ¬ (1 ≤ 0 ∧ 0 < 1 + (a.data_.length - 1)) := by omega
  have hr0 : r.data_[0]? = some u := by rw [hinv.2 0, if_neg hc0]; exact hu
  have hrpos : 0 < r.data_.length := by rw [hinv.1]; exact hpos
  refine ⟨⟨r.data_.set 0 (u / v)⟩, u, v, ?_, hu, hv, by simpa using hinv.1, ?_,
    fun j x y hj hx hy => ?_⟩
  · have hdiv : divAssign a (Rhs.obj b) = some ⟨r.data_.set 0 (u / v)⟩ := by
      unfold divAssign
      rw [if_pos (by simpa [Rhs.deref] using h)]
      have hcount : a.dend_ - a.dstart_ = a.data_.length - 1 := rfl
      have hstart : a.dstart_ = 1 := rfl
      rw [hcount, hstart, hr]
      simp [readAt, writeAt, value, valuepos_, Rhs.deref, hr0, hv, hrpos]
    simp [div, h, hdiv]
  · simp [hrpos]
  · have hjl : j < a.data_.length := (List.getElem?_eq_some.mp hx).1
    have hc : 1 ≤ j ∧ j < 1 + (a.data_.length - 1) := by omega
    have hne : 0 ≠ j := by omega
    rw [List.getElem?_set_ne hne, hinv.2 j, if_pos hc]
    simp [hx, hy]

/-- The object `e + c` for a scalar `c`. -/
theorem addScalar_eq [Add α] (a : Evaluation α) (c u : α) (hu : a.data_[0]? = some u) :
    addScalar a c = some ⟨a.data_.set 0 (u + c)⟩ := by
  have hpos : 0 < a.data_.length := (List.getElem?_eq_some.mp hu).1
  simp [addScalar, addAssignScalar, readAt, writeAt, valuepos_, hu, hpos]

/-- The object `e - c` for a scalar `c`. -/
theorem subScalar_eq [Sub α] (a : Evaluation α) (c u : α) (hu : a.data_[0]? = some u) :
    subScalar a c = some ⟨a.data_.set 0 (u - c)⟩ := by
  have hpos : 0 < a.data_.length := (List.getElem?_eq_some.mp hu).1
  simp [subScalar, subAssignScalar, readAt, writeAt, valuepos_, hu, hpos]

/-- A loop that multiplies every slot by `t`. -/
theorem scale_loop [Mul α] (a : Evaluation α) (t : α) :
    ∃ r, forLoop (fun i e => (e.readAt i).bind fun x => e.writeAt i (x * t))
        0 (a.length_ - 0) a = some r ∧ r.data_.length = a.data_.length ∧
      ∀ (j : Nat) (x : α), a.data_[j]? = some x → r.data_[j]? = some (x * t) := by
  obtain ⟨r, hr, hinv⟩ := forLoop_slots a (fun _ x => some (x * t))
    (fun i e => (e.readAt i).bind fun x => e.writeAt i (x * t))
    0 a.data_.length (by omega) (by
      intro i e x _ h2 hinv hx
      have hi : ¬ (0 ≤ i ∧ i < i) := by omega
      have he : e.data_[i]? = some x := by rw [hinv.2 i, if_neg hi]; exact hx
      have hie : i < e.data_.length := by rw [hinv.1]; omega
      exact ⟨x * t, rfl, by simp [readAt, writeAt, he, hie]⟩)
  refine ⟨r, ?_, hinv.1, fun j x hx => ?_⟩
  · simpa [length_] using hr
  · have hj : j < a.data_.length := (List.getElem?_eq_some.mp hx).1
    have hc : 0 ≤ j ∧ j < 0 + a.data_.length := by omega
    rw [hinv.2 j, if_pos hc]
    simp [hx]

/-- Slots of `e * c` for a scalar `c`. -/
theorem mulScalar_slots [Mul α] (a : Evaluation α) (c : α) :
    ∃ r, mulScalar a c = some r ∧ r.data_.length = a.data_.length ∧
      ∀ (j : Nat) (x : α), a.data_[j]? = some x → r.data_[j]? = some (x * c) :=
  scale_loop a c

/-- Slots of `e / c` for a scalar `c`. -/
theorem divScalar_slots [One α] [Mul α] [Div α] (a : Evaluation α) (c : α) :
    ∃ r, divScalar a c = some r ∧ r.data_.length = a.data_.length ∧
      ∀ (j : Nat) (x : α), a.data_[j]? = some x → r.data_[j]? = some (x * (1 / c)) :=
  scale_loop a (1 / c)

/-- Slots after `clearDerivatives()`. -/
theorem clearDerivatives_slots [Zero α] (a : Evaluation α) :
    ∃ r, clearDerivatives a = some r ∧ r.data_.length = a.data_.length ∧
      r.data_[0]? = a.data_[0]? ∧
      ∀ j : Nat, 1 ≤ j → j < a.data_.length → r.data_[j]? = some 0 := by
  rcases Nat.eq_zero_or_pos a.data_.length with hz | hpos
  · refine ⟨a, ?_, rfl, rfl, fun j h1 h2 => by omega⟩
    have hcount : a.dend_ - a.dstart_ = 0 := by
      show a.data_.length - 1 = 0
      omega
    unfold clearDerivatives
    rw [hcount]
    rfl
  obtain ⟨r, hr, hinv⟩ := forLoop_slots a (fun _ _ => some (0 : α))
    (fun i e => e.writeAt i 0)
    1 (a.data_.length - 1) (by omega) (by
      intro i e x _ h2 hinv _
      have hie : i < e.data_.length := by rw [hinv.1]; omega
      exact ⟨0, rfl, by simp [writeAt, hie]⟩)
  refine ⟨r, hr, hinv.1, ?_, fun j h1 h2 => ?_⟩
  · have hc : ¬ (1 ≤ 0 ∧ 0 < 1 + (a.data_.length - 1)) := by omega
    rw [hinv.2 0, if_neg hc]
  · have hc : 1 ≤ j ∧ j < 1 + (a.data_.length - 1) := by omega
    rw [hinv.2 j, if_pos hc, List.getElem?_eq_getElem h2]
    rfl

/-- Slots after `e = c` for a scalar `c`. -/
theorem assignScalar_slots [Zero α] (a : Evaluation α) (c : α)
    (hpos : 0 < a.data_.length) :
    ∃ r, assignScalar a c = some r ∧ r.data_.length = a.data_.length ∧
      r.data_[0]? = some c ∧
      ∀ j : Nat, 1 ≤ j → j < a.data_.length → r.data_[j]? = some 0 := by
  obtain ⟨r, hr, hlen, h0, hd⟩ :=
    clearDerivatives_slots (⟨a.data_.set 0 c⟩ : Evaluation α)
  refine ⟨r, ?_, by simpa using hlen, ?_, fun j h1 h2 => hd j h1 (by simpa using h2)⟩
  · simp [assignScalar, setValue, writeAt, valuepos_, hpos, hr]
  · rw [h0]
    simp [hpos]

/-- The object built by the constructor with a value. -/
theorem mkConstant_eq [Zero α] (n : Int) (c : α) (hn : 0 ≤ n) :
    mkConstant n c = some ⟨(List.replicate (1 + n).toNat (0 : α)).set 0 c⟩ := by
  have h1 : 0 ≤ 1 + n := by omega
  have h2 : 0 < (1 + n).toNat := by omega
  simp [mkConstant, fill, setValue, writeAt, valuepos_, h1, h2]

/-- The object built by the constructor with a value and a variable position. -/
theorem mkVariable_eq [Zero α] [One α] (n : Int) (c : α) (k : Int) (hk0 : 0 ≤ k)
    (hkn : k < n) :
    mkVariable n c k =
      some ⟨((List.replicate (1 + n).toNat (0 : α)).set 0 c).set (k.toNat + 1) 1⟩ := by
  have h1 : 0 ≤ 1 + n := by omega
  have h2 : 0 < (1 + n).toNat := by omega
  have h3 : k.toNat + 1 < (1 + n).toNat := by omega
  have h4 : k < ((1 + n).toNat : Int) - 1 := by omega
  simp [mkVariable, fill, setValue, writeAt, valuepos_, dstart_, size, h1, h2, h3, h4, hk0,
    hkn]

/-- A derivative index in range of an Evaluation of arity `n` names a stored slot, and
`derivative` reads it. -/
theorem derivative_some (e : Evaluation α) (n : Nat) (h : e.size = n) (i : Int)
    (h0 : 0 ≤ i) (h1 : i < n) :
    ∃ d, e.data_[1 + i.toNat]? = some d ∧ e.derivative i = some d := by
  have hlen := length_of_size e n h
  obtain ⟨d, hd⟩ := slot_some e (1 + i.toNat) (by omega)
  exact ⟨d, hd, by rw [derivative_eq_slot e i h0 (by omega), hd]⟩

/-- An object with `n + 1` slots answers `derivative(i)` with its slot `1 + i`. -/
theorem derivative_of_slot (r : Evaluation α) (n : Nat) (hlen : r.data_.length = n + 1)
    (i : Int) (h0 : 0 ≤ i) (h1 : i < n) (d : α) (hd : r.data_[1 + i.toNat]? = some d) :
    r.derivative i = some d := by
  have hs : i < r.size := by
    unfold size
    omega
  rw [derivative_eq_slot r i h0 hs, hd]

/-- An object with `n + 1` slots has size `n`. -/
theorem size_of_length (r : Evaluation α) (n : Nat) (hlen : r.data_.length = n + 1) :
    r.size = n := by
  unfold size
  omega

/-- Objects with equally many slots have one size. -/
theorem size_eq_of_length_eq (r a : Evaluation α) (h : r.data_.length = a.data_.length) :
    r.size = a.size := by
  unfold size
  omega

/-- Two objects with equally many slots that agree slot by slot are equal. -/
theorem eq_of_slots (r s : Evaluation α) (hlen : r.data_.length = s.data_.length)
    (h : ∀ j, j < r.data_.length → r.data_[j]? = s.data_[j]?) : r = s := by
  cases r with
  | mk rd =>
    cases s with
    | mk sd =>
      have hd : rd = sd := by
        apply List.ext_getElem?
        intro j
        by_cases hj : j < rd.length
        · exact h j hj
        · have h1 : rd.length ≤ j := by omega
          have h2 : sd.length ≤ j := by
            have hl : rd.length = sd.length := hlen
            omega
          rw [List.getElem?_eq_none h1, List.getElem?_eq_none h2]
      rw [hd]

/-- Slots of the constant of arity `n` and value `c`. -/
theorem mkConstant_slots [Zero α] (n : Nat) (c : α) :
    ∃ k, mkConstant (n : Int) c = some k ∧ k.data_.length = n + 1 ∧
      k.data_[0]? = some c ∧ ∀ j : Nat, 1 ≤ j → j < n + 1 → k.data_[j]? = some 0 := by
  have hmk := mkConstant_eq (n : Int) c (by omega)
  have hlen : ((List.replicate (1 + (n : Int)).toNat (0 : α)).set 0 c).length = n + 1 := by
    simp
    omega
  refine ⟨_, hmk, hlen, ?_, fun j h1 h2 => ?_⟩
  · have hpos : 0 < (1 + (n : Int)).toNat := by omega
    simp [hpos]
  · have hne : 0 ≠ j := by omega
    have hj : j < (1 + (n : Int)).toNat := by omega
    rw [List.getElem?_set_ne hne]
    simp [hj]

/-! ## Arithmetic between two Evaluations -/

/-- C1 (product rule): for two Evaluations `a`, `b` of one arity `n`, `a * b` returns
an Evaluation whose value is `a.value() * b.value()` and whose derivative `i`, for
every `i` in `[0, n)`, is `a.derivative(i) * b.value() + a.value() * b.derivative(i)`.
Of the scalars only commutativity of the product is used. -/
theorem product_rule [Add α] [CommMagma α] (a b : Evaluation α) (n : Nat)
    (ha : a.size = n) (hb : b.size = n) :
    ∃ r u v, mul a b = some r ∧ a.value = some u ∧ b.value = some v ∧
      r.value = some (u * v) ∧
      ∀ i : Int, 0 ≤ i → i < n →
        ∃ du dv, a.derivative i = some du ∧ b.derivative i = some dv ∧
          r.derivative i = some (du * v + u * dv) := by
  have hla := length_of_size a n ha
  obtain ⟨r, u, v, hr, hu, hv, hlen, hr0, hrj⟩ :=
    mul_slots a b (by rw [ha, hb]) (by omega)
  refine ⟨r, u, v, hr, hu, hv, hr0, fun i h0 h1 => ?_⟩
  obtain ⟨du, hdu, hda⟩ := derivative_some a n ha i h0 h1
  obtain ⟨dv, hdv, hdb⟩ := derivative_some b n hb i h0 h1
  refine ⟨du, dv, hda, hdb, ?_⟩
  apply derivative_of_slot r n (by omega) i h0 h1
  rw [hrj (1 + i.toNat) du dv (by omega) hdu hdv, mul_comm dv u]

/-- C1, at `a = (3; 1, 0)` and `b = (4; 0, 1)` over the integers. -/
theorem product_rule_witness :
    ∃ r u v, mul (⟨[3, 1, 0]⟩ : Evaluation Int) ⟨[4, 0, 1]⟩ = some r ∧
      (⟨[3, 1, 0]⟩ : Evaluation Int).value = some u ∧
      (⟨[4, 0, 1]⟩ : Evaluation Int).value = some v ∧
      r.value = some (u * v) ∧
      ∀ i : Int, 0 ≤ i → i < (2 : Nat) →
        ∃ du dv, (⟨[3, 1, 0]⟩ : Evaluation Int).derivative i = some du ∧
          (⟨[4, 0, 1]⟩ : Evaluation Int).derivative i = some dv ∧
          r.derivative i = some (du * v + u * dv) :=
  product_rule ⟨[3, 1, 0]⟩ ⟨[4, 0, 1]⟩ 2 (by decide) (by decide)

/-- C2 (quotient rule): for two Evaluations `a`, `b` of one arity `n` over a field,
with `b.value()` not zero, `a / b` returns an Evaluation whose value is
`a.value() / b.value()` and whose derivative `i`, for every `i` in `[0, n)`, is
`(b.value() * a.derivative(i) - a.value() * b.derivative(i)) / b.value() ^ 2`. -/
theorem quotient_rule [Field α] (a b : Evaluation α) (n : Nat)
    (ha : a.size = n) (hb : b.size = n) (hb0 : b.value ≠ some 0) :
    ∃ r u v, div a b = some r ∧ a.value = some u ∧ b.value = some v ∧ v ≠ 0 ∧
      r.value = some (u / v) ∧
      ∀ i : Int, 0 ≤ i → i < n →
        ∃ du dv, a.derivative i = some du ∧ b.derivative i = some dv ∧
          r.derivative i = some ((v * du - u * dv) / v ^ 2) := by
  have hla := length_of_size a n ha
  obtain ⟨r, u, v, hr, hu, hv, hlen, hr0, hrj⟩ :=
    div_slots a b (by rw [ha, hb]) (by omega)
  have hv0 : v ≠ 0 := by
    intro h
    apply hb0
    rw [value_eq_slot, hv, h]
  refine ⟨r, u, v, hr, hu, hv, hv0, hr0, fun i h0 h1 => ?_⟩
  obtain ⟨du, hdu, hda⟩ := derivative_some a n ha i h0 h1
  obtain ⟨dv, hdv, hdb⟩ := derivative_some b n hb i h0 h1
  refine ⟨du, dv, hda, hdb, ?_⟩
  apply derivative_of_slot r n (by omega) i h0 h1
  rw [hrj (1 + i.toNat) du dv (by omega) hdu hdv, sq]

/-- C2, at `a = (3; 1, 0)` and `b = (4; 0, 1)` over the rationals. -/
theorem quotient_rule_witness :
    ∃ r u v, div (⟨[3, 1, 0]⟩ : Evaluation ℚ) ⟨[4, 0, 1]⟩ = some r ∧
      (⟨[3, 1, 0]⟩ : Evaluation ℚ).value = some u ∧
      (⟨[4, 0, 1]⟩ : Evaluation ℚ).value = some v ∧ v ≠ 0 ∧
      r.value = some (u / v) ∧
      ∀ i : Int, 0 ≤ i → i < (2 : Nat) →
        ∃ du dv, (⟨[3, 1, 0]⟩ : Evaluation ℚ).derivative i = some du ∧
          (⟨[4, 0, 1]⟩ : Evaluation ℚ).derivative i = some dv ∧
          r.derivative i = some ((v * du - u * dv) / v ^ 2) :=
  quotient_rule ⟨[3, 1, 0]⟩ ⟨[4, 0, 1]⟩ 2 (by decide) (by decide) (by decide)

/-- C3 (linearity): for two Evaluations `a`, `b` of one arity `n`, `a + b` and `a - b`
return Evaluations whose values are the sum and the difference of the two values and
whose derivative `i`, for every `i` in `[0, n)`, is the sum, respectively the
difference, of the two derivatives `i`. -/
theorem linearity [Add α] [Sub α] (a b : Evaluation α) (n : Nat)
    (ha : a.size = n) (hb : b.size = n) :
    ∃ s d u v, add a b = some s ∧ sub a b = some d ∧
      a.value = some u ∧ b.value = some v ∧
      s.value = some (u + v) ∧ d.value = some (u - v) ∧
      ∀ i : Int, 0 ≤ i → i < n →
        ∃ du dv, a.derivative i = some du ∧ b.derivative i = some dv ∧
          s.derivative i = some (du + dv) ∧ d.derivative i = some (du - dv) := by
  have hla := length_of_size a n ha
  have hlb := length_of_size b n hb
  obtain ⟨s, hs, hsl, hsj⟩ := add_slots a b (by rw [ha, hb])
  obtain ⟨d, hd, hdl, hdj⟩ := sub_slots a b (by rw [ha, hb])
  obtain ⟨u, hu⟩ := slot_some a 0 (by omega)
  obtain ⟨v, hv⟩ := slot_some b 0 (by omega)
  refine ⟨s, d, u, v, hs, hd, hu, hv, hsj 0 u v hu hv, hdj 0 u v hu hv,
    fun i h0 h1 => ?_⟩
  obtain ⟨du, hdu, hda⟩ := derivative_some a n ha i h0 h1
  obtain ⟨dv, hdv, hdb⟩ := derivative_some b n hb i h0 h1
  exact ⟨du, dv, hda, hdb,
    derivative_of_slot s n (by omega) i h0 h1 _ (hsj _ du dv hdu hdv),
    derivative_of_slot d n (by omega) i h0 h1 _ (hdj _ du dv hdu hdv)⟩

/-- C3, at `a = (3; 1, 0)` and `b = (4; 0, 1)` over the integers. -/
theorem linearity_witness :
    ∃ s d u v, add (⟨[3, 1, 0]⟩ : Evaluation Int) ⟨[4, 0, 1]⟩ = some s ∧
      sub (⟨[3, 1, 0]⟩ : Evaluation Int) ⟨[4, 0, 1]⟩ = some d ∧
      (⟨[3, 1, 0]⟩ : Evaluation Int).value = some u ∧
      (⟨[4, 0, 1]⟩ : Evaluation Int).value = some v ∧
      s.value = some (u + v) ∧ d.value = some (u - v) ∧
      ∀ i : Int, 0 ≤ i → i < (2 : Nat) →
        ∃ du dv, (⟨[3, 1, 0]⟩ : Evaluation Int).derivative i = some du ∧
          (⟨[4, 0, 1]⟩ : Evaluation Int).derivative i = some dv ∧
          s.derivative i = some (du + dv) ∧ d.derivative i = some (du - dv) :=
  linearity ⟨[3, 1, 0]⟩ ⟨[4, 0, 1]⟩ 2 (by decide) (by decide)

/-! ## Construction -/

/-- C4 (a variable is self-sensitive): for every `n`, scalar `c` and `k` with
`0 <= k < n`, the three-argument constructor, `createVariable(n, c, k)` and
`Opm::variable(n, c, k)` all return one Evaluation; it has size `n`, value `c`,
derivative `k` equal to 1 and every other derivative in `[0, n)` equal to 0. -/
theorem variable_self_sensitive [Zero α] [One α] (n : Int) (c : α) (k : Int)
    (hk0 : 0 ≤ k) (hkn : k < n) :
    ∃ e, mkVariable n c k = some e ∧ createVariable n c k = some e ∧
      Opm.variable_ n c k.toNat = some e ∧
      e.size = n ∧ e.value = some c ∧ e.derivative k = some 1 ∧
      ∀ i : Int, 0 ≤ i → i < n → i ≠ k → e.derivative i = some 0 := by
  have hmk := mkVariable_eq n c k hk0 hkn
  have hcast : ((k.toNat : Nat) : Int) = k := Int.toNat_of_nonneg hk0
  have hlen : (((List.replicate (1 + n).toNat (0 : α)).set 0 c).set (k.toNat + 1) 1).length
      = n.toNat + 1 := by
    simp
    omega
  have hn : ((n.toNat : Nat) : Int) = n := Int.toNat_of_nonneg (by omega)
  refine ⟨_, hmk, hmk, ?_, ?_, ?_, ?_, fun i h0 h1 hne => ?_⟩
  · simp only [Opm.variable_, createVariable, hcast]
    exact hmk
  · rw [size_of_length _ n.toNat hlen, hn]
  · have h0 : 0 ≠ k.toNat + 1 := by omega
    have hpos : 0 < (1 + n).toNat := by omega
    rw [value_eq_slot]
    simp [List.getElem?_set_ne h0, hpos]
  · apply derivative_of_slot _ n.toNat hlen k hk0 (by omega)
    have hk : k.toNat + 1 < (1 + n).toNat := by omega
    have hidx : 1 + k.toNat = k.toNat + 1 := by omega
    rw [hidx]
    simp [hk]
  · apply derivative_of_slot _ n.toNat hlen i h0 (by omega)
    have h1ne : k.toNat + 1 ≠ 1 + i.toNat := by omega
    have h2ne : 0 ≠ 1 + i.toNat := by omega
    have hi : 1 + i.toNat < (1 + n).toNat := by omega
    rw [List.getElem?_set_ne h1ne, List.getElem?_set_ne h2ne]
    simp [hi]

/-- C4, at `n = 3`, `c = 5`, `k = 1` over the integers. -/
theorem variable_self_sensitive_witness :
    ∃ e, mkVariable (3 : Int) (5 : Int) 1 = some e ∧
      createVariable (3 : Int) (5 : Int) 1 = some e ∧
      Opm.variable_ (3 : Int) (5 : Int) (1 : Int).toNat = some e ∧
      e.size = 3 ∧ e.value = some 5 ∧ e.derivative 1 = some 1 ∧
      ∀ i : Int, 0 ≤ i → i < 3 → i ≠ 1 → e.derivative i = some 0 :=
  variable_self_sensitive 3 5 1 (by decide) (by decide)

/-- C5 (a constant has zero sensitivity): for every `n >= 0` and scalar `c`, the
two-argument constructor, `createConstant(n, c)` and `Opm::constant(n, c)` all return
one Evaluation; it has size `n`, value `c` and every derivative in `[0, n)` equal
to 0. -/
theorem constant_zero_sensitivity [Zero α] (n : Int) (c : α) (hn : 0 ≤ n) :
    ∃ e, mkConstant n c = some e ∧ createConstant n c = some e ∧
      Opm.constant n c = some e ∧
      e.size = n ∧ e.value = some c ∧
      ∀ i : Int, 0 ≤ i → i < n → e.derivative i = some 0 := by
  have hmk := mkConstant_eq n c hn
  have hlen : ((List.replicate (1 + n).toNat (0 : α)).set 0 c).length = n.toNat + 1 := by
    simp
    omega
  have hnn : ((n.toNat : Nat) : Int) = n := Int.toNat_of_nonneg hn
  refine ⟨_, hmk, hmk, hmk, ?_, ?_, fun i h0 h1 => ?_⟩
  · rw [size_of_length _ n.toNat hlen, hnn]
  · have hpos : 0 < (1 + n).toNat := by omega
    rw [value_eq_slot]
    simp [hpos]
  · apply derivative_of_slot _ n.toNat hlen i h0 (by omega)
    have h2ne : 0 ≠ 1 + i.toNat := by omega
    have hi : 1 + i.toNat < (1 + n).toNat := by omega
    rw [List.getElem?_set_ne h2ne]
    simp [hi]

/-- C5, at `n = 3`, `c = 5` over the integers. -/
theorem constant_zero_sensitivity_witness :
    ∃ e, mkConstant (3 : Int) (5 : Int) = some e ∧
      createConstant (3 : Int) (5 : Int) = some e ∧
      Opm.constant (3 : Int) (5 : Int) = some e ∧
      e.size = 3 ∧ e.value = some 5 ∧
      ∀ i : Int, 0 ≤ i → i < 3 → e.derivative i = some 0 :=
  constant_zero_sensitivity 3 5 (by decide)

/-! ## Arity -/

/-- C6 (arity preservation): on operands of one arity `n`, each of `a + b`, `a - b`,
`a * b`, `a / b` returns an Evaluation of the size of `a` and of `b`, and each of
`a + c`, `a - c`, `a * c`, `a / c` for a scalar `c` returns one of the size of `a`. -/
theorem arity_preservation [Add α] [Sub α] [Mul α] [Div α] [One α]
    (a b : Evaluation α) (c : α) (n : Nat) (ha : a.size = n) (hb : b.size = n) :
    (∃ r, add a b = some r ∧ r.size = a.size ∧ r.size = b.size) ∧
    (∃ r, sub a b = some r ∧ r.size = a.size ∧ r.size = b.size) ∧
    (∃ r, mul a b = some r ∧ r.size = a.size ∧ r.size = b.size) ∧
    (∃ r, div a b = some r ∧ r.size = a.size ∧ r.size = b.size) ∧
    (∃ r, addScalar a c = some r ∧ r.size = a.size) ∧
    (∃ r, subScalar a c = some r ∧ r.size = a.size) ∧
    (∃ r, mulScalar a c = some r ∧ r.size = a.size) ∧
    (∃ r, divScalar a c = some r ∧ r.size = a.size) := by
  have hab : a.size = b.size := by rw [ha, hb]
  have hla := length_of_size a n ha
  have hpos : 0 < a.data_.length := by omega
  obtain ⟨u, hu⟩ := slot_some a 0 hpos
  obtain ⟨r1, h1, l1, _⟩ := add_slots a b hab
  obtain ⟨r2, h2, l2, _⟩ := sub_slots a b hab
  obtain ⟨r3, _, _, h3, _, _, l3, _⟩ := mul_slots a b hab hpos
  obtain ⟨r4, _, _, h4, _, _, l4, _⟩ := div_slots a b hab hpos
  obtain ⟨r7, h7, l7, _⟩ := mulScalar_slots a c
  obtain ⟨r8, h8, l8, _⟩ := divScalar_slots a c
  refine ⟨⟨r1, h1, ?_, ?_⟩, ⟨r2, h2, ?_, ?_⟩, ⟨r3, h3, ?_, ?_⟩, ⟨r4, h4, ?_, ?_⟩,
    ⟨_, addScalar_eq a c u hu, ?_⟩, ⟨_, subScalar_eq a c u hu, ?_⟩,
    ⟨r7, h7, size_eq_of_length_eq _ _ l7⟩, ⟨r8, h8, size_eq_of_length_eq _ _ l8⟩⟩
  · exact size_eq_of_length_eq _ _ l1
  · rw [← hab]; exact size_eq_of_length_eq _ _ l1
  · exact size_eq_of_length_eq _ _ l2
  · rw [← hab]; exact size_eq_of_length_eq _ _ l2
  · exact size_eq_of_length_eq _ _ l3
  · rw [← hab]; exact size_eq_of_length_eq _ _ l3
  · exact size_eq_of_length_eq _ _ l4
  · rw [← hab]; exact size_eq_of_length_eq _ _ l4
  · exact size_eq_of_length_eq _ _ (by simp)
  · exact size_eq_of_length_eq _ _ (by simp)

/-- C6, at `a = (3; 1, 0)`, `b = (4; 0, 1)` and `c = 2` over the rationals. -/
theorem arity_preservation_witness :
    (∃ r, add (⟨[3, 1, 0]⟩ : Evaluation ℚ) ⟨[4, 0, 1]⟩ = some r ∧
      r.size = (⟨[3, 1, 0]⟩ : Evaluation ℚ).size ∧
      r.size = (⟨[4, 0, 1]⟩ : Evaluation ℚ).size) ∧
    (∃ r, sub (⟨[3, 1, 0]⟩ : Evaluation ℚ) ⟨[4, 0, 1]⟩ = some r ∧
      r.size = (⟨[3, 1, 0]⟩ : Evaluation ℚ).size ∧
      r.size = (⟨[4, 0, 1]⟩ : Evaluation ℚ).size) ∧
    (∃ r, mul (⟨[3, 1, 0]⟩ : Evaluation ℚ) ⟨[4, 0, 1]⟩ = some r ∧
      r.size = (⟨[3, 1, 0]⟩ : Evaluation ℚ).size ∧
      r.size = (⟨[4, 0, 1]⟩ : Evaluation ℚ).size) ∧
    (∃ r, div (⟨[3, 1, 0]⟩ : Evaluation ℚ) ⟨[4, 0, 1]⟩ = some r ∧
      r.size = (⟨[3, 1, 0]⟩ : Evaluation ℚ).size ∧
      r.size = (⟨[4, 0, 1]⟩ : Evaluation ℚ).size) ∧
    (∃ r, addScalar (⟨[3, 1, 0]⟩ : Evaluation ℚ) 2 = some r ∧
      r.size = (⟨[3, 1, 0]⟩ : Evaluation ℚ).size) ∧
    (∃ r, subScalar (⟨[3, 1, 0]⟩ : Evaluation ℚ) 2 = some r ∧
      r.size = (⟨[3, 1, 0]⟩ : Evaluation ℚ).size) ∧
    (∃ r, mulScalar (⟨[3, 1, 0]⟩ : Evaluation ℚ) 2 = some r ∧
      r.size = (⟨[3, 1, 0]⟩ : Evaluation ℚ).size) ∧
    (∃ r, divScalar (⟨[3, 1, 0]⟩ : Evaluation ℚ) 2 = some r ∧
      r.size = (⟨[3, 1, 0]⟩ : Evaluation ℚ).size) :=
  arity_preservation ⟨[3, 1, 0]⟩ ⟨[4, 0, 1]⟩ 2 2 (by decide) (by decide)

/-! ## Arithmetic between an Evaluation and a scalar -/

/-- C7 (scalar assignment clears the derivatives): for an Evaluation `e` of arity
`n >= 0` and a scalar `c`, the assignment `e = c` returns; afterwards the value is
`c`, every derivative in `[0, n)` is 0 and the size is still `n`. -/
theorem assignScalar_clears [Zero α] (e : Evaluation α) (c : α) (n : Nat)
    (he : e.size = n) :
    ∃ r, assignScalar e c = some r ∧ r.value = some c ∧
      (∀ i : Int, 0 ≤ i → i < n → r.derivative i = some 0) ∧ r.size = n := by
  have hle := length_of_size e n he
  obtain ⟨r, hr, hlen, h0, hd⟩ := assignScalar_slots e c (by omega)
  refine ⟨r, hr, h0, fun i hi0 hi1 => ?_, size_of_length r n (by omega)⟩
  exact derivative_of_slot r n (by omega) i hi0 hi1 0 (hd _ (by omega) (by omega))

/-- C7, at `e = (3; 1, 7)` and `c = 5` over the integers. -/
theorem assignScalar_clears_witness :
    ∃ r, assignScalar (⟨[3, 1, 7]⟩ : Evaluation Int) 5 = some r ∧ r.value = some 5 ∧
      (∀ i : Int, 0 ≤ i → i < (2 : Nat) → r.derivative i = some 0) ∧ r.size = (2 : Nat) :=
  assignScalar_clears ⟨[3, 1, 7]⟩ 5 2 (by decide)

/-- C8 (a scalar operand behaves as a constant Evaluation): for an Evaluation `e` of
arity `n` over a field and a scalar `c`, `constant(n, c)` returns an Evaluation `k`,
and `e + c`, `e - c`, `e * c` return the very Evaluations that `e + k`, `e - k`,
`e * k` return; so does `e / c` with `e / k` when `c` is not zero. Equality of
Evaluations is equality of every stored slot. -/
theorem scalar_as_constant [Field α] (e : Evaluation α) (c : α) (n : Nat)
    (he : e.size = n) :
    ∃ k, Opm.constant (n : Int) c = some k ∧
      (∃ r, addScalar e c = some r ∧ add e k = some r) ∧
      (∃ r, subScalar e c = some r ∧ sub e k = some r) ∧
      (∃ r, mulScalar e c = some r ∧ mul e k = some r) ∧
      (c ≠ 0 → ∃ r, divScalar e c = some r ∧ div e k = some r) := by
  have hle := length_of_size e n he
  have hpos : 0 < e.data_.length := by omega
  obtain ⟨k, hk, hkl, hk0, hkj⟩ := mkConstant_slots n c
  have hks : e.size = k.size := by rw [he, size_of_length k n hkl]
  obtain ⟨u, hu⟩ := slot_some e 0 hpos
  refine ⟨k, hk, ?_, ?_, ?_, ?_⟩
  · obtain ⟨r, hr, hrl, hrj⟩ := add_slots e k hks
    refine ⟨r, ?_, hr⟩
    rw [addScalar_eq e c u hu]
    congr 1
    apply eq_of_slots _ _ (by simp [hrl])
    intro j hj
    obtain ⟨x, hx⟩ := slot_some e j (by simpa using hj)
    rcases Nat.eq_zero_or_pos j with h0 | h1
    · subst h0
      rw [hrj 0 u c hu hk0]
      simp [hpos]
    · have hne : 0 ≠ j := by omega
      rw [hrj j x 0 hx (hkj j h1 (by simp at hj; omega)), List.getElem?_set_ne hne, hx,
        add_zero]
  · obtain ⟨r, hr, hrl, hrj⟩ := sub_slots e k hks
    refine ⟨r, ?_, hr⟩
    rw [subScalar_eq e c u hu]
    congr 1
    apply eq_of_slots _ _ (by simp [hrl])
    intro j hj
    obtain ⟨x, hx⟩ := slot_some e j (by simpa using hj)
    rcases Nat.eq_zero_or_pos j with h0 | h1
    · subst h0
      rw [hrj 0 u c hu hk0]
      simp [hpos]
    · have hne : 0 ≠ j := by omega
      rw [hrj j x 0 hx (hkj j h1 (by simp at hj; omega)), List.getElem?_set_ne hne, hx,
        sub_zero]
  · obtain ⟨r, u1, v1, hr, hu1, hv1, hrl, hr0, hrj⟩ := mul_slots e k hks hpos
    obtain ⟨q, hq, hql, hqj⟩ := mulScalar_slots e c
    have huu : u1 = u := by
      rw [hu] at hu1
      exact (Option.some.inj hu1).symm
    have hvc : v1 = c := by
      rw [hk0] at hv1
      exact (Option.some.inj hv1).symm
    subst huu
    subst hvc
    refine ⟨r, ?_, hr⟩
    rw [hq]
    congr 1
    apply eq_of_slots _ _ (by rw [hql, hrl])
    intro j hj
    obtain ⟨x, hx⟩ := slot_some e j (by omega)
    rcases Nat.eq_zero_or_pos j with h0 | h1
    · subst h0
      rw [hqj 0 x hx, hr0]
      rw [hu1] at hx
      rw [Option.some.inj hx]
    · rw [hqj j x hx, hrj j x 0 h1 hx (hkj j h1 (by omega)), zero_mul, add_zero]
  · intro hc
    obtain ⟨r, u1, v1, hr, hu1, hv1, hrl, hr0, hrj⟩ := div_slots e k hks hpos
    obtain ⟨q, hq, hql, hqj⟩ := divScalar_slots e c
    have huu : u1 = u := by
      rw [hu] at hu1
      exact (Option.some.inj hu1).symm
    have hvc : v1 = c := by
      rw [hk0] at hv1
      exact (Option.some.inj hv1).symm
    subst huu
    subst hvc
    refine ⟨r, ?_, hr⟩
    rw [hq]
    congr 1
    apply eq_of_slots _ _ (by rw [hql, hrl])
    intro j hj
    obtain ⟨x, hx⟩ := slot_some e j (by omega)
    rcases Nat.eq_zero_or_pos j with h0 | h1
    · subst h0
      rw [hqj 0 x hx, hr0]
      rw [hu1] at hx
      rw [Option.some.inj hx, mul_one_div]
    · rw [hqj j x hx, hrj j x 0 h1 hx (hkj j h1 (by omega))]
      congr 1
      field_simp
      ring

/-- C8, at `e = (3; 1, 7)` and `c = 5` over the rationals. -/
theorem scalar_as_constant_witness :
    ∃ k, Opm.constant ((2 : Nat) : Int) (5 : ℚ) = some k ∧
      (∃ r, addScalar (⟨[3, 1, 7]⟩ : Evaluation ℚ) 5 = some r ∧
        add (⟨[3, 1, 7]⟩ : Evaluation ℚ) k = some r) ∧
      (∃ r, subScalar (⟨[3, 1, 7]⟩ : Evaluation ℚ) 5 = some r ∧
        sub (⟨[3, 1, 7]⟩ : Evaluation ℚ) k = some r) ∧
      (∃ r, mulScalar (⟨[3, 1, 7]⟩ : Evaluation ℚ) 5 = some r ∧
        mul (⟨[3, 1, 7]⟩ : Evaluation ℚ) k = some r) ∧
      (∃ r, divScalar (⟨[3, 1, 7]⟩ : Evaluation ℚ) 5 = some r ∧
        div (⟨[3, 1, 7]⟩ : Evaluation ℚ) k = some r) :=
  (scalar_as_constant ⟨[3, 1, 7]⟩ 5 2 (by decide)).imp fun _ h =>
    ⟨h.1, h.2.1, h.2.2.1, h.2.2.2.1, h.2.2.2.2 (by decide)⟩

/-- C9 (adding or subtracting a scalar changes the value slot only): for an
Evaluation `e` of arity `n` and a scalar `c`, `e + c` and `e - c` return Evaluations
with values `e.value() + c` and `e.value() - c`, and every derivative in `[0, n)` of
either result is the derivative of `e`. -/
theorem scalar_add_sub_value_only [Add α] [Sub α] (e : Evaluation α) (c : α) (n : Nat)
    (he : e.size = n) :
    ∃ p m u, addScalar e c = some p ∧ subScalar e c = some m ∧ e.value = some u ∧
      p.value = some (u + c) ∧ m.value = some (u - c) ∧
      ∀ i : Int, 0 ≤ i → i < n →
        ∃ d, e.derivative i = some d ∧ p.derivative i = some d ∧
          m.derivative i = some d := by
  have hle := length_of_size e n he
  have hpos : 0 < e.data_.length := by omega
  obtain ⟨u, hu⟩ := slot_some e 0 hpos
  refine ⟨_, _, u, addScalar_eq e c u hu, subScalar_eq e c u hu, hu, ?_, ?_,
    fun i h0 h1 => ?_⟩
  · rw [value_eq_slot]
    simp [hpos]
  · rw [value_eq_slot]
    simp [hpos]
  · obtain ⟨d, hd, hde⟩ := derivative_some e n he i h0 h1
    have hne : 0 ≠ 1 + i.toNat := by omega
    refine ⟨d, hde, ?_, ?_⟩
    · apply derivative_of_slot _ n (by simpa using hle) i h0 h1
      rw [List.getElem?_set_ne hne, hd]
    · apply derivative_of_slot _ n (by simpa using hle) i h0 h1
      rw [List.getElem?_set_ne hne, hd]

/-- C9, at `e = (3; 1, 7)` and `c = 5` over the integers. -/
theorem scalar_add_sub_value_only_witness :
    ∃ p m u, addScalar (⟨[3, 1, 7]⟩ : Evaluation Int) 5 = some p ∧
      subScalar (⟨[3, 1, 7]⟩ : Evaluation Int) 5 = some m ∧
      (⟨[3, 1, 7]⟩ : Evaluation Int).value = some u ∧
      p.value = some (u + 5) ∧ m.value = some (u - 5) ∧
      ∀ i : Int, 0 ≤ i → i < (2 : Nat) →
        ∃ d, (⟨[3, 1, 7]⟩ : Evaluation Int).derivative i = some d ∧
          p.derivative i = some d ∧ m.derivative i = some d :=
  scalar_add_sub_value_only ⟨[3, 1, 7]⟩ 5 2 (by decide)

/-- C10 (multiplying by a scalar scales every slot): for an Evaluation `e` of arity
`n` and a scalar `c`, `e * c` returns an Evaluation with value `e.value() * c` and,
for every `i` in `[0, n)`, derivative `e.derivative(i) * c`. -/
theorem scalar_mul_scales [Mul α] (e : Evaluation α) (c : α) (n : Nat)
    (he : e.size = n) :
    ∃ r u, mulScalar e c = some r ∧ e.value = some u ∧ r.value = some (u * c) ∧
      ∀ i : Int, 0 ≤ i → i < n →
        ∃ d, e.derivative i = some d ∧ r.derivative i = some (d * c) := by
  have hle := length_of_size e n he
  obtain ⟨u, hu⟩ := slot_some e 0 (by omega)
  obtain ⟨r, hr, hlen, hj⟩ := mulScalar_slots e c
  refine ⟨r, u, hr, hu, hj 0 u hu, fun i h0 h1 => ?_⟩
  obtain ⟨d, hd, hde⟩ := derivative_some e n he i h0 h1
  exact ⟨d, hde, derivative_of_slot r n (by omega) i h0 h1 _ (hj _ d hd)⟩

/-- C10, at `e = (3; 1, 7)` and `c = 5` over the integers. -/
theorem scalar_mul_scales_witness :
    ∃ r u, mulScalar (⟨[3, 1, 7]⟩ : Evaluation Int) 5 = some r ∧
      (⟨[3, 1, 7]⟩ : Evaluation Int).value = some u ∧ r.value = some (u * 5) ∧
      ∀ i : Int, 0 ≤ i → i < (2 : Nat) →
        ∃ d, (⟨[3, 1, 7]⟩ : Evaluation Int).derivative i = some d ∧
          r.derivative i = some (d * 5) :=
  scalar_mul_scales ⟨[3, 1, 7]⟩ 5 2 (by decide)

/-! ## Reciprocal, negation and comparisons -/

/-- Slots of `-a`. -/
theorem neg_slots [Neg α] (a : Evaluation α) :
    ∃ r, neg a = some r ∧ r.data_.length = a.data_.length ∧
      ∀ (j : Nat) (x : α), a.data_[j]? = some x → r.data_[j]? = some (-x) := by
  obtain ⟨r, hr, hinv⟩ := forLoop_slots a (fun _ x => some (-x))
    (fun i result => (a.readAt i).bind fun x => result.writeAt i (-x))
    0 a.data_.length (by omega) (by
      intro i e x _ h2 hinv hx
      have hie : i < e.data_.length := by rw [hinv.1]; omega
      exact ⟨-x, rfl, by simp [readAt, writeAt, hx, hie]⟩)
  refine ⟨r, ?_, hinv.1, fun j x hx => ?_⟩
  · simpa [neg, length_] using hr
  · have hj : j < a.data_.length := (List.getElem?_eq_some.mp hx).1
    have hc : 0 ≤ j ∧ j < 0 + a.data_.length := by omega
    rw [hinv.2 j, if_pos hc]
    simp [hx]

/-- C11 (dividing by a scalar is multiplying by its reciprocal): for every Evaluation
`e` and scalar `c`, `e / c` returns, `e * (1/c)` returns the very same Evaluation, and
every stored slot of it is the slot of `e` times the one reciprocal `1/c`. -/
theorem divScalar_is_mul_reciprocal [One α] [Mul α] [Div α] (e : Evaluation α) (c : α) :
    ∃ r, divScalar e c = some r ∧ mulScalar e (1 / c) = some r ∧
      r.data_.length = e.data_.length ∧
      ∀ (j : Nat) (x : α), e.data_[j]? = some x → r.data_[j]? = some (x * (1 / c)) := by
  obtain ⟨r, hr, hlen, hj⟩ := scale_loop e (1 / c)
  exact ⟨r, hr, hr, hlen, hj⟩

/-- C12 (unary negation): for an Evaluation `a` of arity `n`, `-a` returns an
Evaluation of size `n` whose value is `-a.value()` and whose derivative `i`, for every
`i` in `[0, n)`, is `-a.derivative(i)`. The operand is an argument of the function and
is read only. -/
theorem neg_negates [Neg α] (a : Evaluation α) (n : Nat) (ha : a.size = n) :
    ∃ r u, neg a = some r ∧ a.value = some u ∧ r.value = some (-u) ∧
      (∀ i : Int, 0 ≤ i → i < n →
        ∃ d, a.derivative i = some d ∧ r.derivative i = some (-d)) ∧
      r.size = n := by
  have hla := length_of_size a n ha
  obtain ⟨u, hu⟩ := slot_some a 0 (by omega)
  obtain ⟨r, hr, hlen, hj⟩ := neg_slots a
  refine ⟨r, u, hr, hu, hj 0 u hu, fun i h0 h1 => ?_, size_of_length r n (by omega)⟩
  obtain ⟨d, hd, hde⟩ := derivative_some a n ha i h0 h1
  exact ⟨d, hde, derivative_of_slot r n (by omega) i h0 h1 _ (hj _ d hd)⟩

/-- C12, at `a = (3; 1, -7)` over the integers. -/
theorem neg_negates_witness :
    ∃ r u, neg (⟨[3, 1, -7]⟩ : Evaluation Int) = some r ∧
      (⟨[3, 1, -7]⟩ : Evaluation Int).value = some u ∧ r.value = some (-u) ∧
      (∀ i : Int, 0 ≤ i → i < (2 : Nat) →
        ∃ d, (⟨[3, 1, -7]⟩ : Evaluation Int).derivative i = some d ∧
          r.derivative i = some (-d)) ∧
      r.size = (2 : Nat) :=
  neg_negates ⟨[3, 1, -7]⟩ 2 (by decide)

/-- C13 (relational operators are value-only): for Evaluations `a`, `b` of one arity
`n` with values `u`, `v`, each of `a < b`, `a <= b`, `a > b`, `a >= b` returns the
truth value of the same relation between `u` and `v`; and for a scalar `c` each of
`a < c`, `a <= c`, `a > c`, `a >= c`, `a == c`, `a != c` returns the truth value of the
relation between `u` and `c`. No derivative enters any of the answers. -/
theorem relational_value_only [LT α] [LE α] [DecidableRel (fun x y : α => x < y)]
    [DecidableRel (fun x y : α => x ≤ y)] [DecidableEq α]
    (a b : Evaluation α) (c : α) (n : Nat) (ha : a.size = n) (hb : b.size = n) :
    ∃ u v, a.value = some u ∧ b.value = some v ∧
      lt a b = some (decide (u < v)) ∧ le a b = some (decide (u ≤ v)) ∧
      gt a b = some (decide (u > v)) ∧ ge a b = some (decide (u ≥ v)) ∧
      ltScalar a c = some (decide (u < c)) ∧ leScalar a c = some (decide (u ≤ c)) ∧
      gtScalar a c = some (decide (u > c)) ∧ geScalar a c = some (decide (u ≥ c)) ∧
      eqScalar a c = some (decide (u = c)) ∧ neScalar a c = some (decide (u ≠ c)) := by
  have hla := length_of_size a n ha
  have hlb := length_of_size b n hb
  obtain ⟨u, hu⟩ := slot_some a 0 (by omega)
  obtain ⟨v, hv⟩ := slot_some b 0 (by omega)
  have hua : a.value = some u := hu
  have hvb : b.value = some v := hv
  have hab : a.size = b.size := by rw [ha, hb]
  refine ⟨u, v, hua, hvb, ?_, ?_, ?_, ?_, ?_, ?_, ?_, ?_, ?_, ?_⟩
  · simp [lt, hab, hua, hvb]
  · simp [le, hab, hua, hvb]
  · simp [gt, hab, hua, hvb]
  · simp [ge, hab, hua, hvb]
  · simp [ltScalar, hua]
  · simp [leScalar, hua]
  · simp [gtScalar, hua]
  · simp [geScalar, hua]
  · simp [eqScalar, hua]
  · simp [neScalar, eqScalar, hua]

/-- C13, at `a = (1; 5)`, `b = (2; 0)` and `c = 1` over the integers. -/
theorem relational_value_only_witness :
    ∃ u v, (⟨[1, 5]⟩ : Evaluation Int).value = some u ∧
      (⟨[2, 0]⟩ : Evaluation Int).value = some v ∧
      lt (⟨[1, 5]⟩ : Evaluation Int) ⟨[2, 0]⟩ = some (decide (u < v)) ∧
      le (⟨[1, 5]⟩ : Evaluation Int) ⟨[2, 0]⟩ = some (decide (u ≤ v)) ∧
      gt (⟨[1, 5]⟩ : Evaluation Int) ⟨[2, 0]⟩ = some (decide (u > v)) ∧
      ge (⟨[1, 5]⟩ : Evaluation Int) ⟨[2, 0]⟩ = some (decide (u ≥ v)) ∧
      ltScalar (⟨[1, 5]⟩ : Evaluation Int) 1 = some (decide (u < 1)) ∧
      leScalar (⟨[1, 5]⟩ : Evaluation Int) 1 = some (decide (u ≤ 1)) ∧
      gtScalar (⟨[1, 5]⟩ : Evaluation Int) 1 = some (decide (u > 1)) ∧
      geScalar (⟨[1, 5]⟩ : Evaluation Int) 1 = some (decide (u ≥ 1)) ∧
      eqScalar (⟨[1, 5]⟩ : Evaluation Int) 1 = some (decide (u = 1)) ∧
      neScalar (⟨[1, 5]⟩ : Evaluation Int) 1 = some (decide (u ≠ 1)) :=
  relational_value_only ⟨[1, 5]⟩ ⟨[2, 0]⟩ 1 1 (by decide) (by decide)

/-- One iteration of a loop with `return`. -/
theorem forLoopReturn_step {ρ : Type} (body : Nat → Option (Option ρ)) (i k : Nat) :
    forLoopReturn body i (k + 1) = (body i).bind fun o =>
      match o with
      | some r => some (some r)
      | none => forLoopReturn body (i + 1) k := rfl

/-- The slot-comparing loop of `operator==` over `[lo, lo + k)`: it returns, either by
`return false` or by running to its end, and it runs to its end exactly when the two
objects agree on every slot of the range. -/
theorem eqLoop_spec [DecidableEq α] (a b : Evaluation α) :
    ∀ (k lo : Nat), lo + k ≤ a.data_.length → lo + k ≤ b.data_.length →
      ∃ o, forLoopReturn (fun idx =>
          (a.readAt idx).bind fun x =>
          (b.readAt idx).bind fun y =>
          if x ≠ y then some (some false) else some none) lo k = some o ∧
        (o = none ∨ o = some false) ∧
        (o = none ↔ ∀ j, lo ≤ j → j < lo + k → a.data_[j]? = b.data_[j]?) := by
  intro k
  induction k with
  | zero =>
    intro lo _ _
    exact ⟨none, rfl, Or.inl rfl, by
      constructor
      · intro _ j h1 h2
        omega
      · intro _
        rfl⟩
  | succ k ih =>
    intro lo hla hlb
    obtain ⟨x, hx⟩ := slot_some a lo (by omega)
    obtain ⟨y, hy⟩ := slot_some b lo (by omega)
    by_cases hxy : x = y
    · obtain ⟨o, ho, hcase, hiff⟩ := ih (lo + 1) (by omega) (by omega)
      have hb : ((a.readAt lo).bind fun x => (b.readAt lo).bind fun y =>
          if x ≠ y then some (some false) else some none) = some none := by
        simp [readAt, hx, hy, hxy]
      refine ⟨o, ?_, hcase, ?_⟩
      · rw [forLoopReturn_step]
        simp only [hb, Option.some_bind]
        exact ho
      · rw [hiff]
        constructor
        · intro hall j h1 h2
          by_cases hj : j = lo
          · rw [hj, hx, hy, hxy]
          · exact hall j (by omega) (by omega)
        · intro hall j h1 h2
          exact hall j (by omega) (by omega)
    · have hb : ((a.readAt lo).bind fun x => (b.readAt lo).bind fun y =>
          if x ≠ y then some (some false) else some none) = some (some false) := by
        simp [readAt, hx, hy, hxy]
      refine ⟨some false, ?_, Or.inr rfl, ?_⟩
      · rw [forLoopReturn_step]
        simp only [hb, Option.some_bind]
      · constructor
        · intro h
          cases h
        · intro hall
          have hlo := hall lo (le_refl _) (by omega)
          rw [hx, hy] at hlo
          exact absurd (Option.some.inj hlo) hxy

/-- The answer of `a == b` on objects of one size: it returns, and returns `true`
exactly when the two agree on every stored slot. -/
theorem eqEval_spec [DecidableEq α] (a b : Evaluation α) (h : a.size = b.size) :
    ∃ t, eqEval a b = some t ∧
      (t = true ↔ ∀ j, j < a.data_.length → a.data_[j]? = b.data_[j]?) := by
  have hlen := length_eq_of_size_eq a b h
  obtain ⟨o, ho, hcase, hiff⟩ := eqLoop_spec a b a.data_.length 0 (by omega) (by omega)
  have hrun : eqEval a b = (some o).bind fun o =>
      match o with
      | some r => some r
      | none => some true := by
    unfold eqEval
    rw [if_pos h]
    have hcount : a.length_ - 0 = a.data_.length := rfl
    rw [hcount, ho]
  have hall : (∀ j, 0 ≤ j → j < 0 + a.data_.length → a.data_[j]? = b.data_[j]?) ↔
      ∀ j, j < a.data_.length → a.data_[j]? = b.data_[j]? := by
    constructor
    · intro hh j hj
      exact hh j (by omega) (by omega)
    · intro hh j _ hj
      exact hh j (by omega)
  rcases hcase with hnone | hfalse
  · subst hnone
    refine ⟨true, hrun, ?_⟩
    rw [← hall, ← hiff]
    simp
  · subst hfalse
    refine ⟨false, hrun, ?_⟩
    rw [← hall, ← hiff]
    simp

/-- Agreement on every stored slot is agreement of the values and of every
derivative. -/
theorem slots_iff_value_derivatives (a b : Evaluation α) (n : Nat) (ha : a.size = n)
    (hb : b.size = n) :
    (∀ j, j < a.data_.length → a.data_[j]? = b.data_[j]?) ↔
      (a.value = b.value ∧
        ∀ i : Int, 0 ≤ i → i < n → a.derivative i = b.derivative i) := by
  have hla := length_of_size a n ha
  have hlb := length_of_size b n hb
  constructor
  · intro hall
    refine ⟨hall 0 (by omega), fun i h0 h1 => ?_⟩
    rw [derivative_eq_slot a i h0 (by omega), derivative_eq_slot b i h0 (by omega)]
    exact hall _ (by omega)
  · intro hvd j hj
    rcases Nat.eq_zero_or_pos j with hz | hp
    · subst hz
      exact hvd.1
    · have hd := hvd.2 ((j - 1 : Nat) : Int) (by omega) (by omega)
      rw [derivative_eq_slot a _ (by omega) (by omega),
        derivative_eq_slot b _ (by omega) (by omega)] at hd
      have hidx : 1 + (((j - 1 : Nat) : Int)).toNat = j := by omega
      rw [hidx] at hd
      exact hd

/-- C14 (structural equality): for Evaluations `a`, `b` of one arity `n`, `a == b`
returns, and returns `true` exactly when `a.value() == b.value()` and
`a.derivative(i) == b.derivative(i)` for every `i` in `[0, n)`; `a != b` returns the
negation of that answer. -/
theorem structural_equality [DecidableEq α] (a b : Evaluation α) (n : Nat)
    (ha : a.size = n) (hb : b.size = n) :
    ∃ t, eqEval a b = some t ∧ neEval a b = some (!t) ∧
      (t = true ↔ (a.value = b.value ∧
        ∀ i : Int, 0 ≤ i → i < n → a.derivative i = b.derivative i)) := by
  obtain ⟨t, ht, hiff⟩ := eqEval_spec a b (by rw [ha, hb])
  refine ⟨t, ht, by simp [neEval, ht], ?_⟩
  rw [hiff]
  exact slots_iff_value_derivatives a b n ha hb

/-- C14, at `a = (1; 0, 2)` and `b = (1; 0, 3)` over the integers. -/
theorem structural_equality_witness :
    ∃ t, eqEval (⟨[1, 0, 2]⟩ : Evaluation Int) ⟨[1, 0, 3]⟩ = some t ∧
      neEval (⟨[1, 0, 2]⟩ : Evaluation Int) ⟨[1, 0, 3]⟩ = some (!t) ∧
      (t = true ↔ ((⟨[1, 0, 2]⟩ : Evaluation Int).value
          = (⟨[1, 0, 3]⟩ : Evaluation Int).value ∧
        ∀ i : Int, 0 ≤ i → i < (2 : Nat) →
          (⟨[1, 0, 2]⟩ : Evaluation Int).derivative i
            = (⟨[1, 0, 3]⟩ : Evaluation Int).derivative i)) :=
  structural_equality ⟨[1, 0, 2]⟩ ⟨[1, 0, 3]⟩ 2 (by decide) (by decide)

/-- C15 as stated fails: `(1; 0)` and `(1; 1)` have one arity and one value, yet
`==` answers `false` and `!=` answers `true`. -/
theorem equality_value_only_counterexample :
    (⟨[1, 0]⟩ : Evaluation Int).size = (⟨[1, 1]⟩ : Evaluation Int).size ∧
      (⟨[1, 0]⟩ : Evaluation Int).value = (⟨[1, 1]⟩ : Evaluation Int).value ∧
      eqEval (⟨[1, 0]⟩ : Evaluation Int) ⟨[1, 1]⟩ = some false ∧
      neEval (⟨[1, 0]⟩ : Evaluation Int) ⟨[1, 1]⟩ = some true := by
  decide

/-- C15, amended: for Evaluations `a`, `b` of one arity `n` with values `u`, `v`,
`a == b` and `a != b` return, the second the negation of the first; `a == b` being
true forces `u = v` and `u ≠ v` forces `a != b`; when the derivatives of `a` and `b`
agree on `[0, n)`, `a == b` is true exactly when `u = v` and `a != b` exactly when
`u ≠ v`; and when some derivative in `[0, n)` differs, `a == b` is false and `a != b`
is true, whatever the values. -/
theorem equality_value_only_on_equal_derivatives [DecidableEq α] (a b : Evaluation α)
    (n : Nat) (ha : a.size = n) (hb : b.size = n) :
    ∃ t u v, eqEval a b = some t ∧ neEval a b = some (!t) ∧
      a.value = some u ∧ b.value = some v ∧
      (t = true → u = v) ∧ (u ≠ v → (!t) = true) ∧
      ((∀ i : Int, 0 ≤ i → i < n → a.derivative i = b.derivative i) →
        ((t = true ↔ u = v) ∧ ((!t) = true ↔ u ≠ v))) ∧
      ((∃ i : Int, 0 ≤ i ∧ i < n ∧ a.derivative i ≠ b.derivative i) →
        (t = false ∧ (!t) = true)) := by
  have hla := length_of_size a n ha
  have hlb := length_of_size b n hb
  obtain ⟨u, hu⟩ := slot_some a 0 (by omega)
  obtain ⟨v, hv⟩ := slot_some b 0 (by omega)
  have hua : a.value = some u := hu
  have hvb : b.value = some v := hv
  obtain ⟨t, ht, hiff⟩ := eqEval_spec a b (by rw [ha, hb])
  rw [slots_iff_value_derivatives a b n ha hb, hua, hvb] at hiff
  have h1 : t = true → u = v := fun h => Option.some.inj (hiff.mp h).1
  have h2 : u ≠ v → (!t) = true := by
    intro hne
    cases t with
    | false => rfl
    | true => exact absurd (h1 rfl) hne
  refine ⟨t, u, v, ht, by simp [neEval, ht], hua, hvb, h1, h2,
    fun hd => ⟨⟨h1, ?_⟩, ⟨?_, h2⟩⟩, ?_⟩
  · intro huv
    exact hiff.mpr ⟨by rw [huv], hd⟩
  · intro hnt huv
    have htt : t = true := hiff.mpr ⟨by rw [huv], hd⟩
    rw [htt] at hnt
    cases hnt
  · rintro ⟨i, hi0, hin, hne⟩
    have htf : t = false := by
      cases htt : t with
      | false => rfl
      | true => exact absurd ((hiff.mp htt).2 i hi0 hin) hne
    rw [htf]
    exact ⟨rfl, rfl⟩

/-- C15 amended, used at three pairs over the integers: `(1; 0, 2)` against itself,
where the derivatives agree and the values are equal, so `==` answers `true`;
`(1; 0, 2)` against `(1; 0, 3)`, where the values agree and a derivative differs, so
`==` answers `false` and `!=` answers `true`; and `(1; 0, 2)` against `(4; 0, 2)`,
where the derivatives agree and the values differ, so `!=` answers `true`. -/
theorem equality_value_only_on_equal_derivatives_witness :
    eqEval (⟨[1, 0, 2]⟩ : Evaluation Int) ⟨[1, 0, 2]⟩ = some true ∧
      eqEval (⟨[1, 0, 2]⟩ : Evaluation Int) ⟨[1, 0, 3]⟩ = some false ∧
      neEval (⟨[1, 0, 2]⟩ : Evaluation Int) ⟨[1, 0, 3]⟩ = some true ∧
      neEval (⟨[1, 0, 2]⟩ : Evaluation Int) ⟨[4, 0, 2]⟩ = some true := by
  obtain ⟨t, u, v, ht, _, hu, hv, _, _, hagree, _⟩ :=
    equality_value_only_on_equal_derivatives (⟨[1, 0, 2]⟩ : Evaluation Int) ⟨[1, 0, 2]⟩ 2
      (by decide) (by decide)
  obtain ⟨t2, u2, v2, ht2, hn2, _, _, _, _, _, hdiffer⟩ :=
    equality_value_only_on_equal_derivatives (⟨[1, 0, 2]⟩ : Evaluation Int) ⟨[1, 0, 3]⟩ 2
      (by decide) (by decide)
  obtain ⟨t3, u3, v3, _, hn3, hu3, hv3, _, hne3, _, _⟩ :=
    equality_value_only_on_equal_derivatives (⟨[1, 0, 2]⟩ : Evaluation Int) ⟨[4, 0, 2]⟩ 2
      (by decide) (by decide)
  have huv : u = v := Option.some.inj (hu.symm.trans hv)
  have htrue : t = true := (hagree (fun _ _ _ => rfl)).1.mpr huv
  have hfalse := hdiffer ⟨1, by decide, by decide, by decide⟩
  have hu31 : u3 = 1 := (Option.some.inj hu3).symm
  have hv34 : v3 = 4 := (Option.some.inj hv3).symm
  have hne : (!t3) = true := hne3 (by rw [hu31, hv34]; decide)
  rw [htrue] at ht
  rw [hfalse.1] at ht2
  rw [hfalse.2] at hn2
  rw [hne] at hn3
  exact ⟨ht, ht2, hn2, hn3⟩

/-! ## Blank objects and the storage layout -/

/-- The object built by the one-argument constructor. -/
theorem mkBlank_eq [Zero α] (n : Int) (hn : 0 ≤ 1 + n) :
    mkBlank n = some (⟨List.replicate (1 + n).toNat (0 : α)⟩ : Evaluation α) := by
  simp [mkBlank, fillDefault, hn]

/-- An object storing `n + 1` scalars has size `n`, answers `value()` with slot 0 and
`derivative(i)`, for `i` in `[0, n)`, with slot `i + 1`. -/
theorem layout_of_length (e : Evaluation α) (n : Int)
    (h : (e.data_.length : Int) = n + 1) :
    e.size = n ∧ e.value = e.data_[0]? ∧
      ∀ i : Int, 0 ≤ i → i < n → e.derivative i = e.data_[(i + 1).toNat]? := by
  have hs : e.size = n := by
    unfold size
    omega
  refine ⟨hs, rfl, fun i h0 h1 => ?_⟩
  have hidx : (i + 1).toNat = 1 + i.toNat := by omega
  rw [hidx]
  exact derivative_eq_slot e i h0 (by omega)

/-- C16 (blank): for every `n >= 0` the one-argument constructor returns an
Evaluation of size `n` with value 0 and every derivative in `[0, n)` equal to 0. -/
theorem blank_zero [Zero α] (n : Int) (hn : 0 ≤ n) :
    ∃ e : Evaluation α, mkBlank n = some e ∧ e.size = n ∧ e.value = some 0 ∧
      ∀ i : Int, 0 ≤ i → i < n → e.derivative i = some 0 := by
  have hlay := layout_of_length
    (⟨List.replicate (1 + n).toNat (0 : α)⟩ : Evaluation α) n (by simp; omega)
  refine ⟨_, mkBlank_eq n (by omega), hlay.1, ?_, fun i h0 h1 => ?_⟩
  · have hpos : 0 < (1 + n).toNat := by omega
    rw [hlay.2.1]
    simp [hpos]
  · have hi : (i + 1).toNat < (1 + n).toNat := by omega
    rw [hlay.2.2 i h0 h1]
    simp [hi]

/-- C16, at `n = 3` over the integers. -/
theorem blank_zero_witness :
    ∃ e : Evaluation Int, mkBlank 3 = some e ∧ e.size = 3 ∧ e.value = some 0 ∧
      ∀ i : Int, 0 ≤ i → i < 3 → e.derivative i = some 0 :=
  blank_zero 3 (by decide)

/-- C17 (round-trip construction): for every Evaluation `x`, `createBlank(x)` returns
an Evaluation of the size of `x`. -/
theorem createBlank_size [Zero α] (x : Evaluation α) :
    ∃ r, createBlank x = some r ∧ r.size = x.size := by
  have h0 : 0 ≤ 1 + x.size := by
    unfold size
    omega
  refine ⟨_, mkBlank_eq x.size h0, ?_⟩
  unfold size
  simp

/-- C18 (concrete scenario, over the rationals): `variable(2, 3, 0)` and
`variable(2, 4, 1)` return `a` and `b`; `a * b` has value 12 and derivatives (4, 3),
`a + b` has value 7 and derivatives (1, 1), `a / b` has value 3/4 and derivatives
(1/4, -3/16). -/
theorem concrete_scenario :
    ∃ a b p s q : Evaluation ℚ,
      Opm.variable_ 2 (3 : ℚ) 0 = some a ∧ Opm.variable_ 2 (4 : ℚ) 1 = some b ∧
      mul a b = some p ∧ p.value = some 12 ∧
      p.derivative 0 = some 4 ∧ p.derivative 1 = some 3 ∧
      add a b = some s ∧ s.value = some 7 ∧
      s.derivative 0 = some 1 ∧ s.derivative 1 = some 1 ∧
      div a b = some q ∧ q.value = some (3 / 4) ∧
      q.derivative 0 = some (1 / 4) ∧ q.derivative 1 = some (-3 / 16) := by
  have hsz : (⟨[3, 1, 0]⟩ : Evaluation ℚ).size = (⟨[4, 0, 1]⟩ : Evaluation ℚ).size := by
    decide
  have hpos : 0 < (⟨[3, 1, 0]⟩ : Evaluation ℚ).data_.length := by decide
  obtain ⟨p, u, v, hp, hu, hv, hpl, hp0, hpj⟩ := mul_slots _ _ hsz hpos
  obtain ⟨s, hs, hsl, hsj⟩ := add_slots _ _ hsz
  obtain ⟨q, u1, v1, hq, hu1, hv1, hql, hq0, hqj⟩ := div_slots _ _ hsz hpos
  have hu3 : u = 3 := by simpa using hu.symm
  have hv4 : v = 4 := by simpa using hv.symm
  have hu13 : u1 = 3 := by simpa using hu1.symm
  have hv14 : v1 = 4 := by simpa using hv1.symm
  subst hu3 hv4 hu13 hv14
  have hp1 := hpj 1 1 0 (by omega) rfl rfl
  have hp2 := hpj 2 0 1 (by omega) rfl rfl
  have hs0 := hsj 0 3 4 rfl rfl
  have hs1 := hsj 1 1 0 rfl rfl
  have hs2 := hsj 2 0 1 rfl rfl
  have hq1 := hqj 1 1 0 (by omega) rfl rfl
  have hq2 := hqj 2 0 1 (by omega) rfl rfl
  refine ⟨⟨[3, 1, 0]⟩, ⟨[4, 0, 1]⟩, p, s, q, by decide, by decide,
    hp, ?_, ?_, ?_, hs, ?_, ?_, ?_, hq, ?_, ?_, ?_⟩
  · rw [value_eq_slot, hp0]
    norm_num
  · rw [derivative_of_slot p 2 hpl 0 (by decide) (by decide) _ hp1]
    norm_num
  · rw [derivative_of_slot p 2 hpl 1 (by decide) (by decide) _ hp2]
    norm_num
  · rw [value_eq_slot, hs0]
    norm_num
  · rw [derivative_of_slot s 2 hsl 0 (by decide) (by decide) _ hs1]
    norm_num
  · rw [derivative_of_slot s 2 hsl 1 (by decide) (by decide) _ hs2]
    norm_num
  · rw [value_eq_slot, hq0]
  · rw [derivative_of_slot q 2 hql 0 (by decide) (by decide) _ hq1]
    norm_num
  · rw [derivative_of_slot q 2 hql 1 (by decide) (by decide) _ hq2]
    norm_num

/-- C19 (storage layout): for `n >= 0` each of the constructors `Evaluation(n)`,
`Evaluation(n, c)` and, for `0 <= k < n`, `Evaluation(n, c, k)` returns an Evaluation
that stores exactly `n + 1` scalars and reports `size() == n`; its `value()` reads slot
0 and its `derivative(i)` reads slot `i + 1` for every `i` in `[0, n)`. -/
theorem storage_layout [Zero α] [One α] (n : Int) (c : α) (hn : 0 ≤ n) :
    (∃ e : Evaluation α, mkBlank n = some e ∧
      (e.data_.length : Int) = n + 1 ∧ e.size = n ∧ e.value = e.data_[0]? ∧
      ∀ i : Int, 0 ≤ i → i < n → e.derivative i = e.data_[(i + 1).toNat]?) ∧
    (∃ e : Evaluation α, mkConstant n c = some e ∧
      (e.data_.length : Int) = n + 1 ∧ e.size = n ∧ e.value = e.data_[0]? ∧
      ∀ i : Int, 0 ≤ i → i < n → e.derivative i = e.data_[(i + 1).toNat]?) ∧
    (∀ k : Int, 0 ≤ k → k < n →
      ∃ e : Evaluation α, mkVariable n c k = some e ∧
        (e.data_.length : Int) = n + 1 ∧ e.size = n ∧ e.value = e.data_[0]? ∧
        ∀ i : Int, 0 ≤ i → i < n → e.derivative i = e.data_[(i + 1).toNat]?) := by
  have hb : (((⟨List.replicate (1 + n).toNat (0 : α)⟩ : Evaluation α).data_.length : Nat)
      : Int) = n + 1 := by
    simp
    omega
  have hc : (((⟨(List.replicate (1 + n).toNat (0 : α)).set 0 c⟩
      : Evaluation α).data_.length : Nat) : Int) = n + 1 := by
    simp
    omega
  refine ⟨⟨_, mkBlank_eq n (by omega), hb, layout_of_length _ n hb⟩,
    ⟨_, mkConstant_eq n c hn, hc, layout_of_length _ n hc⟩, fun k hk0 hkn => ?_⟩
  have hv : (((⟨((List.replicate (1 + n).toNat (0 : α)).set 0 c).set (k.toNat + 1) 1⟩
      : Evaluation α).data_.length : Nat) : Int) = n + 1 := by
    simp
    omega
  exact ⟨_, mkVariable_eq n c k hk0 hkn, hv, layout_of_length _ n hv⟩

/-- C19, at `n = 2`, `c = 5` over the integers. -/
theorem storage_layout_witness :
    (∃ e : Evaluation Int, mkBlank 2 = some e ∧
      (e.data_.length : Int) = 2 + 1 ∧ e.size = 2 ∧ e.value = e.data_[0]? ∧
      ∀ i : Int, 0 ≤ i → i < 2 → e.derivative i = e.data_[(i + 1).toNat]?) ∧
    (∃ e : Evaluation Int, mkConstant 2 5 = some e ∧
      (e.data_.length : Int) = 2 + 1 ∧ e.size = 2 ∧ e.value = e.data_[0]? ∧
      ∀ i : Int, 0 ≤ i → i < 2 → e.derivative i = e.data_[(i + 1).toNat]?) ∧
    (∀ k : Int, 0 ≤ k → k < 2 →
      ∃ e : Evaluation Int, mkVariable 2 5 k = some e ∧
        (e.data_.length : Int) = 2 + 1 ∧ e.size = 2 ∧ e.value = e.data_[0]? ∧
        ∀ i : Int, 0 ≤ i → i < 2 → e.derivative i = e.data_[(i + 1).toNat]?) :=
  storage_layout 2 5 (by decide)

/-! ## Arity over the lifetime of an object -/

/-- A write keeps the number of stored slots. -/
theorem writeAt_length (e r : Evaluation α) (i : Nat) (x : α)
    (h : e.writeAt i x = some r) : r.data_.length = e.data_.length := by
  unfold writeAt at h
  split at h
  · cases h
    simp
  · cases h

/-- A loop whose iterations keep the number of stored slots keeps it. -/
theorem forLoop_length (body : Nat → Evaluation α → Option (Evaluation α))
    (hbody : ∀ i s t, body i s = some t → t.data_.length = s.data_.length) :
    ∀ (k lo : Nat) (s r : Evaluation α), forLoop body lo k s = some r →
      r.data_.length = s.data_.length := by
  intro k
  induction k with
  | zero =>
    intro lo s r h
    cases h
    rfl
  | succ k ih =>
    intro lo s r h
    have hstep : forLoop body lo (k + 1) s = (body lo s).bind (forLoop body (lo + 1) k) :=
      rfl
    rw [hstep, Option.bind_eq_some] at h
    obtain ⟨t, ht, hr⟩ := h
    rw [ih (lo + 1) t r hr, hbody lo s t ht]

/-- Whenever `this += other` returns, the slots are as many as before. -/
theorem addAssign_length [Add α] (e r : Evaluation α) (other : Rhs α)
    (h : addAssign e other = some r) : r.data_.length = e.data_.length := by
  unfold addAssign at h
  split at h
  · refine forLoop_length _ (fun i s t hb => ?_) _ _ _ _ h
    simp only [Option.bind_eq_some] at hb
    obtain ⟨x, _, y, _, hw⟩ := hb
    exact writeAt_length _ _ _ _ hw
  · cases h

/-- Whenever `this -= other` returns, the slots are as many as before. -/
theorem subAssign_length [Sub α] (e r : Evaluation α) (other : Rhs α)
    (h : subAssign e other = some r) : r.data_.length = e.data_.length := by
  unfold subAssign at h
  split at h
  · refine forLoop_length _ (fun i s t hb => ?_) _ _ _ _ h
    simp only [Option.bind_eq_some] at hb
    obtain ⟨x, _, y, _, hw⟩ := hb
    exact writeAt_length _ _ _ _ hw
  · cases h

/-- Whenever `this *= other` returns, the slots are as many as before. -/
theorem mulAssign_length [Add α] [Mul α] (e r : Evaluation α) (other : Rhs α)
    (h : mulAssign e other = some r) : r.data_.length = e.data_.length := by
  unfold mulAssign at h
  split at h
  · simp only [Option.bind_eq_some] at h
    obtain ⟨u, _, v, _, x, _, e1, hw, hloop⟩ := h
    have h1 := writeAt_length _ _ _ _ hw
    have h2 : r.data_.length = e1.data_.length := by
      refine forLoop_length _ (fun i s t hb => ?_) _ _ _ _ hloop
      simp only [Option.bind_eq_some] at hb
      obtain ⟨di, _, oi, _, hw2⟩ := hb
      exact writeAt_length _ _ _ _ hw2
    rw [h2, h1]
  · cases h

/-- Whenever `this /= other` returns, the slots are as many as before. -/
theorem divAssign_length [Sub α] [Mul α] [Div α] (e r : Evaluation α) (other : Rhs α)
    (h : divAssign e other = some r) : r.data_.length = e.data_.length := by
  unfold divAssign at h
  split at h
  · simp only [Option.bind_eq_some] at h
    obtain ⟨e1, hloop, u, _, v, _, hw⟩ := h
    have h1 : e1.data_.length = e.data_.length := by
      refine forLoop_length _ (fun i s t hb => ?_) _ _ _ _ hloop
      simp only [Option.bind_eq_some] at hb
      obtain ⟨u2, _, v2, _, up, _, vp, _, hw2⟩ := hb
      exact writeAt_length _ _ _ _ hw2
    rw [writeAt_length _ _ _ _ hw, h1]
  · cases h

/-- Whenever `copyDerivatives(other)` returns, the slots are as many as before. -/
theorem copyDerivatives_length (e r : Evaluation α) (other : Rhs α)
    (h : copyDerivatives e other = some r) : r.data_.length = e.data_.length := by
  unfold copyDerivatives at h
  split at h
  · refine forLoop_length _ (fun i s t hb => ?_) _ _ _ _ h
    simp only [Option.bind_eq_some] at hb
    obtain ⟨y, _, hw⟩ := hb
    exact writeAt_length _ _ _ _ hw
  · cases h

/-- Slots after `copyDerivatives(b)` for an object `b` of the same size. -/
theorem copyDerivatives_slots (a b : Evaluation α) (h : a.size = b.size) :
    ∃ r, copyDerivatives a (Rhs.obj b) = some r ∧ r.data_.length = a.data_.length ∧
      r.data_[0]? = a.data_[0]? ∧
      ∀ j : Nat, 1 ≤ j → j < a.data_.length → r.data_[j]? = b.data_[j]? := by
  have hlen := length_eq_of_size_eq a b h
  rcases Nat.eq_zero_or_pos a.data_.length with hz | hpos
  · refine ⟨a, ?_, rfl, rfl, fun j h1 h2 => by omega⟩
    have hcount : a.dend_ - a.dstart_ = 0 := by
      show a.data_.length - 1 = 0
      omega
    unfold copyDerivatives
    rw [if_pos (by simpa [Rhs.deref] using h), hcount]
    rfl
  obtain ⟨r, hr, hinv⟩ := forLoop_slots a (fun j _ => b.data_[j]?)
    (fun i e => (((Rhs.obj b).deref e).readAt i).bind fun y => e.writeAt i y)
    1 (a.data_.length - 1) (by omega) (by
      intro i e x _ h2 hinv _
      have hie : i < e.data_.length := by rw [hinv.1]; omega
      obtain ⟨y, hy⟩ := slot_some b i (by omega)
      exact ⟨y, hy, by simp [readAt, writeAt, Rhs.deref, hy, hie]⟩)
  refine ⟨r, ?_, hinv.1, ?_, fun j h1 h2 => ?_⟩
  · unfold copyDerivatives
    rw [if_pos (by simpa [Rhs.deref] using h)]
    exact hr
  · have hc : ¬ (1 ≤ 0 ∧ 0 < 1 + (a.data_.length - 1)) := by omega
    rw [hinv.2 0, if_neg hc]
  · have hc : 1 ≤ j ∧ j < 1 + (a.data_.length - 1) := by omega
    rw [hinv.2 j, if_pos hc, List.getElem?_eq_getElem h2]
    rfl

/-- C20 as stated fails: copy assignment and move assignment of an Evaluation of arity
2 to one of arity 1 leave the target with size 2. -/
theorem arity_immutable_counterexample :
    (⟨[1, 0]⟩ : Evaluation Int).size = 1 ∧
      (copyAssign (⟨[1, 0]⟩ : Evaluation Int) ⟨[1, 0, 0]⟩).size = 2 ∧
      (moveAssign (⟨[1, 0]⟩ : Evaluation Int) ⟨[1, 0, 0]⟩).size = 2 := by
  decide

/-- C20, amended: for an Evaluation `e` of arity `n >= 0`, an Evaluation `b` of the
same arity and scalars `c`, `d`, each of `e += b`, `e -= b`, `e *= b`, `e /= b`,
`e += c`, `e -= c`, `e *= c`, `e /= c`, `e = c`, `setValue(c)`, `clearDerivatives()`
and `copyDerivatives(b)` returns and leaves `e` with size `n`, and so does
`setDerivative(i, d)` for every index `i` in `[0, n)`; whatever the right operand
refers to, the four compound assignments and `copyDerivatives` leave the size at `n`
whenever they return; copy assignment and move assignment give `e` the size of the
assigned Evaluation. -/
theorem arity_fixed_in_place [Zero α] [One α] [Add α] [Sub α] [Mul α] [Div α]
    (e b : Evaluation α) (c d : α) (n : Nat)
    (he : e.size = n) (hb : b.size = n) :
    (∃ r, addAssign e (Rhs.obj b) = some r ∧ r.size = n) ∧
    (∃ r, subAssign e (Rhs.obj b) = some r ∧ r.size = n) ∧
    (∃ r, mulAssign e (Rhs.obj b) = some r ∧ r.size = n) ∧
    (∃ r, divAssign e (Rhs.obj b) = some r ∧ r.size = n) ∧
    (∃ r, addAssignScalar e c = some r ∧ r.size = n) ∧
    (∃ r, subAssignScalar e c = some r ∧ r.size = n) ∧
    (∃ r, mulAssignScalar e c = some r ∧ r.size = n) ∧
    (∃ r, divAssignScalar e c = some r ∧ r.size = n) ∧
    (∃ r, assignScalar e c = some r ∧ r.size = n) ∧
    (∃ r, setValue e c = some r ∧ r.size = n) ∧
    (∀ i : Int, 0 ≤ i → i < n → ∃ r, setDerivative e i d = some r ∧ r.size = n) ∧
    (∃ r, clearDerivatives e = some r ∧ r.size = n) ∧
    (∃ r, copyDerivatives e (Rhs.obj b) = some r ∧ r.size = n) ∧
    (∀ (other : Rhs α) (r : Evaluation α),
      (addAssign e other = some r → r.size = n) ∧
      (subAssign e other = some r → r.size = n) ∧
      (mulAssign e other = some r → r.size = n) ∧
      (divAssign e other = some r → r.size = n) ∧
      (copyDerivatives e other = some r → r.size = n)) ∧
    (∀ x : Evaluation α, (copyAssign e x).size = x.size ∧
      (moveAssign e x).size = x.size) := by
  have hab : e.size = b.size := by rw [he, hb]
  have hle := length_of_size e n he
  have hpos : 0 < e.data_.length := by omega
  have hsz : ∀ r : Evaluation α, r.data_.length = e.data_.length → r.size = n :=
    fun r hr => size_of_length r n (by omega)
  obtain ⟨u, hu⟩ := slot_some e 0 hpos
  obtain ⟨r1, h1, l1, _⟩ := add_slots e b hab
  obtain ⟨r2, h2, l2, _⟩ := sub_slots e b hab
  obtain ⟨r3, _, _, h3, _, _, l3, _⟩ := mul_slots e b hab hpos
  obtain ⟨r4, _, _, h4, _, _, l4, _⟩ := div_slots e b hab hpos
  obtain ⟨r7, h7, l7, _⟩ := mulScalar_slots e c
  obtain ⟨r8, h8, l8, _⟩ := divScalar_slots e c
  obtain ⟨r9, h9, l9, _⟩ := assignScalar_slots e c hpos
  obtain ⟨r12, h12, l12, _⟩ := clearDerivatives_slots e
  obtain ⟨r13, h13, l13, _⟩ := copyDerivatives_slots e b hab
  refine ⟨⟨r1, ?_, hsz r1 l1⟩, ⟨r2, ?_, hsz r2 l2⟩, ⟨r3, ?_, hsz r3 l3⟩,
    ⟨r4, ?_, hsz r4 l4⟩,
    ⟨_, addScalar_eq e c u hu, hsz _ (by simp)⟩,
    ⟨_, subScalar_eq e c u hu, hsz _ (by simp)⟩,
    ⟨r7, h7, hsz r7 l7⟩, ⟨r8, h8, hsz r8 l8⟩, ⟨r9, h9, hsz r9 l9⟩,
    ⟨⟨e.data_.set 0 c⟩, ?_, hsz _ (by simp)⟩,
    fun i hi0 hin => ⟨⟨e.data_.set (1 + i.toNat) d⟩, ?_, hsz _ (by simp)⟩,
    ⟨r12, h12, hsz r12 l12⟩, ⟨r13, h13, hsz r13 l13⟩,
    fun other r => ⟨fun h => hsz r (addAssign_length e r other h),
      fun h => hsz r (subAssign_length e r other h),
      fun h => hsz r (mulAssign_length e r other h),
      fun h => hsz r (divAssign_length e r other h),
      fun h => hsz r (copyDerivatives_length e r other h)⟩,
    fun x => ⟨rfl, rfl⟩⟩
  · simpa [add, hab] using h1
  · simpa [sub, hab] using h2
  · simpa [mul, hab] using h3
  · simpa [div, hab] using h4
  · simp [setValue, writeAt, valuepos_, hpos]
  · have his : i < e.size := by rw [he]; exact hin
    have hidx : 1 + i.toNat < e.data_.length := by omega
    simp [setDerivative, writeAt, dstart_, hi0, his, hidx]

/-- C20 amended, used at arity 0, `e = (3;)`, `b = (4;)`, `c = 5`, and at arity 2,
`e = (3; 1, 7)`, `b = (4; 0, 1)`, `c = 5`, `d = 9` with the index 1, over the
rationals. -/
theorem arity_fixed_in_place_witness :
    (∃ r, addAssign (⟨[3]⟩ : Evaluation ℚ) (Rhs.obj ⟨[4]⟩) = some r ∧
      r.size = (0 : Nat)) ∧
    (∃ r, divAssign (⟨[3]⟩ : Evaluation ℚ) (Rhs.obj ⟨[4]⟩) = some r ∧
      r.size = (0 : Nat)) ∧
    (∃ r, mulAssignScalar (⟨[3]⟩ : Evaluation ℚ) 5 = some r ∧ r.size = (0 : Nat)) ∧
    (∃ r, assignScalar (⟨[3]⟩ : Evaluation ℚ) 5 = some r ∧ r.size = (0 : Nat)) ∧
    (∃ r, setValue (⟨[3]⟩ : Evaluation ℚ) 5 = some r ∧ r.size = (0 : Nat)) ∧
    (∃ r, clearDerivatives (⟨[3]⟩ : Evaluation ℚ) = some r ∧ r.size = (0 : Nat)) ∧
    (∃ r, copyDerivatives (⟨[3]⟩ : Evaluation ℚ) (Rhs.obj ⟨[4]⟩) = some r ∧
      r.size = (0 : Nat)) ∧
    (∃ r, addAssign (⟨[3, 1, 7]⟩ : Evaluation ℚ) (Rhs.obj ⟨[4, 0, 1]⟩) = some r ∧
      r.size = (2 : Nat)) ∧
    (∃ r, mulAssign (⟨[3, 1, 7]⟩ : Evaluation ℚ) (Rhs.obj ⟨[4, 0, 1]⟩) = some r ∧
      r.size = (2 : Nat)) ∧
    (∃ r, divAssign (⟨[3, 1, 7]⟩ : Evaluation ℚ) (Rhs.obj ⟨[4, 0, 1]⟩) = some r ∧
      r.size = (2 : Nat)) ∧
    (∃ r, assignScalar (⟨[3, 1, 7]⟩ : Evaluation ℚ) 5 = some r ∧ r.size = (2 : Nat)) ∧
    (∃ r, setDerivative (⟨[3, 1, 7]⟩ : Evaluation ℚ) 1 9 = some r ∧
      r.size = (2 : Nat)) ∧
    (∃ r, copyDerivatives (⟨[3, 1, 7]⟩ : Evaluation ℚ) (Rhs.obj ⟨[4, 0, 1]⟩) = some r ∧
      r.size = (2 : Nat)) :=
  have h0 := arity_fixed_in_place (⟨[3]⟩ : Evaluation ℚ) ⟨[4]⟩ 5 9 0
    (by decide) (by decide)
  have h := arity_fixed_in_place (⟨[3, 1, 7]⟩ : Evaluation ℚ) ⟨[4, 0, 1]⟩ 5 9 2
    (by decide) (by decide)
  ⟨h0.1, h0.2.2.2.1, h0.2.2.2.2.2.2.1, h0.2.2.2.2.2.2.2.2.1, h0.2.2.2.2.2.2.2.2.2.1,
    h0.2.2.2.2.2.2.2.2.2.2.2.1, h0.2.2.2.2.2.2.2.2.2.2.2.2.1,
    h.1, h.2.2.1, h.2.2.2.1, h.2.2.2.2.2.2.2.2.1,
    h.2.2.2.2.2.2.2.2.2.2.1 1 (by decide) (by decide),
    h.2.2.2.2.2.2.2.2.2.2.2.2.1⟩

end Evaluation
end DenseAd
end Opm

/-! ## Schedule sources -/

namespace Opm
namespace Source

variable {α : Type}

/-- Comparing a cell with the key of a cell is comparing the two cells. -/
theorem isSamePair_key (x c : SourceCell α) :
    x.isSamePair (c.ijk, c.component) = x.isSame c := rfl

/-- A cell that matches a key has that key. -/
theorem key_of_isSamePair (x : SourceCell α) (k : (Int × Int × Int) × SourceComponent)
    (h : x.isSamePair k = true) : (x.ijk, x.component) = k := by
  simp [SourceCell.isSamePair] at h
  rw [h.1, h.2]

/-- Two cells that are the same have one key. -/
theorem key_of_isSame (x c : SourceCell α) (h : x.isSame c = true) :
    (x.ijk, x.component) = (c.ijk, c.component) :=
  key_of_isSamePair x (c.ijk, c.component) h

/-- The fields of the cell built from a record. -/
theorem ofRecord_fields (r : DeckRecord α) (c : SourceCell α)
    (hc : SourceCell.ofRecord r = Except.ok c) :
    c.ijk = (r.I - 1, r.J - 1, r.K - 1) ∧
      fromstring.component r.COMPONENT = Except.ok c.component ∧
      c.rate = r.RATE ∧ c.hrate = r.HRATE := by
  unfold SourceCell.ofRecord at hc
  cases hcomp : fromstring.component r.COMPONENT with
  | error e =>
    rw [hcomp] at hc
    cases hc
  | ok comp =>
    rw [hcomp] at hc
    cases hc
    exact ⟨rfl, rfl, rfl, rfl⟩

/-- The loop of `updateSource` ends without returning exactly when no cell is the
same as the new one. -/
theorem updateSourceLoop_none (c : SourceCell α) :
    ∀ l : List (SourceCell α),
      updateSourceLoop c l = none ↔ ∀ x ∈ l, x.isSame c = false := by
  intro l
  induction l with
  | nil => simp [updateSourceLoop]
  | cons a rest ih =>
    by_cases ha : a.isSame c = true
    · simp [updateSourceLoop, ha]
    · have hf : a.isSame c = false := by simpa using ha
      simp [updateSourceLoop, hf, ih]

/-- When the loop of `updateSource` returns, it has overwritten the first cell that is
the same as the new one, and nothing else. -/
theorem updateSourceLoop_some (c : SourceCell α) :
    ∀ l l' : List (SourceCell α), updateSourceLoop c l = some l' →
      ∃ (i : Nat) (x : SourceCell α), l[i]? = some x ∧ x.isSame c = true ∧
        (∀ (j : Nat) (y : SourceCell α), j < i → l[j]? = some y → y.isSame c = false) ∧
        l' = l.set i c := by
  intro l
  induction l with
  | nil =>
    intro l' h
    cases h
  | cons a rest ih =>
    intro l' h
    by_cases ha : a.isSame c = true
    · have hl : l' = c :: rest := by
        simp [updateSourceLoop, ha] at h
        exact h.symm
      exact ⟨0, a, by simp, ha, fun j y hj _ => absurd hj (Nat.not_lt_zero j),
        by rw [hl]; rfl⟩
    · have hf : a.isSame c = false := by simpa using ha
      have hex : ∃ cells, updateSourceLoop c rest = some cells ∧ a :: cells = l' := by
        cases hrest : updateSourceLoop c rest with
        | none => simp [updateSourceLoop, hf, hrest] at h
        | some cells =>
          simp [updateSourceLoop, hf, hrest] at h
          exact ⟨cells, rfl, h⟩
      obtain ⟨cells, hcells, hl⟩ := hex
      obtain ⟨i, x, hx, hxc, hbefore, hset⟩ := ih cells hcells
      refine ⟨i + 1, x, by simpa using hx, hxc, fun j y hj hy => ?_, ?_⟩
      · cases j with
        | zero =>
          simp at hy
          rw [← hy]
          exact hf
        | succ j => exact hbefore j y (by omega) (by simpa using hy)
      · rw [← hl, hset]
        rfl

/-- What `updateSource` returns when its loop returned. -/
theorem updateSource_of_some (s : Source α) (r : DeckRecord α) (c : SourceCell α)
    (cells : List (SourceCell α)) (hc : SourceCell.ofRecord r = Except.ok c)
    (h : updateSourceLoop c s.m_cells = some cells) :
    s.updateSource r = Except.ok ⟨cells⟩ := by
  unfold updateSource
  rw [hc]
  show (match updateSourceLoop c s.m_cells with
    | some cells => (Except.ok (Source.mk cells) : Except Thrown (Source α))
    | none => Except.ok (Source.mk (s.m_cells ++ [c]))) = _
  rw [h]

/-- What `updateSource` returns when its loop ended without returning. -/
theorem updateSource_of_none (s : Source α) (r : DeckRecord α) (c : SourceCell α)
    (hc : SourceCell.ofRecord r = Except.ok c)
    (h : updateSourceLoop c s.m_cells = none) :
    s.updateSource r = Except.ok ⟨s.m_cells ++ [c]⟩ := by
  unfold updateSource
  rw [hc]
  show (match updateSourceLoop c s.m_cells with
    | some cells => (Except.ok (Source.mk cells) : Except Thrown (Source α))
    | none => Except.ok (Source.mk (s.m_cells ++ [c]))) = _
  rw [h]

/-- C21 (`updateSource` replaces or appends): for a Source `s` and a record `r` whose
cell is `c`, `updateSource(r)` returns; if `s` holds a cell that is the same as `c`
(one `ijk`, one component), the first such cell, at position `i`, is `c` afterwards,
nothing else has changed and `size()` is as before; otherwise `c` has been appended at
the end and `size()` has grown by exactly 1. -/
theorem updateSource_replaces_or_appends (s : Source α) (r : DeckRecord α)
    (c : SourceCell α) (hc : SourceCell.ofRecord r = Except.ok c) :
    ∃ s', s.updateSource r = Except.ok s' ∧
      ((∃ x ∈ s.m_cells, x.isSame c = true) →
        s'.size = s.size ∧
        ∃ (i : Nat) (x : SourceCell α), s.m_cells[i]? = some x ∧ x.isSame c = true ∧
          (∀ (j : Nat) (y : SourceCell α), j < i → s.m_cells[j]? = some y →
            y.isSame c = false) ∧
          s'.m_cells = s.m_cells.set i c ∧ s'.m_cells[i]? = some c) ∧
      ((∀ x ∈ s.m_cells, x.isSame c = false) →
        s'.m_cells = s.m_cells ++ [c] ∧ s'.size = s.size + 1) := by
  cases hloop : updateSourceLoop c s.m_cells with
  | none =>
    have hall := (updateSourceLoop_none c s.m_cells).mp hloop
    refine ⟨_, updateSource_of_none s r c hc hloop, ?_, fun _ => ⟨rfl, by simp [size]⟩⟩
    rintro ⟨x, hx, hxc⟩
    rw [hall x hx] at hxc
    cases hxc
  | some cells =>
    obtain ⟨i, x, hx, hxc, hbefore, hset⟩ := updateSourceLoop_some c s.m_cells cells hloop
    have hi : i < s.m_cells.length := (List.getElem?_eq_some.mp hx).1
    refine ⟨_, updateSource_of_some s r c cells hc hloop, fun _ => ⟨?_, i, x, hx, hxc,
      hbefore, hset, ?_⟩, fun hall => ?_⟩
    · simp [size, hset]
    · show cells[i]? = some c
      rw [hset]
      simp [hi]
    · have hmem : x ∈ s.m_cells := List.getElem?_mem hx
      rw [hall x hmem] at hxc
      cases hxc

/-- C21, at a Source holding one gas cell in `(0, 0, 0)` and the record
`1 1 1 GAS 5`, over the integers. -/
theorem updateSource_replaces_or_appends_witness :
    ∃ s', (⟨[⟨(0, 0, 0), SourceComponent.GAS, 3, 0⟩]⟩ : Source Int).updateSource
        ⟨1, 1, 1, "GAS", 5, 0⟩ = Except.ok s' ∧
      ((∃ x ∈ (⟨[⟨(0, 0, 0), SourceComponent.GAS, 3, 0⟩]⟩ : Source Int).m_cells,
          x.isSame ⟨(0, 0, 0), SourceComponent.GAS, 5, 0⟩ = true) →
        s'.size = (⟨[⟨(0, 0, 0), SourceComponent.GAS, 3, 0⟩]⟩ : Source Int).size ∧
        ∃ (i : Nat) (x : SourceCell Int),
          (⟨[⟨(0, 0, 0), SourceComponent.GAS, 3, 0⟩]⟩ : Source Int).m_cells[i]? = some x ∧
          x.isSame ⟨(0, 0, 0), SourceComponent.GAS, 5, 0⟩ = true ∧
          (∀ (j : Nat) (y : SourceCell Int), j < i →
            (⟨[⟨(0, 0, 0), SourceComponent.GAS, 3, 0⟩]⟩ : Source Int).m_cells[j]? = some y →
            y.isSame ⟨(0, 0, 0), SourceComponent.GAS, 5, 0⟩ = false) ∧
          s'.m_cells = (⟨[⟨(0, 0, 0), SourceComponent.GAS, 3, 0⟩]⟩
            : Source Int).m_cells.set i ⟨(0, 0, 0), SourceComponent.GAS, 5, 0⟩ ∧
          s'.m_cells[i]? = some ⟨(0, 0, 0), SourceComponent.GAS, 5, 0⟩) ∧
      ((∀ x ∈ (⟨[⟨(0, 0, 0), SourceComponent.GAS, 3, 0⟩]⟩ : Source Int).m_cells,
          x.isSame ⟨(0, 0, 0), SourceComponent.GAS, 5, 0⟩ = false) →
        s'.m_cells = (⟨[⟨(0, 0, 0), SourceComponent.GAS, 3, 0⟩]⟩ : Source Int).m_cells
          ++ [⟨(0, 0, 0), SourceComponent.GAS, 5, 0⟩] ∧
        s'.size = (⟨[⟨(0, 0, 0), SourceComponent.GAS, 3, 0⟩]⟩ : Source Int).size + 1) :=
  updateSource_replaces_or_appends ⟨[⟨(0, 0, 0), SourceComponent.GAS, 3, 0⟩]⟩
    ⟨1, 1, 1, "GAS", 5, 0⟩ ⟨(0, 0, 0), SourceComponent.GAS, 5, 0⟩ rfl

/-- A cell is the same as itself. -/
theorem isSame_self (c : SourceCell α) : c.isSame c = true := by
  simp [SourceCell.isSame]

/-- A cell with another key than `k` does not match `k`. -/
theorem isSamePair_of_ne (c : SourceCell α) (k : (Int × Int × Int) × SourceComponent)
    (h : k ≠ (c.ijk, c.component)) : c.isSamePair k = false := by
  cases hk : c.isSamePair k with
  | false => rfl
  | true => exact absurd (key_of_isSamePair c k hk).symm h

/-- The loop of `rate` ends without returning exactly when no cell has the key. -/
theorem rateLoop_none (k : (Int × Int × Int) × SourceComponent) :
    ∀ l : List (SourceCell α), rateLoop k l = none ↔ ∀ x ∈ l, x.isSamePair k = false := by
  intro l
  induction l with
  | nil => simp [rateLoop]
  | cons a rest ih =>
    by_cases ha : a.isSamePair k = true
    · simp [rateLoop, ha]
    · have hf : a.isSamePair k = false := by simpa using ha
      simp [rateLoop, hf, ih]

/-- After a replacement the lookup of the new cell's key finds the new rate. -/
theorem rateLoop_update_some (c : SourceCell α) :
    ∀ l l' : List (SourceCell α), updateSourceLoop c l = some l' →
      rateLoop (c.ijk, c.component) l' = some c.rate := by
  intro l
  induction l with
  | nil =>
    intro l' h
    cases h
  | cons a rest ih =>
    intro l' h
    by_cases ha : a.isSame c = true
    · simp [updateSourceLoop, ha] at h
      rw [← h]
      simp [rateLoop, isSamePair_key, isSame_self]
    · have hf : a.isSame c = false := by simpa using ha
      cases hrest : updateSourceLoop c rest with
      | none => simp [updateSourceLoop, hf, hrest] at h
      | some cells =>
        simp [updateSourceLoop, hf, hrest] at h
        rw [← h]
        simp [rateLoop, isSamePair_key, hf, ih cells hrest]

/-- After an append the lookup of the new cell's key finds the new rate. -/
theorem rateLoop_update_none (c : SourceCell α) :
    ∀ l : List (SourceCell α), updateSourceLoop c l = none →
      rateLoop (c.ijk, c.component) (l ++ [c]) = some c.rate := by
  intro l
  induction l with
  | nil =>
    intro _
    simp [rateLoop, isSamePair_key, isSame_self]
  | cons a rest ih =>
    intro h
    have hall := (updateSourceLoop_none c (a :: rest)).mp h
    have hf : a.isSame c = false := hall a (by simp)
    have hrest : updateSourceLoop c rest = none :=
      (updateSourceLoop_none c rest).mpr (fun x hx => hall x (by simp [hx]))
    simp [rateLoop, isSamePair_key, hf, ih hrest]

/-- A replacement does not change the lookup of another key. -/
theorem rateLoop_frame_some (c : SourceCell α) (k : (Int × Int × Int) × SourceComponent)
    (hk : k ≠ (c.ijk, c.component)) :
    ∀ l l' : List (SourceCell α), updateSourceLoop c l = some l' →
      rateLoop k l' = rateLoop k l := by
  intro l
  induction l with
  | nil =>
    intro l' h
    cases h
  | cons a rest ih =>
    intro l' h
    by_cases ha : a.isSame c = true
    · simp [updateSourceLoop, ha] at h
      have hak : a.isSamePair k = false := by
        apply isSamePair_of_ne
        rw [key_of_isSame a c ha]
        exact hk
      rw [← h]
      simp [rateLoop, isSamePair_of_ne c k hk, hak]
    · have hf : a.isSame c = false := by simpa using ha
      cases hrest : updateSourceLoop c rest with
      | none => simp [updateSourceLoop, hf, hrest] at h
      | some cells =>
        simp [updateSourceLoop, hf, hrest] at h
        rw [← h]
        simp [rateLoop, ih cells hrest]

/-- An append of a cell with another key does not change the lookup. -/
theorem rateLoop_frame_append (c : SourceCell α)
    (k : (Int × Int × Int) × SourceComponent) (hk : k ≠ (c.ijk, c.component)) :
    ∀ l : List (SourceCell α), rateLoop k (l ++ [c]) = rateLoop k l := by
  intro l
  induction l with
  | nil => simp [rateLoop, isSamePair_of_ne c k hk]
  | cons a rest ih => simp [rateLoop, ih]

/-- C22 (lookup returns the last value set): for a Source `s` and a record `r` whose
cell `c` has the key `(ijk, component)` read from `r`, `updateSource(r)` returns and
afterwards `rate` of that key is the rate of `r`; and `rate(k)` is 0 for every key `k`
that no cell of `s` has. -/
theorem rate_returns_last_set [Zero α] (s : Source α) (r : DeckRecord α)
    (c : SourceCell α) (hc : SourceCell.ofRecord r = Except.ok c) :
    ∃ s', s.updateSource r = Except.ok s' ∧
      c.ijk = (r.I - 1, r.J - 1, r.K - 1) ∧
      fromstring.component r.COMPONENT = Except.ok c.component ∧
      s'.rate (c.ijk, c.component) = r.RATE ∧
      ∀ k, (∀ x ∈ s.m_cells, x.isSamePair k = false) → s.rate k = 0 := by
  obtain ⟨hijk, hcomp, hrate, _⟩ := ofRecord_fields r c hc
  have hzero : ∀ k, (∀ x ∈ s.m_cells, x.isSamePair k = false) → s.rate k = 0 := by
    intro k hall
    have hnone := (rateLoop_none k s.m_cells).mpr hall
    unfold rate
    rw [hnone]
  cases hloop : updateSourceLoop c s.m_cells with
  | none =>
    refine ⟨_, updateSource_of_none s r c hc hloop, hijk, hcomp, ?_, hzero⟩
    unfold rate
    rw [rateLoop_update_none c s.m_cells hloop, hrate]
  | some cells =>
    refine ⟨_, updateSource_of_some s r c cells hc hloop, hijk, hcomp, ?_, hzero⟩
    unfold rate
    rw [rateLoop_update_some c s.m_cells cells hloop, hrate]

/-- C22, at a Source holding gas and water cells in `(0, 0, 0)` and the record
`1 1 1 WATER 5`, over the integers. -/
theorem rate_returns_last_set_witness :
    ∃ s', (⟨[⟨(0, 0, 0), SourceComponent.GAS, 3, 0⟩,
          ⟨(0, 0, 0), SourceComponent.WATER, 4, 0⟩]⟩ : Source Int).updateSource
        ⟨1, 1, 1, "WATER", 5, 0⟩ = Except.ok s' ∧
      ((0, 0, 0) : Int × Int × Int) = (1 - 1, 1 - 1, 1 - 1) ∧
      fromstring.component "WATER" = Except.ok SourceComponent.WATER ∧
      s'.rate ((0, 0, 0), SourceComponent.WATER) = 5 ∧
      ∀ k, (∀ x ∈ (⟨[⟨(0, 0, 0), SourceComponent.GAS, 3, 0⟩,
          ⟨(0, 0, 0), SourceComponent.WATER, 4, 0⟩]⟩ : Source Int).m_cells,
        x.isSamePair k = false) →
        (⟨[⟨(0, 0, 0), SourceComponent.GAS, 3, 0⟩,
          ⟨(0, 0, 0), SourceComponent.WATER, 4, 0⟩]⟩ : Source Int).rate k = 0 :=
  rate_returns_last_set
    ⟨[⟨(0, 0, 0), SourceComponent.GAS, 3, 0⟩, ⟨(0, 0, 0), SourceComponent.WATER, 4, 0⟩]⟩
    ⟨1, 1, 1, "WATER", 5, 0⟩ ⟨(0, 0, 0), SourceComponent.WATER, 5, 0⟩ rfl

/-- The accumulation of `hrate` started from `acc`. -/
theorem hrate_foldl [AddMonoid α] (input : Int × Int × Int) :
    ∀ (l : List (SourceCell α)) (acc : α),
      l.foldl (fun hrate source =>
          if source.ijk = input then hrate + source.hrate else hrate) acc
        = acc + ((l.filter fun x => decide (x.ijk = input)).map fun x => x.hrate).sum := by
  intro l
  induction l with
  | nil =>
    intro acc
    simp
  | cons a rest ih =>
    intro acc
    by_cases ha : a.ijk = input
    · simp [List.foldl, ha, ih, add_assoc]
    · simp [List.foldl, ha, ih]

/-- C23 (`hrate` sums over the components of a cell): `hrate(ijk)` is the sum of the
`hrate` fields of all stored cells whose `ijk` is the argument, whatever their
component, and it is 0 when no stored cell has that `ijk`. -/
theorem hrate_is_sum [AddMonoid α] (s : Source α) (input : Int × Int × Int) :
    s.hrate input
        = ((s.m_cells.filter fun x => decide (x.ijk = input)).map fun x => x.hrate).sum ∧
      ((∀ x ∈ s.m_cells, x.ijk ≠ input) → s.hrate input = 0) := by
  have hsum : s.hrate input
      = ((s.m_cells.filter fun x => decide (x.ijk = input)).map fun x => x.hrate).sum := by
    unfold hrate
    rw [hrate_foldl input s.m_cells 0, zero_add]
  refine ⟨hsum, fun hall => ?_⟩
  have hfilter : (s.m_cells.filter fun x => decide (x.ijk = input)) = [] := by
    rw [List.filter_eq_nil_iff]
    intro x hx
    simpa using hall x hx
  rw [hsum, hfilter]
  rfl

/-- C24 (`updateSource` leaves the other entries alone): for a Source `s` and a
record `r` whose cell is `c`, `updateSource(r)` returns; `rate(k)` is the same before
and after for every key `k` other than the key of `c`; every cell stored before is
still at its position afterwards, unless it is the same as `c` and that position now
holds `c`; and the first cell is the first cell afterwards unless it is the same as
`c`. -/
theorem updateSource_frame [Zero α] (s : Source α) (r : DeckRecord α)
    (c : SourceCell α) (hc : SourceCell.ofRecord r = Except.ok c) :
    ∃ s', s.updateSource r = Except.ok s' ∧
      (∀ k, k ≠ (c.ijk, c.component) → s'.rate k = s.rate k) ∧
      (∀ (j : Nat) (x : SourceCell α), s.m_cells[j]? = some x →
        s'.m_cells[j]? = some x ∨ (x.isSame c = true ∧ s'.m_cells[j]? = some c)) ∧
      (∀ x : SourceCell α, s.begin = some x → x.isSame c = false →
        s'.begin = some x) := by
  have hbegin : ∀ s' : Source α,
      (∀ (j : Nat) (x : SourceCell α), s.m_cells[j]? = some x →
        s'.m_cells[j]? = some x ∨ (x.isSame c = true ∧ s'.m_cells[j]? = some c)) →
      ∀ x : SourceCell α, s.begin = some x → x.isSame c = false → s'.begin = some x := by
    intro s' hpos x hx hxc
    unfold begin at hx ⊢
    rw [List.head?_eq_getElem?] at hx ⊢
    rcases hpos 0 x hx with h | h
    · exact h
    · rw [hxc] at h
      cases h.1
  cases hloop : updateSourceLoop c s.m_cells with
  | none =>
    have hpos : ∀ (j : Nat) (x : SourceCell α), s.m_cells[j]? = some x →
        (s.m_cells ++ [c])[j]? = some x ∨
          (x.isSame c = true ∧ (s.m_cells ++ [c])[j]? = some c) := by
      intro j x hx
      have hj : j < s.m_cells.length := (List.getElem?_eq_some.mp hx).1
      left
      rw [List.getElem?_append_left hj, hx]
    refine ⟨_, updateSource_of_none s r c hc hloop, fun k hk => ?_, hpos,
      hbegin ⟨s.m_cells ++ [c]⟩ hpos⟩
    unfold rate
    show (match rateLoop k (s.m_cells ++ [c]) with
      | some r => r
      | none => 0) = _
    rw [rateLoop_frame_append c k hk s.m_cells]
  | some cells =>
    obtain ⟨i, y, hy, hyc, _, hset⟩ := updateSourceLoop_some c s.m_cells cells hloop
    have hi : i < s.m_cells.length := (List.getElem?_eq_some.mp hy).1
    have hpos : ∀ (j : Nat) (x : SourceCell α), s.m_cells[j]? = some x →
        cells[j]? = some x ∨ (x.isSame c = true ∧ cells[j]? = some c) := by
      intro j x hx
      by_cases hji : i = j
      · right
        subst hji
        rw [hy] at hx
        cases hx
        refine ⟨hyc, ?_⟩
        rw [hset]
        simp [hi]
      · left
        rw [hset, List.getElem?_set_ne hji, hx]
    refine ⟨_, updateSource_of_some s r c cells hc hloop, fun k hk => ?_, hpos,
      hbegin ⟨cells⟩ hpos⟩
    unfold rate
    show (match rateLoop k cells with
      | some r => r
      | none => 0) = _
    rw [rateLoop_frame_some c k hk s.m_cells cells hloop]

/-- C24, at a Source holding gas and water cells in `(0, 0, 0)` and the record
`1 1 1 WATER 5`, over the integers. -/
theorem updateSource_frame_witness :
    ∃ s', (⟨[⟨(0, 0, 0), SourceComponent.GAS, 3, 0⟩,
          ⟨(0, 0, 0), SourceComponent.WATER, 4, 0⟩]⟩ : Source Int).updateSource
        ⟨1, 1, 1, "WATER", 5, 0⟩ = Except.ok s' ∧
      (∀ k, k ≠ ((0, 0, 0), SourceComponent.WATER) →
        s'.rate k = (⟨[⟨(0, 0, 0), SourceComponent.GAS, 3, 0⟩,
          ⟨(0, 0, 0), SourceComponent.WATER, 4, 0⟩]⟩ : Source Int).rate k) ∧
      (∀ (j : Nat) (x : SourceCell Int),
        (⟨[⟨(0, 0, 0), SourceComponent.GAS, 3, 0⟩,
          ⟨(0, 0, 0), SourceComponent.WATER, 4, 0⟩]⟩ : Source Int).m_cells[j]? = some x →
        s'.m_cells[j]? = some x ∨
          (x.isSame ⟨(0, 0, 0), SourceComponent.WATER, 5, 0⟩ = true ∧
            s'.m_cells[j]? = some ⟨(0, 0, 0), SourceComponent.WATER, 5, 0⟩)) ∧
      (∀ x : SourceCell Int,
        (⟨[⟨(0, 0, 0), SourceComponent.GAS, 3, 0⟩,
          ⟨(0, 0, 0), SourceComponent.WATER, 4, 0⟩]⟩ : Source Int).begin = some x →
        x.isSame ⟨(0, 0, 0), SourceComponent.WATER, 5, 0⟩ = false →
        s'.begin = some x) :=
  updateSource_frame
    ⟨[⟨(0, 0, 0), SourceComponent.GAS, 3, 0⟩, ⟨(0, 0, 0), SourceComponent.WATER, 4, 0⟩]⟩
    ⟨1, 1, 1, "WATER", 5, 0⟩ ⟨(0, 0, 0), SourceComponent.WATER, 5, 0⟩ rfl

end Source

/-! ## The spline material law -/

namespace SplineTwoPhaseMaterial

/-- C25 (the unsupported operations always fail): for every input, `saturations`,
`Sw` and `twoPhaseSatSw` leave with a `logic_error` whose message is the
`Not implemented: ...` text of the throw site, and so do `Sn` and `twoPhaseSatSn`,
with the error of `Sw` and of `twoPhaseSatSw`; none of the five returns a value, and
each of the three messages begins with `Not implemented`. -/
theorem unsupported_operations_fail {Container Params FluidState Evaluation : Type}
    [One Evaluation] [Sub Evaluation] (values : Container) (params : Params)
    (fluidState : FluidState) (pC : Evaluation) :
    saturations values params fluidState
        = Except.error ⟨ExceptionClass.logic_error, "Not implemented: saturations()"⟩ ∧
      (Sw params fluidState : Except Thrown Evaluation)
        = Except.error ⟨ExceptionClass.logic_error, "Not implemented: Sw()"⟩ ∧
      twoPhaseSatSw params pC
        = Except.error ⟨ExceptionClass.logic_error, "Not implemented: twoPhaseSatSw()"⟩ ∧
      (Sn params fluidState : Except Thrown Evaluation)
        = Except.error ⟨ExceptionClass.logic_error, "Not implemented: Sw()"⟩ ∧
      twoPhaseSatSn params pC
        = Except.error ⟨ExceptionClass.logic_error, "Not implemented: twoPhaseSatSw()"⟩ ∧
      (∀ v : Container, saturations values params fluidState ≠ Except.ok v) ∧
      (∀ v : Evaluation, (Sw params fluidState : Except Thrown Evaluation) ≠ Except.ok v) ∧
      (∀ v : Evaluation, twoPhaseSatSw params pC ≠ Except.ok v) ∧
      (∀ v : Evaluation, (Sn params fluidState : Except Thrown Evaluation) ≠ Except.ok v) ∧
      (∀ v : Evaluation, twoPhaseSatSn params pC ≠ Except.ok v) ∧
      "Not implemented: saturations()".toList.take 15 = "Not implemented".toList ∧
      "Not implemented: Sw()".toList.take 15 = "Not implemented".toList ∧
      "Not implemented: twoPhaseSatSw()".toList.take 15 = "Not implemented".toList := by
  refine ⟨rfl, rfl, rfl, rfl, rfl, ?_, ?_, ?_, ?_, ?_, by decide, by decide, by decide⟩
  · intro v h
    cases h
  · intro v h
    cases h
  · intro v h
    cases h
  · intro v h
    cases h
  · intro v h
    cases h

end SplineTwoPhaseMaterial
end Opm

/-! ## Compound assignment, aliasing and algebraic laws -/

namespace Opm
namespace DenseAd
namespace Evaluation

variable {α : Type}

/-- Two readings of one slot agree. -/
theorem some_unique {x y : α} {o : Option α} (h1 : o = some x) (h2 : o = some y) :
    x = y := by
  rw [h1] at h2
  exact Option.some.inj h2

/-- Slots after `a *= a`, the right operand being the object assigned to. -/
theorem mulAssign_self_slots [Add α] [Mul α] (a : Evaluation α)
    (hpos : 0 < a.data_.length) :
    ∃ r u, mulAssign a Rhs.self = some r ∧ a.data_[0]? = some u ∧
      r.data_.length = a.data_.length ∧ r.data_[0]? = some (u * u) ∧
      ∀ (j : Nat) (x : α), 1 ≤ j → a.data_[j]? = some x →
        r.data_[j]? = some (x * u + x * u) := by
  obtain ⟨u, hu⟩ := slot_some a 0 hpos
  obtain ⟨r, hr, hinv⟩ := forLoop_slots (⟨a.data_.set 0 (u * u)⟩ : Evaluation α)
    (fun _ x => some (x * u + x * u))
    (fun i e => (e.readAt i).bind fun di =>
      (((Rhs.self : Rhs α).deref e).readAt i).bind fun oi => e.writeAt i (di * u + oi * u))
    1 (a.data_.length - 1) (by simp; omega) (by
      intro i e x h1 h2 hinv hx
      have hi : ¬ (1 ≤ i ∧ i < i) := by omega
      have he : e.data_[i]? = some x := by rw [hinv.2 i, if_neg hi]; exact hx
      have hie : i < e.data_.length := by rw [hinv.1]; simp; omega
      exact ⟨x * u + x * u, rfl, by simp [readAt, writeAt, Rhs.deref, he, hie]⟩)
  refine ⟨r, u, ?_, hu, by simpa using hinv.1, ?_, fun j x hj hx => ?_⟩
  · simpa [mulAssign, Rhs.deref, length_, dstart_, dend_, valuepos_, value,
      readAt, writeAt, hu, hpos] using hr
  · have hc : ¬ (1 ≤ 0 ∧ 0 < 1 + (a.data_.length - 1)) := by omega
    rw [hinv.2 0, if_neg hc]
    simp [hpos]
  · have hjl : j < a.data_.length := (List.getElem?_eq_some.mp hx).1
    have hc : 1 ≤ j ∧ j < 1 + (a.data_.length - 1) := by omega
    have hne : 0 ≠ j := by omega
    rw [hinv.2 j, if_pos hc]
    simp [List.getElem?_set_ne hne, hx]

/-- Slots after `a /= a`, the right operand being the object assigned to. -/
theorem divAssign_self_slots [Sub α] [Mul α] [Div α] (a : Evaluation α)
    (hpos : 0 < a.data_.length) :
    ∃ r u, divAssign a Rhs.self = some r ∧ a.data_[0]? = some u ∧
      r.data_.length = a.data_.length ∧ r.data_[0]? = some (u / u) ∧
      ∀ (j : Nat) (x : α), 1 ≤ j → a.data_[j]? = some x →
        r.data_[j]? = some ((u * x - u * x) / (u * u)) := by
  obtain ⟨u, hu⟩ := slot_some a 0 hpos
  obtain ⟨r, hr, hinv⟩ := forLoop_slots a
    (fun _ x => some ((u * x - u * x) / (u * u)))
    (fun idx e => (e.readAt e.valuepos_).bind fun u =>
      ((Rhs.self : Rhs α).deref e).value.bind fun v =>
      (e.readAt idx).bind fun uPrime =>
      (((Rhs.self : Rhs α).deref e).readAt idx).bind fun vPrime =>
      e.writeAt idx ((v * uPrime - u * vPrime) / (v * v)))
    1 (a.data_.length - 1) (by omega) (by
      intro i e x h1 h2 hinv hx
      have hi : ¬ (1 ≤ i ∧ i < i) := by omega
      have h0 : ¬ (1 ≤ 0 ∧ 0 < i) := by omega
      have he : e.data_[i]? = some x := by rw [hinv.2 i, if_neg hi]; exact hx
      have he0 : e.data_[0]? = some u := by rw [hinv.2 0, if_neg h0]; exact hu
      have hie : i < e.data_.length := by rw [hinv.1]; omega
      exact ⟨(u * x - u * x) / (u * u), rfl,
        by simp [readAt, writeAt, value, valuepos_, Rhs.deref, he, he0, hie]⟩)
  have hc0 : ¬ (1 ≤ 0 ∧ 0 < 1 + (a.data_.length - 1)) := by omega
  have hr0 : r.data_[0]? = some u := by rw [hinv.2 0, if_neg hc0]; exact hu
  have hrpos : 0 < r.data_.length := by rw [hinv.1]; exact hpos
  refine ⟨⟨r.data_.set 0 (u / u)⟩, u, ?_, hu, by simpa using hinv.1, ?_,
    fun j x hj hx => ?_⟩
  · unfold divAssign
    rw [if_pos (by simp [Rhs.deref])]
    have hcount : a.dend_ - a.dstart_ = a.data_.length - 1 := rfl
    have hstart : a.dstart_ = 1 := rfl
    rw [hcount, hstart, hr]
    simp [readAt, writeAt, value, valuepos_, Rhs.deref, hr0, hrpos]
  · simp [hrpos]
  · have hjl : j < a.data_.length := (List.getElem?_eq_some.mp hx).1
    have hc : 1 ≤ j ∧ j < 1 + (a.data_.length - 1) := by omega
    have hne : 0 ≠ j := by omega
    rw [List.getElem?_set_ne hne, hinv.2 j, if_pos hc]
    simp [hx]

/-- C26 (in-place multiply uses the values from before the call): for `a`, `b` of one
arity `n` with values `u`, `v`, `a *= b` returns with value `u * v` and derivative `i`
equal to `a.derivative(i) * v + b.derivative(i) * u`, all read before the call; and
`a *= a` returns with value `u * u` and derivative `i` equal to
`2 * u * a.derivative(i)`. -/
theorem mulAssign_pre_update [CommSemiring α] (a b : Evaluation α) (n : Nat)
    (ha : a.size = n) (hb : b.size = n) :
    ∃ r s u v, mulAssign a (Rhs.obj b) = some r ∧ mulAssign a Rhs.self = some s ∧
      a.value = some u ∧ b.value = some v ∧
      r.value = some (u * v) ∧ s.value = some (u * u) ∧
      ∀ i : Int, 0 ≤ i → i < n →
        ∃ du dv, a.derivative i = some du ∧ b.derivative i = some dv ∧
          r.derivative i = some (du * v + dv * u) ∧
          s.derivative i = some (2 * u * du) := by
  have hab : a.size = b.size := by rw [ha, hb]
  have hla := length_of_size a n ha
  have hpos : 0 < a.data_.length := by omega
  obtain ⟨r, u, v, hr, hu, hv, hrl, hr0, hrj⟩ := mul_slots a b hab hpos
  obtain ⟨s, u1, hs, hu1, hsl, hs0, hsj⟩ := mulAssign_self_slots a hpos
  have huu : u1 = u := some_unique hu1 hu
  subst huu
  refine ⟨r, s, u1, v, by simpa [mul, hab] using hr, hs, hu, hv, hr0, hs0,
    fun i h0 h1 => ?_⟩
  obtain ⟨du, hdu, hda⟩ := derivative_some a n ha i h0 h1
  obtain ⟨dv, hdv, hdb⟩ := derivative_some b n hb i h0 h1
  refine ⟨du, dv, hda, hdb, ?_, ?_⟩
  · exact derivative_of_slot r n (by omega) i h0 h1 _
      (hrj (1 + i.toNat) du dv (by omega) hdu hdv)
  · apply derivative_of_slot s n (by omega) i h0 h1
    rw [hsj (1 + i.toNat) du (by omega) hdu]
    congr 1
    ring

/-- C26, at `a = (3; 1, 0)` and `b = (4; 0, 1)` over the integers. -/
theorem mulAssign_pre_update_witness :
    ∃ r s u v, mulAssign (⟨[3, 1, 0]⟩ : Evaluation Int) (Rhs.obj ⟨[4, 0, 1]⟩) = some r ∧
      mulAssign (⟨[3, 1, 0]⟩ : Evaluation Int) Rhs.self = some s ∧
      (⟨[3, 1, 0]⟩ : Evaluation Int).value = some u ∧
      (⟨[4, 0, 1]⟩ : Evaluation Int).value = some v ∧
      r.value = some (u * v) ∧ s.value = some (u * u) ∧
      ∀ i : Int, 0 ≤ i → i < (2 : Nat) →
        ∃ du dv, (⟨[3, 1, 0]⟩ : Evaluation Int).derivative i = some du ∧
          (⟨[4, 0, 1]⟩ : Evaluation Int).derivative i = some dv ∧
          r.derivative i = some (du * v + dv * u) ∧
          s.derivative i = some (2 * u * du) :=
  mulAssign_pre_update ⟨[3, 1, 0]⟩ ⟨[4, 0, 1]⟩ 2 (by decide) (by decide)

/-- C27 (in-place divide reads the value before overwriting it): for `a`, `b` of one
arity `n` over a field with values `u`, `v`, `v` not zero, `a /= b` returns with
value `u / v` and derivative `i` equal to
`(v * a.derivative(i) - u * b.derivative(i)) / (v * v)`, all read before the call; and
when `u` is not zero `a /= a` returns with value 1 and every derivative 0. -/
theorem divAssign_pre_update [Field α] (a b : Evaluation α) (n : Nat)
    (ha : a.size = n) (hb : b.size = n) (hb0 : b.value ≠ some 0) :
    ∃ r u v, divAssign a (Rhs.obj b) = some r ∧
      a.value = some u ∧ b.value = some v ∧ v ≠ 0 ∧ r.value = some (u / v) ∧
      (∀ i : Int, 0 ≤ i → i < n →
        ∃ du dv, a.derivative i = some du ∧ b.derivative i = some dv ∧
          r.derivative i = some ((v * du - u * dv) / (v * v))) ∧
      (u ≠ 0 → ∃ s, divAssign a Rhs.self = some s ∧ s.value = some 1 ∧
        ∀ i : Int, 0 ≤ i → i < n → s.derivative i = some 0) := by
  have hab : a.size = b.size := by rw [ha, hb]
  have hla := length_of_size a n ha
  have hpos : 0 < a.data_.length := by omega
  obtain ⟨r, u, v, hr, hu, hv, hrl, hr0, hrj⟩ := div_slots a b hab hpos
  obtain ⟨s, u1, hs, hu1, hsl, hs0, hsj⟩ := divAssign_self_slots a hpos
  have huu : u1 = u := some_unique hu1 hu
  subst huu
  have hv0 : v ≠ 0 := by
    intro h
    apply hb0
    rw [value_eq_slot, hv, h]
  refine ⟨r, u1, v, by simpa [div, hab] using hr, hu, hv, hv0, hr0, fun i h0 h1 => ?_,
    fun hu0 => ⟨s, hs, ?_, fun i h0 h1 => ?_⟩⟩
  · obtain ⟨du, hdu, hda⟩ := derivative_some a n ha i h0 h1
    obtain ⟨dv, hdv, hdb⟩ := derivative_some b n hb i h0 h1
    exact ⟨du, dv, hda, hdb, derivative_of_slot r n (by omega) i h0 h1 _
      (hrj (1 + i.toNat) du dv (by omega) hdu hdv)⟩
  · rw [value_eq_slot, hs0, div_self hu0]
  · obtain ⟨du, hdu, _⟩ := derivative_some a n ha i h0 h1
    apply derivative_of_slot s n (by omega) i h0 h1
    rw [hsj (1 + i.toNat) du (by omega) hdu, sub_self, zero_div]

/-- C27, at `a = (3; 1, 0)` and `b = (4; 0, 1)` over the rationals. -/
theorem divAssign_pre_update_witness :
    ∃ r u v, divAssign (⟨[3, 1, 0]⟩ : Evaluation ℚ) (Rhs.obj ⟨[4, 0, 1]⟩) = some r ∧
      (⟨[3, 1, 0]⟩ : Evaluation ℚ).value = some u ∧
      (⟨[4, 0, 1]⟩ : Evaluation ℚ).value = some v ∧ v ≠ 0 ∧ r.value = some (u / v) ∧
      (∀ i : Int, 0 ≤ i → i < (2 : Nat) →
        ∃ du dv, (⟨[3, 1, 0]⟩ : Evaluation ℚ).derivative i = some du ∧
          (⟨[4, 0, 1]⟩ : Evaluation ℚ).derivative i = some dv ∧
          r.derivative i = some ((v * du - u * dv) / (v * v))) ∧
      (u ≠ 0 → ∃ s, divAssign (⟨[3, 1, 0]⟩ : Evaluation ℚ) Rhs.self = some s ∧
        s.value = some 1 ∧
        ∀ i : Int, 0 ≤ i → i < (2 : Nat) → s.derivative i = some 0) :=
  divAssign_pre_update ⟨[3, 1, 0]⟩ ⟨[4, 0, 1]⟩ 2 (by decide) (by decide) (by decide)

/-- C28 (division undoes multiplication): for `a`, `b` of one arity `n` over a field,
with `b.value()` not zero, `a * b` returns an Evaluation `p` and `p / b` returns `a`
itself: the same value and the same derivative in every slot. -/
theorem div_undoes_mul [Field α] (a b : Evaluation α) (n : Nat)
    (ha : a.size = n) (hb : b.size = n) (hb0 : b.value ≠ some 0) :
    ∃ p r, mul a b = some p ∧ div p b = some r ∧ r = a ∧ r.value = a.value ∧
      ∀ i : Int, 0 ≤ i → i < n → r.derivative i = a.derivative i := by
  have hab : a.size = b.size := by rw [ha, hb]
  have hla := length_of_size a n ha
  have hlb := length_of_size b n hb
  have hpos : 0 < a.data_.length := by omega
  obtain ⟨p, u, v, hp, hu, hv, hpl, hp0, hpj⟩ := mul_slots a b hab hpos
  have hpb : p.size = b.size := by rw [size_of_length p n (by omega), hb]
  obtain ⟨r, u1, v1, hr, hu1, hv1, hrl, hr0, hrj⟩ := div_slots p b hpb (by omega)
  have hu1e : u1 = u * v := some_unique hu1 hp0
  have hv1e : v1 = v := some_unique hv1 hv
  subst hu1e hv1e
  have hv0 : v1 ≠ 0 := by
    intro h
    apply hb0
    rw [value_eq_slot, hv, h]
  have hra : r = a := by
    apply eq_of_slots r a (by omega)
    intro j hj
    obtain ⟨x, hx⟩ := slot_some a j (by omega)
    obtain ⟨y, hy⟩ := slot_some b j (by omega)
    rcases Nat.eq_zero_or_pos j with hz | hjp
    · subst hz
      rw [hr0, hu, mul_div_assoc, div_self hv0, mul_one]
    · rw [hrj j _ y hjp (hpj j x y hjp hx hy) hy, hx]
      congr 1
      field_simp
      ring
  exact ⟨p, r, hp, hr, hra, by rw [hra], fun i _ _ => by rw [hra]⟩

/-- C28, at `a = (3; 1, 0)` and `b = (4; 0, 1)` over the rationals. -/
theorem div_undoes_mul_witness :
    ∃ p r, mul (⟨[3, 1, 0]⟩ : Evaluation ℚ) ⟨[4, 0, 1]⟩ = some p ∧
      div p ⟨[4, 0, 1]⟩ = some r ∧ r = ⟨[3, 1, 0]⟩ ∧
      r.value = (⟨[3, 1, 0]⟩ : Evaluation ℚ).value ∧
      ∀ i : Int, 0 ≤ i → i < (2 : Nat) →
        r.derivative i = (⟨[3, 1, 0]⟩ : Evaluation ℚ).derivative i :=
  div_undoes_mul ⟨[3, 1, 0]⟩ ⟨[4, 0, 1]⟩ 2 (by decide) (by decide) (by decide)

/-- C29 (multiplication is associative): for `a`, `b`, `c` of one arity `n` over a
commutative semiring, `(a * b) * c` and `a * (b * c)` return one Evaluation: the same
value and the same derivative in every slot. -/
theorem mul_associative [CommSemiring α] (a b c : Evaluation α) (n : Nat)
    (ha : a.size = n) (hb : b.size = n) (hc : c.size = n) :
    ∃ p q r, mul a b = some p ∧ mul b c = some q ∧
      mul p c = some r ∧ mul a q = some r := by
  have hla := length_of_size a n ha
  have hlb := length_of_size b n hb
  have hlc := length_of_size c n hc
  obtain ⟨p, u, v, hp, hu, hv, hpl, hp0, hpj⟩ :=
    mul_slots a b (by rw [ha, hb]) (by omega)
  obtain ⟨q, v1, w, hq, hv1, hw, hql, hq0, hqj⟩ :=
    mul_slots b c (by rw [hb, hc]) (by omega)
  obtain ⟨l, uv, w1, hl, huv, hw1, hll, hl0, hlj⟩ :=
    mul_slots p c (by rw [size_of_length p n (by omega), hc]) (by omega)
  obtain ⟨r, u1, vw, hr, hu1, hvw, hrl, hr0, hrj⟩ :=
    mul_slots a q (by rw [ha, size_of_length q n (by omega)]) (by omega)
  have e1 : v1 = v := some_unique hv1 hv
  have e2 : uv = u * v := some_unique huv hp0
  have e3 : w1 = w := some_unique hw1 hw
  have e4 : u1 = u := some_unique hu1 hu
  subst e1 e3 e4
  have e5 : vw = v1 * w1 := some_unique hvw hq0
  subst e2 e5
  have hlr : l = r := by
    apply eq_of_slots l r (by omega)
    intro j hj
    obtain ⟨x, hx⟩ := slot_some a j (by omega)
    obtain ⟨y, hy⟩ := slot_some b j (by omega)
    obtain ⟨z, hz⟩ := slot_some c j (by omega)
    rcases Nat.eq_zero_or_pos j with hj0 | hjp
    · subst hj0
      rw [hl0, hr0, mul_assoc]
    · rw [hlj j _ z hjp (hpj j x y hjp hx hy) hz,
        hrj j x _ hjp hx (hqj j y z hjp hy hz)]
      congr 1
      ring
  exact ⟨p, q, r, hp, hq, by rw [← hlr]; exact hl, hr⟩

/-- C29, at `a = (3; 1, 0)`, `b = (4; 0, 1)` and `c = (5; 2, 7)` over the integers. -/
theorem mul_associative_witness :
    ∃ p q r, mul (⟨[3, 1, 0]⟩ : Evaluation Int) ⟨[4, 0, 1]⟩ = some p ∧
      mul (⟨[4, 0, 1]⟩ : Evaluation Int) ⟨[5, 2, 7]⟩ = some q ∧
      mul p ⟨[5, 2, 7]⟩ = some r ∧ mul (⟨[3, 1, 0]⟩ : Evaluation Int) q = some r :=
  mul_associative ⟨[3, 1, 0]⟩ ⟨[4, 0, 1]⟩ ⟨[5, 2, 7]⟩ 2 (by decide) (by decide) (by decide)

/-- C30 (addition and multiplication are commutative): for `a`, `b` of one arity `n`
over a commutative semiring, `a + b` and `b + a` return one Evaluation, and so do
`a * b` and `b * a`: the same value and the same derivative in every slot. -/
theorem add_mul_commutative [CommSemiring α] (a b : Evaluation α) (n : Nat)
    (ha : a.size = n) (hb : b.size = n) :
    ∃ s p, add a b = some s ∧ add b a = some s ∧
      mul a b = some p ∧ mul b a = some p := by
  have hla := length_of_size a n ha
  have hlb := length_of_size b n hb
  obtain ⟨s, hs, hsl, hsj⟩ := add_slots a b (by rw [ha, hb])
  obtain ⟨t, ht, htl, htj⟩ := add_slots b a (by rw [ha, hb])
  obtain ⟨p, u, v, hp, hu, hv, hpl, hp0, hpj⟩ :=
    mul_slots a b (by rw [ha, hb]) (by omega)
  obtain ⟨q, v1, u1, hq, hv1, hu1, hql, hq0, hqj⟩ :=
    mul_slots b a (by rw [ha, hb]) (by omega)
  have e1 : v1 = v := some_unique hv1 hv
  have e2 : u1 = u := some_unique hu1 hu
  subst e1 e2
  have hts : t = s := by
    apply eq_of_slots t s (by omega)
    intro j hj
    obtain ⟨x, hx⟩ := slot_some a j (by omega)
    obtain ⟨y, hy⟩ := slot_some b j (by omega)
    rw [htj j y x hy hx, hsj j x y hx hy, add_comm]
  have hqp : q = p := by
    apply eq_of_slots q p (by omega)
    intro j hj
    obtain ⟨x, hx⟩ := slot_some a j (by omega)
    obtain ⟨y, hy⟩ := slot_some b j (by omega)
    rcases Nat.eq_zero_or_pos j with hj0 | hjp
    · subst hj0
      rw [hq0, hp0, mul_comm]
    · rw [hqj j y x hjp hy hx, hpj j x y hjp hx hy, add_comm]
  exact ⟨s, p, hs, by rw [← hts]; exact ht, hp, by rw [← hqp]; exact hq⟩

/-- C30, at `a = (3; 1, 0)` and `b = (4; 0, 1)` over the integers. -/
theorem add_mul_commutative_witness :
    ∃ s p, add (⟨[3, 1, 0]⟩ : Evaluation Int) ⟨[4, 0, 1]⟩ = some s ∧
      add (⟨[4, 0, 1]⟩ : Evaluation Int) ⟨[3, 1, 0]⟩ = some s ∧
      mul (⟨[3, 1, 0]⟩ : Evaluation Int) ⟨[4, 0, 1]⟩ = some p ∧
      mul (⟨[4, 0, 1]⟩ : Evaluation Int) ⟨[3, 1, 0]⟩ = some p :=
  add_mul_commutative ⟨[3, 1, 0]⟩ ⟨[4, 0, 1]⟩ 2 (by decide) (by decide)

/-! ## Accessors, bounds and the default-constructed object -/

/-- The object after `setDerivative(k, d)` with `k` in range. -/
theorem setDerivative_eq (e : Evaluation α) (k : Int) (d : α) (hk0 : 0 ≤ k)
    (hk1 : k < e.size) :
    e.setDerivative k d = some ⟨e.data_.set (1 + k.toNat) d⟩ := by
  have hidx : 1 + k.toNat < e.data_.length := by
    unfold size at hk1
    omega
  simp [setDerivative, writeAt, dstart_, hk0, hk1, hidx]

/-- The object after `setValue(c)` when there is a value slot. -/
theorem setValue_eq (e : Evaluation α) (c : α) (hpos : 0 < e.data_.length) :
    e.setValue c = some ⟨e.data_.set 0 c⟩ := by
  simp [setValue, writeAt, valuepos_, hpos]

/-- C31 (`setDerivative`/`derivative` and `setValue`/`value` round trips, with
frame): for an Evaluation `e` of arity `n`, `setDerivative(k, d)` with `0 <= k < n`
returns, afterwards `derivative(k)` is `d`, every other derivative in `[0, n)` and the
value are as before; and `setValue(c)` returns, afterwards `value()` is `c` and every
derivative in `[0, n)` is as before. -/
theorem accessor_round_trip (e : Evaluation α) (n : Nat) (he : e.size = n) (c d : α) :
    (∀ k : Int, 0 ≤ k → k < n →
      ∃ r, e.setDerivative k d = some r ∧ r.derivative k = some d ∧
        (∀ i : Int, 0 ≤ i → i < n → i ≠ k → r.derivative i = e.derivative i) ∧
        r.value = e.value) ∧
    (∃ r, e.setValue c = some r ∧ r.value = some c ∧
      ∀ i : Int, 0 ≤ i → i < n → r.derivative i = e.derivative i) := by
  have hle := length_of_size e n he
  have hpos : 0 < e.data_.length := by omega
  constructor
  · intro k hk0 hkn
    have hlen : (⟨e.data_.set (1 + k.toNat) d⟩ : Evaluation α).data_.length = n + 1 := by
      simpa using hle
    have hidx : 1 + k.toNat < e.data_.length := by omega
    refine ⟨_, setDerivative_eq e k d hk0 (by rw [he]; exact hkn), ?_, fun i h0 h1 hne => ?_,
      ?_⟩
    · apply derivative_of_slot _ n hlen k hk0 hkn
      simp [hidx]
    · obtain ⟨x, hx, hxe⟩ := derivative_some e n he i h0 h1
      have hne2 : 1 + k.toNat ≠ 1 + i.toNat := by omega
      rw [hxe]
      apply derivative_of_slot _ n hlen i h0 h1
      rw [List.getElem?_set_ne hne2, hx]
    · have hne0 : 1 + k.toNat ≠ 0 := by omega
      rw [value_eq_slot, value_eq_slot, List.getElem?_set_ne hne0]
  · have hlen : (⟨e.data_.set 0 c⟩ : Evaluation α).data_.length = n + 1 := by
      simpa using hle
    refine ⟨_, setValue_eq e c hpos, ?_, fun i h0 h1 => ?_⟩
    · rw [value_eq_slot]
      simp [hpos]
    · obtain ⟨x, hx, hxe⟩ := derivative_some e n he i h0 h1
      have hne : 0 ≠ 1 + i.toNat := by omega
      rw [hxe]
      apply derivative_of_slot _ n hlen i h0 h1
      rw [List.getElem?_set_ne hne, hx]

/-- C31, at `e = (3; 1, 7)`, `c = 5`, `d = 9` over the integers. -/
theorem accessor_round_trip_witness :
    (∀ k : Int, 0 ≤ k → k < (2 : Nat) →
      ∃ r, (⟨[3, 1, 7]⟩ : Evaluation Int).setDerivative k 9 = some r ∧
        r.derivative k = some 9 ∧
        (∀ i : Int, 0 ≤ i → i < (2 : Nat) → i ≠ k →
          r.derivative i = (⟨[3, 1, 7]⟩ : Evaluation Int).derivative i) ∧
        r.value = (⟨[3, 1, 7]⟩ : Evaluation Int).value) ∧
    (∃ r, (⟨[3, 1, 7]⟩ : Evaluation Int).setValue 5 = some r ∧ r.value = some 5 ∧
      ∀ i : Int, 0 ≤ i → i < (2 : Nat) →
        r.derivative i = (⟨[3, 1, 7]⟩ : Evaluation Int).derivative i) :=
  accessor_round_trip ⟨[3, 1, 7]⟩ 2 (by decide) 5 9

/-- C33 (the default-constructed Evaluation): it stores no scalar, its `size()` is
-1, which is the arity of no Evaluation with `n + 1` slots and `n >= 0`, and slot 0,
the slot that `value()`, `setValue(c)` and the scalar assignment use, is outside the
stored data: none of the three has a result. -/
theorem default_constructed_has_no_value_slot [Zero α] (c : α) :
    (mkDefault : Evaluation α).data_.length = 0 ∧
      (mkDefault : Evaluation α).size = -1 ∧
      (¬ ∃ n : Nat, (mkDefault : Evaluation α).size = n) ∧
      (mkDefault : Evaluation α).readAt 0 = none ∧
      (mkDefault : Evaluation α).writeAt 0 c = none ∧
      (mkDefault : Evaluation α).value = none ∧
      (mkDefault : Evaluation α).setValue c = none ∧
      (mkDefault : Evaluation α).assignScalar c = none := by
  refine ⟨rfl, rfl, ?_, rfl, rfl, rfl, rfl, rfl⟩
  rintro ⟨n, hn⟩
  have h1 : (mkDefault : Evaluation α).size = -1 := rfl
  rw [h1] at hn
  omega

/-- A loop over `[lo, lo + k)` inside `m` slots returns when every iteration in range,
run on an object of `m` slots, returns an object of `m` slots. -/
theorem forLoop_returns (m : Nat) (body : Nat → Evaluation α → Option (Evaluation α))
    (lo k : Nat)
    (hbody : ∀ i e, lo ≤ i → i < lo + k → e.data_.length = m →
      ∃ t, body i e = some t ∧ t.data_.length = m)
    (s : Evaluation α) (hs : s.data_.length = m) :
    ∃ r, forLoop body lo k s = some r ∧ r.data_.length = m :=
  forLoop_invariant body (fun _ e => e.data_.length = m) k lo s hs
    (fun i t h1 h2 ht => hbody i t h1 h2 ht)

/-- A read inside the stored slots has a result, a read outside has none. -/
theorem readAt_some_iff (e : Evaluation α) (j : Nat) :
    (∃ x, e.readAt j = some x) ↔ j < e.data_.length := by
  constructor
  · rintro ⟨x, hx⟩
    exact (List.getElem?_eq_some.mp hx).1
  · intro h
    exact slot_some e j h

/-- A write inside the stored slots has a result, a write outside has none. -/
theorem writeAt_some_iff (e : Evaluation α) (j : Nat) (x : α) :
    (∃ r, e.writeAt j x = some r) ↔ j < e.data_.length := by
  unfold writeAt
  constructor
  · rintro ⟨r, hr⟩
    by_cases h : j < e.data_.length
    · exact h
    · rw [if_neg h] at hr
      cases hr
  · intro h
    exact ⟨_, if_pos h⟩

/-- The compound assignment `+=` returns on operands of `m` slots each. -/
theorem addAssign_returns [Add α] (a : Evaluation α) (other : Rhs α) (m : Nat)
    (ha : a.data_.length = m)
    (hd : ∀ e : Evaluation α, e.data_.length = m → (other.deref e).data_.length = m) :
    ∃ r, addAssign a other = some r := by
  have hsz : a.size = (other.deref a).size := by
    unfold size
    rw [hd a ha, ha]
  obtain ⟨r, hr, _⟩ := forLoop_returns m
    (fun i e => (e.readAt i).bind fun x =>
      ((other.deref e).readAt i).bind fun y => e.writeAt i (x + y))
    0 (a.length_ - 0) (by
      intro i e _ h2 he
      have hi : i < m := by
        have hl : a.length_ = m := ha
        omega
      obtain ⟨x, hx⟩ := slot_some e i (by omega)
      obtain ⟨y, hy⟩ := slot_some (other.deref e) i (by rw [hd e he]; exact hi)
      have hie : i < e.data_.length := by omega
      exact ⟨⟨e.data_.set i (x + y)⟩, by simp [readAt, writeAt, hx, hy, hie],
        by simpa using he⟩) a ha
  exact ⟨r, by unfold addAssign; rw [if_pos hsz]; exact hr⟩

/-- The compound assignment `-=` returns on operands of `m` slots each. -/
theorem subAssign_returns [Sub α] (a : Evaluation α) (other : Rhs α) (m : Nat)
    (ha : a.data_.length = m)
    (hd : ∀ e : Evaluation α, e.data_.length = m → (other.deref e).data_.length = m) :
    ∃ r, subAssign a other = some r := by
  have hsz : a.size = (other.deref a).size := by
    unfold size
    rw [hd a ha, ha]
  obtain ⟨r, hr, _⟩ := forLoop_returns m
    (fun i e => (e.readAt i).bind fun x =>
      ((other.deref e).readAt i).bind fun y => e.writeAt i (x - y))
    0 (a.length_ - 0) (by
      intro i e _ h2 he
      have hi : i < m := by
        have hl : a.length_ = m := ha
        omega
      obtain ⟨x, hx⟩ := slot_some e i (by omega)
      obtain ⟨y, hy⟩ := slot_some (other.deref e) i (by rw [hd e he]; exact hi)
      have hie : i < e.data_.length := by omega
      exact ⟨⟨e.data_.set i (x - y)⟩, by simp [readAt, writeAt, hx, hy, hie],
        by simpa using he⟩) a ha
  exact ⟨r, by unfold subAssign; rw [if_pos hsz]; exact hr⟩

/-- The member `copyDerivatives` returns on operands of `m` slots each, `m` positive. -/
theorem copyDerivatives_returns (a : Evaluation α) (other : Rhs α) (m : Nat)
    (ha : a.data_.length = m) (hm : 0 < m)
    (hd : ∀ e : Evaluation α, e.data_.length = m → (other.deref e).data_.length = m) :
    ∃ r, copyDerivatives a other = some r := by
  have hsz : a.size = (other.deref a).size := by
    unfold size
    rw [hd a ha, ha]
  obtain ⟨r, hr, _⟩ := forLoop_returns m
    (fun i e => ((other.deref e).readAt i).bind fun y => e.writeAt i y)
    a.dstart_ (a.dend_ - a.dstart_) (by
      intro i e _ h2 he
      have hi : i < m := by
        have hl : a.dend_ = m := ha
        have hs : a.dstart_ = 1 := rfl
        omega
      obtain ⟨y, hy⟩ := slot_some (other.deref e) i (by rw [hd e he]; exact hi)
      have hie : i < e.data_.length := by omega
      exact ⟨⟨e.data_.set i y⟩, by simp [readAt, writeAt, hy, hie], by simpa using he⟩)
    a ha
  exact ⟨r, by unfold copyDerivatives; rw [if_pos hsz]; exact hr⟩

/-- The compound assignment `*=` returns on operands of `m` slots each, `m` positive. -/
theorem mulAssign_returns [Add α] [Mul α] (a : Evaluation α) (other : Rhs α) (m : Nat)
    (ha : a.data_.length = m) (hm : 0 < m)
    (hd : ∀ e : Evaluation α, e.data_.length = m → (other.deref e).data_.length = m) :
    ∃ r, mulAssign a other = some r := by
  have hsz : a.size = (other.deref a).size := by
    unfold size
    rw [hd a ha, ha]
  obtain ⟨u, hu⟩ := slot_some a 0 (by omega)
  obtain ⟨v, hv⟩ := slot_some (other.deref a) 0 (by rw [hd a ha]; exact hm)
  have hpos : 0 < a.data_.length := by omega
  have h1len : (⟨a.data_.set 0 (u * v)⟩ : Evaluation α).data_.length = m := by
    simpa using ha
  obtain ⟨r, hr, _⟩ := forLoop_returns m
    (fun i e => (e.readAt i).bind fun di =>
      ((other.deref e).readAt i).bind fun oi => e.writeAt i (di * v + oi * u))
    1 (a.data_.length - 1) (by
      intro i e _ h2 he
      have hi : i < m := by omega
      obtain ⟨x, hx⟩ := slot_some e i (by omega)
      obtain ⟨y, hy⟩ := slot_some (other.deref e) i (by rw [hd e he]; exact hi)
      have hie : i < e.data_.length := by omega
      exact ⟨⟨e.data_.set i (x * v + y * u)⟩, by simp [readAt, writeAt, hx, hy, hie],
        by simpa using he⟩) _ h1len
  refine ⟨r, ?_⟩
  unfold mulAssign
  rw [if_pos hsz]
  have hval : a.value = some u := hu
  have hoval : (other.deref a).value = some v := hv
  have hread : a.readAt a.valuepos_ = some u := hu
  have hwrite : a.writeAt a.valuepos_ (u * v) = some ⟨a.data_.set 0 (u * v)⟩ := by
    simp [writeAt, valuepos_, hpos]
  rw [hval, hoval, hread]
  simp only [Option.some_bind]
  rw [hwrite]
  simp only [Option.some_bind]
  have hcount : (⟨a.data_.set 0 (u * v)⟩ : Evaluation α).dend_
      - (⟨a.data_.set 0 (u * v)⟩ : Evaluation α).dstart_ = a.data_.length - 1 := by
    simp [dend_, dstart_, length_]
  have hstart : (⟨a.data_.set 0 (u * v)⟩ : Evaluation α).dstart_ = 1 := rfl
  rw [hcount, hstart]
  exact hr

/-- The compound assignment `/=` returns on operands of `m` slots each, `m` positive. -/
theorem divAssign_returns [Sub α] [Mul α] [Div α] (a : Evaluation α) (other : Rhs α)
    (m : Nat) (ha : a.data_.length = m) (hm : 0 < m)
    (hd : ∀ e : Evaluation α, e.data_.length = m → (other.deref e).data_.length = m) :
    ∃ r, divAssign a other = some r := by
  have hsz : a.size = (other.deref a).size := by
    unfold size
    rw [hd a ha, ha]
  obtain ⟨r, hr, hrl⟩ := forLoop_returns m
    (fun idx e => (e.readAt e.valuepos_).bind fun u =>
      (other.deref e).value.bind fun v =>
      (e.readAt idx).bind fun uPrime =>
      ((other.deref e).readAt idx).bind fun vPrime =>
      e.writeAt idx ((v * uPrime - u * vPrime) / (v * v)))
    1 (a.data_.length - 1) (by
      intro i e _ h2 he
      have hi : i < m := by omega
      obtain ⟨u, hu⟩ := slot_some e 0 (by omega)
      obtain ⟨v, hv⟩ := slot_some (other.deref e) 0 (by rw [hd e he]; exact hm)
      obtain ⟨x, hx⟩ := slot_some e i (by omega)
      obtain ⟨y, hy⟩ := slot_some (other.deref e) i (by rw [hd e he]; exact hi)
      have hie : i < e.data_.length := by omega
      exact ⟨⟨e.data_.set i ((v * x - u * y) / (v * v))⟩,
        by simp [readAt, writeAt, value, valuepos_, hu, hv, hx, hy, hie],
        by simpa using he⟩) a ha
  obtain ⟨u, hu⟩ := slot_some r 0 (by omega)
  obtain ⟨v, hv⟩ := slot_some (other.deref r) 0 (by rw [hd r hrl]; exact hm)
  have hrpos : 0 < r.data_.length := by omega
  refine ⟨⟨r.data_.set 0 (u / v)⟩, ?_⟩
  unfold divAssign
  rw [if_pos hsz]
  have hcount : a.dend_ - a.dstart_ = a.data_.length - 1 := rfl
  have hstart : a.dstart_ = 1 := rfl
  rw [hcount, hstart, hr]
  simp [readAt, writeAt, value, valuepos_, hu, hv, hrpos]

/-- C32 (every slot access is in bounds under the preconditions): for Evaluations `a`,
`b` of one arity `n`, a read or a write of slot `j` of `a` has a result exactly when
`j` lies in `[0, n]`; the constructors of arity `n` (with a variable position in
`[0, n)`) return; and `+=`, `-=`, `*=`, `/=` and `copyDerivatives` with right operand
`b` or `a` itself, `==`, `clearDerivatives`, `value()` and, for `i` in `[0, n)`,
`derivative(i)` and `setDerivative(i, d)` all return: no assertion fails and no slot
outside the `n + 1` stored ones is touched. -/
theorem slot_accesses_in_bounds [Zero α] [One α] [Add α] [Sub α] [Mul α] [Div α]
    [DecidableEq α] (a b : Evaluation α) (n : Nat) (ha : a.size = n) (hb : b.size = n)
    (c d : α) :
    (∀ j : Nat, (∃ x, a.readAt j = some x) ↔ j ≤ n) ∧
    (∀ (j : Nat) (x : α), (∃ r, a.writeAt j x = some r) ↔ j ≤ n) ∧
    (∃ e : Evaluation α, mkBlank (n : Int) = some e ∧ e.size = n) ∧
    (∃ e : Evaluation α, mkConstant (n : Int) c = some e ∧ e.size = n) ∧
    (∀ k : Int, 0 ≤ k → k < n →
      ∃ e : Evaluation α, mkVariable (n : Int) c k = some e ∧ e.size = n) ∧
    (∀ other : Rhs α, (other = Rhs.self ∨ other = Rhs.obj b) →
      (∃ r, addAssign a other = some r) ∧ (∃ r, subAssign a other = some r) ∧
      (∃ r, mulAssign a other = some r) ∧ (∃ r, divAssign a other = some r) ∧
      (∃ r, copyDerivatives a other = some r)) ∧
    (∃ t, eqEval a b = some t) ∧ (∃ r, a.clearDerivatives = some r) ∧
    (∃ x, a.value = some x) ∧
    (∀ i : Int, 0 ≤ i → i < n →
      (∃ x, a.derivative i = some x) ∧ (∃ r, a.setDerivative i d = some r)) := by
  have hla := length_of_size a n ha
  have hlb := length_of_size b n hb
  have hblank : ((⟨List.replicate (1 + (n : Int)).toNat (0 : α)⟩
      : Evaluation α).data_.length) = n + 1 := by
    simp
    omega
  have hconst : ((⟨(List.replicate (1 + (n : Int)).toNat (0 : α)).set 0 c⟩
      : Evaluation α).data_.length) = n + 1 := by
    simp
    omega
  refine ⟨fun j => ?_, fun j x => ?_,
    ⟨_, mkBlank_eq (n : Int) (by omega), size_of_length _ n hblank⟩,
    ⟨_, mkConstant_eq (n : Int) c (by omega), size_of_length _ n hconst⟩,
    fun k hk0 hkn => ?_, fun other hother => ?_,
    ?_, ?_, slot_some a 0 (by omega), fun i h0 h1 => ⟨?_, ?_⟩⟩
  · rw [readAt_some_iff, hla]
    omega
  · rw [writeAt_some_iff, hla]
    omega
  · have hvar : ((⟨((List.replicate (1 + (n : Int)).toNat (0 : α)).set 0 c).set
        (k.toNat + 1) 1⟩ : Evaluation α).data_.length) = n + 1 := by
      simp
      omega
    exact ⟨_, mkVariable_eq (n : Int) c k hk0 hkn, size_of_length _ n hvar⟩
  · have hd : ∀ e : Evaluation α, e.data_.length = n + 1 →
        (other.deref e).data_.length = n + 1 := by
      intro e he
      rcases hother with h | h
      · rw [h]
        exact he
      · rw [h]
        exact hlb
    exact ⟨addAssign_returns a other (n + 1) hla hd,
      subAssign_returns a other (n + 1) hla hd,
      mulAssign_returns a other (n + 1) hla (by omega) hd,
      divAssign_returns a other (n + 1) hla (by omega) hd,
      copyDerivatives_returns a other (n + 1) hla (by omega) hd⟩
  · obtain ⟨t, ht, _⟩ := eqEval_spec a b (by rw [ha, hb])
    exact ⟨t, ht⟩
  · obtain ⟨r, hr, _⟩ := clearDerivatives_slots a
    exact ⟨r, hr⟩
  · obtain ⟨x, _, hx⟩ := derivative_some a n ha i h0 h1
    exact ⟨x, hx⟩
  · exact ⟨_, setDerivative_eq a i d h0 (by rw [ha]; exact h1)⟩

/-- C32, at `a = (3; 1, 7)`, `b = (4; 0, 1)`, `c = 5`, `d = 9` over the rationals. -/
theorem slot_accesses_in_bounds_witness :
    (∀ j : Nat, (∃ x, (⟨[3, 1, 7]⟩ : Evaluation ℚ).readAt j = some x) ↔ j ≤ 2) ∧
    (∀ other : Rhs ℚ, (other = Rhs.self ∨ other = Rhs.obj ⟨[4, 0, 1]⟩) →
      (∃ r, addAssign (⟨[3, 1, 7]⟩ : Evaluation ℚ) other = some r) ∧
      (∃ r, subAssign (⟨[3, 1, 7]⟩ : Evaluation ℚ) other = some r) ∧
      (∃ r, mulAssign (⟨[3, 1, 7]⟩ : Evaluation ℚ) other = some r) ∧
      (∃ r, divAssign (⟨[3, 1, 7]⟩ : Evaluation ℚ) other = some r) ∧
      (∃ r, copyDerivatives (⟨[3, 1, 7]⟩ : Evaluation ℚ) other = some r)) ∧
    (∃ t, eqEval (⟨[3, 1, 7]⟩ : Evaluation ℚ) ⟨[4, 0, 1]⟩ = some t) ∧
    (∀ i : Int, 0 ≤ i → i < (2 : Nat) →
      (∃ x, (⟨[3, 1, 7]⟩ : Evaluation ℚ).derivative i = some x) ∧
      (∃ r, (⟨[3, 1, 7]⟩ : Evaluation ℚ).setDerivative i 9 = some r)) :=
  have h := slot_accesses_in_bounds (⟨[3, 1, 7]⟩ : Evaluation ℚ) ⟨[4, 0, 1]⟩ 2
    (by decide) (by decide) 5 9
  ⟨h.1, h.2.2.2.2.2.1, h.2.2.2.2.2.2.1, h.2.2.2.2.2.2.2.2.2⟩

end Evaluation
end DenseAd
end Opm

/-! ## Sequences of source updates -/

namespace Opm
namespace Source

variable {α : Type}

/-- Two cells are the same exactly when their keys agree. -/
theorem isSame_iff_key (x c : SourceCell α) : x.isSame c = true ↔ x.key = c.key := by
  constructor
  · intro h
    exact key_of_isSame x c h
  · intro h
    have h2 : (x.ijk, x.component) = (c.ijk, c.component) := h
    simp only [Prod.mk.injEq] at h2
    simp [SourceCell.isSame, h2.1, h2.2]

/-- A replacement leaves the sequence of keys as it was, and the new key was in it. -/
theorem updateSourceLoop_keys (c : SourceCell α) :
    ∀ l l' : List (SourceCell α), updateSourceLoop c l = some l' →
      l'.map SourceCell.key = l.map SourceCell.key ∧ c.key ∈ l.map SourceCell.key := by
  intro l
  induction l with
  | nil =>
    intro l' h
    cases h
  | cons a rest ih =>
    intro l' h
    by_cases ha : a.isSame c = true
    · simp [updateSourceLoop, ha] at h
      have hk : a.key = c.key := (isSame_iff_key a c).mp ha
      rw [← h]
      simp [hk]
    · have hf : a.isSame c = false := by simpa using ha
      cases hrest : updateSourceLoop c rest with
      | none => simp [updateSourceLoop, hf, hrest] at h
      | some cells =>
        simp [updateSourceLoop, hf, hrest] at h
        obtain ⟨h1, h2⟩ := ih cells hrest
        rw [← h]
        refine ⟨by simp [h1], ?_⟩
        simp only [List.map_cons, List.mem_cons]
        exact Or.inr h2

/-- When the loop ends without returning, the new key is not among the stored keys. -/
theorem updateSourceLoop_none_key (c : SourceCell α) (l : List (SourceCell α))
    (h : updateSourceLoop c l = none) : c.key ∉ l.map SourceCell.key := by
  have hall := (updateSourceLoop_none c l).mp h
  intro hmem
  rw [List.mem_map] at hmem
  obtain ⟨x, hx, hk⟩ := hmem
  have hsame : x.isSame c = true := (isSame_iff_key x c).mpr hk
  rw [hall x hx] at hsame
  cases hsame

/-- One call of `updateSource` returns; it keeps the keys distinct and adds the key of
the record's cell to them. -/
theorem updateSource_keys (s : Source α) (r : DeckRecord α) (c : SourceCell α)
    (hc : SourceCell.ofRecord r = Except.ok c)
    (hs : (s.m_cells.map SourceCell.key).Nodup) :
    ∃ s', s.updateSource r = Except.ok s' ∧ (s'.m_cells.map SourceCell.key).Nodup ∧
      ∀ k, k ∈ s'.m_cells.map SourceCell.key ↔
        (k ∈ s.m_cells.map SourceCell.key ∨ k = c.key) := by
  cases hloop : updateSourceLoop c s.m_cells with
  | none =>
    have hnot := updateSourceLoop_none_key c s.m_cells hloop
    refine ⟨_, updateSource_of_none s r c hc hloop, ?_, fun k => ?_⟩
    · show ((s.m_cells ++ [c]).map SourceCell.key).Nodup
      rw [List.map_append, List.nodup_append]
      refine ⟨hs, by simp, ?_⟩
      intro k hk1 hk2
      simp only [List.map_cons, List.map_nil, List.mem_singleton] at hk2
      rw [hk2] at hk1
      exact hnot hk1
    · show k ∈ (s.m_cells ++ [c]).map SourceCell.key ↔ _
      simp
  | some cells =>
    obtain ⟨hkeys, hmem⟩ := updateSourceLoop_keys c s.m_cells cells hloop
    refine ⟨_, updateSource_of_some s r c cells hc hloop, ?_, fun k => ?_⟩
    · show (cells.map SourceCell.key).Nodup
      rw [hkeys]
      exact hs
    · show k ∈ cells.map SourceCell.key ↔ _
      rw [hkeys]
      constructor
      · intro h
        exact Or.inl h
      · rintro (h | h)
        · exact h
        · rw [h]
          exact hmem

/-- A sequence of calls of `updateSource` with records that all have a cell returns;
it keeps the keys distinct and adds the keys of the cells to them. -/
theorem updateSources_keys :
    ∀ (rs : List (DeckRecord α)) (cs : List (SourceCell α)) (s : Source α),
      List.Forall₂ (fun r c => SourceCell.ofRecord r = Except.ok c) rs cs →
      (s.m_cells.map SourceCell.key).Nodup →
      ∃ s', updateSources s rs = Except.ok s' ∧
        (s'.m_cells.map SourceCell.key).Nodup ∧
        ∀ k, k ∈ s'.m_cells.map SourceCell.key ↔
          (k ∈ s.m_cells.map SourceCell.key ∨ k ∈ cs.map SourceCell.key) := by
  intro rs
  induction rs with
  | nil =>
    intro cs s hf hs
    cases hf
    exact ⟨s, rfl, hs, fun k => by simp⟩
  | cons r rest ih =>
    intro cs s hf hs
    cases hf with
    | cons hrc hrest =>
      rename_i c cs1
      obtain ⟨s1, h1, hn1, hk1⟩ := updateSource_keys s r c hrc hs
      obtain ⟨s2, h2, hn2, hk2⟩ := ih cs1 s1 hrest hn1
      refine ⟨s2, ?_, hn2, fun k => ?_⟩
      · show (s.updateSource r).bind (fun prop1 => updateSources prop1 rest) = _
        rw [h1]
        exact h2
      · rw [hk2 k, hk1 k]
        simp only [List.map_cons, List.mem_cons]
        constructor
        · rintro ((h | h) | h)
          · exact Or.inl h
          · exact Or.inr (Or.inl h)
          · exact Or.inr (Or.inr h)
        · rintro (h | h | h)
          · exact Or.inl (Or.inl h)
          · exact Or.inl (Or.inr h)
          · exact Or.inr h

/-- C34 (the keys of a Source stay unique): starting from the empty Source, a finite
sequence of `updateSource` calls whose records all have a cell returns a Source in
which no two cells have one `(ijk, component)` pair, whose keys are exactly the keys
of the records, and whose `size()` is the number of distinct keys among the records. -/
theorem source_keys_unique (rs : List (DeckRecord α)) (cs : List (SourceCell α))
    (h : List.Forall₂ (fun r c => SourceCell.ofRecord r = Except.ok c) rs cs) :
    ∃ s, updateSources (mkEmpty : Source α) rs = Except.ok s ∧
      (s.m_cells.map SourceCell.key).Nodup ∧
      s.m_cells.Pairwise (fun x y => x.isSame y = false) ∧
      (∀ k, k ∈ s.m_cells.map SourceCell.key ↔ k ∈ cs.map SourceCell.key) ∧
      s.size = (cs.map SourceCell.key).toFinset.card := by
  obtain ⟨s, hs, hn, hk⟩ := updateSources_keys rs cs (mkEmpty : Source α) h
    (by simp [mkEmpty])
  have hk2 : ∀ k, k ∈ s.m_cells.map SourceCell.key ↔ k ∈ cs.map SourceCell.key := by
    intro k
    rw [hk k]
    simp [mkEmpty]
  refine ⟨s, hs, hn, ?_, hk2, ?_⟩
  · have hp : List.Pairwise (fun x y => x ≠ y) (s.m_cells.map SourceCell.key) := hn
    rw [List.pairwise_map] at hp
    refine hp.imp ?_
    intro x y hxy
    cases hsame : x.isSame y with
    | false => rfl
    | true => exact absurd ((isSame_iff_key x y).mp hsame) hxy
  · have hfin : (s.m_cells.map SourceCell.key).toFinset
        = (cs.map SourceCell.key).toFinset := by
      ext k
      rw [List.mem_toFinset, List.mem_toFinset]
      exact hk2 k
    rw [← hfin, List.toFinset_card_of_nodup hn]
    simp [size]

/-- C34, at the records `1 1 1 GAS 3`, `1 1 1 WATER 4`, `1 1 1 GAS 5` over the
integers. -/
theorem source_keys_unique_witness :
    ∃ s, updateSources (mkEmpty : Source Int)
        [⟨1, 1, 1, "GAS", 3, 0⟩, ⟨1, 1, 1, "WATER", 4, 0⟩, ⟨1, 1, 1, "GAS", 5, 0⟩]
          = Except.ok s ∧
      (s.m_cells.map SourceCell.key).Nodup ∧
      s.m_cells.Pairwise (fun x y => x.isSame y = false) ∧
      (∀ k, k ∈ s.m_cells.map SourceCell.key ↔
        k ∈ ([⟨(0, 0, 0), SourceComponent.GAS, 3, 0⟩,
          ⟨(0, 0, 0), SourceComponent.WATER, 4, 0⟩,
          ⟨(0, 0, 0), SourceComponent.GAS, 5, 0⟩] : List (SourceCell Int)).map
            SourceCell.key) ∧
      s.size = (([⟨(0, 0, 0), SourceComponent.GAS, 3, 0⟩,
          ⟨(0, 0, 0), SourceComponent.WATER, 4, 0⟩,
          ⟨(0, 0, 0), SourceComponent.GAS, 5, 0⟩] : List (SourceCell Int)).map
            SourceCell.key).toFinset.card :=
  source_keys_unique _ _
    (List.Forall₂.cons rfl (List.Forall₂.cons rfl (List.Forall₂.cons rfl List.Forall₂.nil)))

end Source
end Opm

/-! ## Deck sections -/

namespace Opm

/-- The offset returned by `find_if` does not pass the end of the range. -/
theorem find_if_le (pred : DeckKeyword → Bool) :
    ∀ l : List DeckKeyword, find_if pred l ≤ l.length := by
  intro l
  induction l with
  | nil => simp [find_if]
  | cons a rest ih =>
    by_cases ha : pred a = true
    · simp [find_if, ha]
    · simp [find_if, ha, ih]

/-- No keyword before the offset returned by `find_if` satisfies the predicate. -/
theorem find_if_before (pred : DeckKeyword → Bool) :
    ∀ (l : List DeckKeyword) (j : Nat) (kw : DeckKeyword),
      j < find_if pred l → l[j]? = some kw → pred kw = false := by
  intro l
  induction l with
  | nil =>
    intro j kw hj
    simp [find_if] at hj
  | cons a rest ih =>
    intro j kw hj hkw
    by_cases ha : pred a = true
    · simp [find_if, ha] at hj
    · have hf : pred a = false := by simpa using ha
      simp only [find_if, hf] at hj
      cases j with
      | zero =>
        simp at hkw
        rw [← hkw]
        exact hf
      | succ j => exact ih j kw (by simpa using hj) (by simpa using hkw)

/-- The keyword at the offset returned by `find_if`, if there is one, satisfies the
predicate. -/
theorem find_if_at (pred : DeckKeyword → Bool) :
    ∀ (l : List DeckKeyword) (kw : DeckKeyword),
      l[find_if pred l]? = some kw → pred kw = true := by
  intro l
  induction l with
  | nil =>
    intro kw h
    simp [find_if] at h
  | cons a rest ih =>
    intro kw h
    by_cases ha : pred a = true
    · simp [find_if, ha] at h
      rw [← h]
      exact ha
    · have hf : pred a = false := by simpa using ha
      simp only [find_if, hf] at h
      exact ih kw (by simpa using h)

/-- The answer of `find_if` is the end of the range exactly when no keyword of the
range satisfies the predicate. -/
theorem find_if_eq_length (pred : DeckKeyword → Bool) (l : List DeckKeyword) :
    find_if pred l = l.length ↔ ∀ kw ∈ l, pred kw = false := by
  constructor
  · intro h kw hkw
    obtain ⟨j, hj⟩ := List.mem_iff_getElem?.mp hkw
    have hjl : j < l.length := (List.getElem?_eq_some.mp hj).1
    exact find_if_before pred l j kw (by omega) hj
  · intro hall
    have hle := find_if_le pred l
    by_cases hlt : find_if pred l < l.length
    · obtain ⟨kw, hkw⟩ : ∃ kw, l[find_if pred l]? = some kw :=
        ⟨l[find_if pred l], List.getElem?_eq_getElem hlt⟩
      have h1 := find_if_at pred l kw hkw
      rw [hall kw (List.getElem?_mem hkw)] at h1
      cases h1
    · omega

/-- The section delimiters are the keywords with one of the eight section names. -/
theorem isSectionDelimiter_iff (kw : DeckKeyword) :
    isSectionDelimiter kw = true ↔
      kw.name ∈ ["RUNSPEC", "GRID", "EDIT", "PROPS", "REGIONS", "SOLUTION", "SUMMARY",
        "SCHEDULE"] := by
  simp [isSectionDelimiter]

/-- C35 (`find_section`): the section delimiters are the keywords named RUNSPEC, GRID,
EDIT, PROPS, REGIONS, SOLUTION, SUMMARY or SCHEDULE. When no keyword of the deck has
the requested name, `find_section` returns the empty range at the end of the deck.
Otherwise, with `first` the position of the first keyword of that name and `last` the
position of the first section delimiter after `first`, or the end of the deck when
there is none, `find_section` throws `invalid_argument` when the keyword at `last` has
the requested name, and returns the range `[first, last)` when it has not or when
`last` is the end of the deck. -/
theorem find_section_spec (deck : List DeckKeyword) (keyword : String) :
    (∀ kw : DeckKeyword, isSectionDelimiter kw = true ↔
      kw.name ∈ ["RUNSPEC", "GRID", "EDIT", "PROPS", "REGIONS", "SOLUTION", "SUMMARY",
        "SCHEDULE"]) ∧
    ((∀ kw ∈ deck, kw.name ≠ keyword) →
      find_section deck keyword = Except.ok (deck.length, deck.length)) ∧
    ((∃ kw ∈ deck, kw.name = keyword) →
      ∃ (first last : Nat) (kwf : DeckKeyword),
        deck[first]? = some kwf ∧ kwf.name = keyword ∧
        (∀ (j : Nat) (kw : DeckKeyword), j < first → deck[j]? = some kw →
          kw.name ≠ keyword) ∧
        first < last ∧ last ≤ deck.length ∧
        (∀ (j : Nat) (kw : DeckKeyword), first < j → j < last → deck[j]? = some kw →
          isSectionDelimiter kw = false) ∧
        (∀ kw : DeckKeyword, deck[last]? = some kw → isSectionDelimiter kw = true) ∧
        ((∃ kw, deck[last]? = some kw ∧ kw.name = keyword) →
          find_section deck keyword = Except.error ⟨ExceptionClass.invalid_argument,
            "Deck contains the '" ++ keyword ++ "' section multiple times"⟩) ∧
        ((∀ kw, deck[last]? = some kw → kw.name ≠ keyword) →
          find_section deck keyword = Except.ok (first, last))) := by
  refine ⟨isSectionDelimiter_iff, fun hnone => ?_, fun hsome => ?_⟩
  · have hf : find_if (fun kw => decide (kw.name = keyword)) deck = deck.length := by
      rw [find_if_eq_length]
      intro kw hkw
      simpa using hnone kw hkw
    simp [find_section, hf]
  · have hle := find_if_le (fun kw => decide (kw.name = keyword)) deck
    have hne : find_if (fun kw => decide (kw.name = keyword)) deck ≠ deck.length := by
      intro h
      rw [find_if_eq_length] at h
      obtain ⟨kw, hkw, hname⟩ := hsome
      have := h kw hkw
      simp [hname] at this
    have hlt : find_if (fun kw => decide (kw.name = keyword)) deck < deck.length := by
      omega
    generalize hfirst : find_if (fun kw => decide (kw.name = keyword)) deck = first
      at hle hne hlt
    have hoff := find_if_le isSectionDelimiter (deck.drop (first + 1))
    generalize hoffset : find_if isSectionDelimiter (deck.drop (first + 1)) = off at hoff
    have hofflen : off ≤ deck.length - (first + 1) := by simpa using hoff
    have hrun : find_section deck keyword =
        if first + 1 + off ≠ deck.length ∧
            (deck[first + 1 + off]?).map (fun kw => kw.name) = some keyword then
          Except.error ⟨ExceptionClass.invalid_argument,
            "Deck contains the '" ++ keyword ++ "' section multiple times"⟩
        else Except.ok (first, first + 1 + off) := by
      unfold find_section
      simp only [hfirst, if_neg hne, hoffset]
    refine ⟨first, first + 1 + off, deck[first], List.getElem?_eq_getElem hlt, ?_,
      fun j kw hj hkw => ?_, by omega, by omega, fun j kw hj1 hj2 hkw => ?_,
      fun kw hkw => ?_, fun hdup => ?_, fun hnodup => ?_⟩
    · have hat := find_if_at (fun kw => decide (kw.name = keyword)) deck deck[first]
        (by rw [hfirst]; exact List.getElem?_eq_getElem hlt)
      simpa using hat
    · have hb := find_if_before (fun kw => decide (kw.name = keyword)) deck j kw
        (by rw [hfirst]; exact hj) hkw
      simpa using hb
    · apply find_if_before isSectionDelimiter (deck.drop (first + 1)) (j - (first + 1)) kw
      · rw [hoffset]
        omega
      · rw [List.getElem?_drop]
        have hidx : first + 1 + (j - (first + 1)) = j := by omega
        rw [hidx]
        exact hkw
    · apply find_if_at isSectionDelimiter (deck.drop (first + 1)) kw
      rw [hoffset, List.getElem?_drop]
      exact hkw
    · obtain ⟨kw, hkw, hname⟩ := hdup
      have hl : first + 1 + off < deck.length := (List.getElem?_eq_some.mp hkw).1
      rw [hrun, if_pos ⟨by omega, by rw [hkw]; simp [hname]⟩]
    · rw [hrun, if_neg]
      rintro ⟨_, hmap⟩
      cases hkw : deck[first + 1 + off]? with
      | none =>
        rw [hkw] at hmap
        cases hmap
      | some kw =>
        rw [hkw] at hmap
        exact hnodup kw hkw (Option.some.inj hmap)

end Opm
